import Mathlib

/-!
# Graph Visualizer: a shallow embedding of `script.js`

This file embeds the data model, the Graph Store mutation operations, the
edit-history (undo/redo) mechanics, the playback controller and the
step-trace generators (BFS, DFS, Dijkstra, A*) of the Graph Visualizer
(`src/script.js`) as executable Lean definitions, and proves or refutes the
behavioural claims of the specification against them.

Modelling conventions:
* JavaScript numbers that the program only ever uses as non-negative
  integers (node ids, edge weights, indices, distances) are `ℕ`;
  `Infinity` in the Dijkstra/A* score maps is `⊤` in `WithTop ℕ`.
* Node positions are `ℚ`.  The A* heuristic (`Math.sqrt(...)/50`, a float)
  is treated as an arbitrary parameter `h : ℕ → ℚ`; no claim in scope
  depends on its concrete values.
* `Map` objects are association lists preserving JavaScript `Map`
  insertion/update semantics (`set` of a present key updates in place,
  `set` of a new key appends).
* Object identity (`===` on node objects) is modelled by a `ref` field
  drawn from an allocation counter; `ref` is not part of the JSON data of
  a node and is invisible to export/history snapshots.
* DOM/canvas interaction, zoom/pan arithmetic and `prompt`/`alert` calls
  are dropped; functions take the already-extracted inputs (positions,
  prompt strings, the `directed-toggle` checkbox value) as parameters.
-/

namespace GV

/-- An adjacency entry `{ node, weight }` as pushed by `addEdge` /
`updateAdjacencyList` in `script.js`. -/
structure AdjEntry where
  node : ℕ
  weight : ℕ
deriving DecidableEq, Repr

/-- The JSON-visible data of a node object: `{ id, x, y, label }` plus the
optional transient highlight `color` property (`none` models an absent
`color` property, i.e. no highlight tag). -/
structure NodeData where
  id : ℕ
  x : ℚ
  y : ℚ
  label : String
  color : Option String
deriving DecidableEq, Repr

/-- A live node object.  `ref` models JavaScript object identity (`===`):
every object created by `addNode` / import / restore receives a distinct
`ref` from the session's allocation counter (`GraphState.nextRef`). -/
structure Node where
  ref : ℕ
  data : NodeData
deriving DecidableEq, Repr

/-- The node's stable identifier. -/
def Node.id (n : Node) : ℕ := n.data.id

/-- The node's display label. -/
def Node.label (n : Node) : String := n.data.label

/-- An edge record `{ from, to, weight }` plus the optional transient
highlight `color` property.  Edge objects need no identity tag: the
duplicate-edge check in `addEdge` guarantees no two stored edge records are
equal as values, so the reference filter in `deleteEdge` coincides with a
value filter. -/
structure Edge where
  fromId : ℕ
  toId : ℕ
  weight : ℕ
  color : Option String
deriving DecidableEq, Repr

/-- The adjacency index `state.adj`: a JavaScript `Map` from node id to a
list of adjacency entries, as an insertion-ordered association list. -/
abbrev AdjMap := List (ℕ × List AdjEntry)

/-- `Map.get(k)` with the `|| []` default used at every call site. -/
def adjGet (a : AdjMap) (k : ℕ) : List AdjEntry := ((a.lookup k).getD [])

/-- `Map.has(k)`. -/
def adjHas (a : AdjMap) (k : ℕ) : Bool := (a.lookup k).isSome

/-- `Map.set(k, v)`: update in place if the key is present (keeping its
position), otherwise append at the end. -/
def adjSet : AdjMap → ℕ → List AdjEntry → AdjMap
  | [], k, v => [(k, v)]
  | (k', v') :: rest, k, v =>
    if k' = k then (k, v) :: rest else (k', v') :: adjSet rest k v

/-- `Map.delete(k)`. -/
def adjDelete (a : AdjMap) (k : ℕ) : AdjMap := a.filter (fun p => p.1 ≠ k)

/-- The colour constants of `script.js` used by the model. -/
def COLOR_START : String := "#16a34a"

/-- `COLORS.GOAL`. -/
def COLOR_GOAL : String := "#dc2626"

/-- `COLORS.VISITING`. -/
def COLOR_VISITING : String := "#f59e0b"

/-- `COLORS.VISITED`. -/
def COLOR_VISITED : String := "#0ea5e9"

/-- `COLORS.PATH`. -/
def COLOR_PATH : String := "#8b5cf6"

/-- `COLORS.ACTIVE_EDGE`. -/
def COLOR_ACTIVE_EDGE : String := "#f43f5e"

/-- Longest decimal-digit prefix of a character list, `none` when it is
empty (the `NaN` case of `parseInt`). -/
def parseNatPrefix (cs : List Char) : Option ℕ :=
  let ds := cs.takeWhile Char.isDigit
  if ds.isEmpty then none
  else some (ds.foldl (fun a c => a * 10 + (c.toNat - 48)) 0)

/-- ECMAScript `parseInt(s)` restricted to base-10 inputs: skip leading
whitespace, read an optional sign and then the longest digit prefix;
`none` models `NaN`.  (The hexadecimal `0x` prefix of full `parseInt` is
not modelled; no input in scope uses it.) -/
def jsParseInt (s : String) : Option ℤ :=
  let cs := s.toList.dropWhile (fun c => c = ' ' ∨ c = '\t' ∨ c = '\n' ∨ c = '\r')
  match cs with
  | '-' :: rest => (parseNatPrefix rest).map (fun n => -(n : ℤ))
  | '+' :: rest => (parseNatPrefix rest).map (fun n => (n : ℤ))
  | _ => (parseNatPrefix cs).map (fun n => (n : ℤ))

/-- The whole mutable graph-store part of the global `state` object.
`nextRef` is the object-identity allocation counter (see `Node.ref`); the
two JavaScript `Set`s are finite sets of node ids. -/
structure GraphState where
  nodes : List Node
  edges : List Edge
  adj : AdjMap
  startNode : Option Node
  goalNode : Option Node
  selectedNodes : Finset ℕ
  searchResults : Finset ℕ
  nextRef : ℕ
deriving DecidableEq

/-- The initial (empty) graph store of a fresh session. -/
def initialState : GraphState :=
  { nodes := [], edges := [], adj := [], startNode := none, goalNode := none
    selectedNodes := ∅, searchResults := ∅, nextRef := 0 }

/-- The list of node ids currently in the store. -/
def GraphState.nodeIds (s : GraphState) : List ℕ := s.nodes.map Node.id

/-- `addNode(pos)`: the new node's id is the CURRENT NODE COUNT
(`state.nodes.length`), its label is the id's text form; the node is pushed
and an empty adjacency entry is `set` for its id. -/
def addNode (s : GraphState) (x y : ℚ) : GraphState :=
  let id := s.nodes.length
  let newNode : Node :=
    { ref := s.nextRef
      data := { id := id, x := x, y := y, label := toString id, color := none } }
  { s with
    nodes := s.nodes ++ [newNode]
    adj := adjSet s.adj id []
    nextRef := s.nextRef + 1 }

/-- The failure modes of `addEdge` (surfaced as `alert`s in the source) and
of the edge-weight editor. -/
inductive EdgeError where
  | invalidWeight
  | duplicateEdge
deriving DecidableEq, Repr

/-- The duplicate-edge check of `addEdge`: an edge between `u` and `v`
already exists, matching the same `(from, to)` pair or, when the graph is
undirected, the same unordered pair in either order. -/
def edgeExists (edges : List Edge) (u v : ℕ) (directed : Bool) : Bool :=
  edges.any (fun e =>
    (e.fromId = u ∧ e.toId = v) ∨ (¬directed ∧ e.fromId = v ∧ e.toId = u))

/-- The adjacency update for a single edge: ensure the `from` key exists,
push `{node: to, weight}`, and, when the graph is undirected, the same for
the reverse entry.  These statements appear verbatim both in `addEdge`'s
incremental update and in the per-edge body of `updateAdjacencyList()`. -/
def applyEdgeAdj (directed : Bool) (a : AdjMap) (e : Edge) : AdjMap :=
  let a1 := if adjHas a e.fromId then a else adjSet a e.fromId []
  let a2 := adjSet a1 e.fromId (adjGet a1 e.fromId ++ [{ node := e.toId, weight := e.weight }])
  if directed then a2
  else
    let a3 := if adjHas a2 e.toId then a2 else adjSet a2 e.toId []
    adjSet a3 e.toId (adjGet a3 e.toId ++ [{ node := e.fromId, weight := e.weight }])

/-- The successful insertion tail of `addEdge`: push the edge record and
incrementally update the adjacency index (both directions when the graph is
undirected; see `applyEdgeAdj`). -/
def insertEdge (s : GraphState) (u v w : ℕ) (directed : Bool) : GraphState :=
  let e : Edge := { fromId := u, toId := v, weight := w, color := none }
  { s with edges := s.edges ++ [e], adj := applyEdgeAdj directed s.adj e }

/-- `addEdge(fromNode, toNode)` along the prompt path: `input` is the
string typed into the weight prompt (`none` = prompt cancelled, in which
case nothing happens).  The weight is validated first (`parseInt`, reject
`NaN` and values `≤ 0`), then the duplicate check runs; only then is the
edge inserted. -/
def addEdge (s : GraphState) (u v : ℕ) (input : Option String) (directed : Bool) :
    Option (Except EdgeError GraphState) :=
  match input with
  | none => none
  | some str =>
    match jsParseInt str with
    | none => some (.error .invalidWeight)
    | some w =>
      if w ≤ 0 then some (.error .invalidWeight)
      else if edgeExists s.edges u v directed then some (.error .duplicateEdge)
      else some (.ok (insertEdge s u v w.toNat directed))

/-- `updateAdjacencyList()`: clear the map, give every node an empty entry,
then fold every stored edge into it. -/
def updateAdjacencyList (directed : Bool) (nodes : List Node) (edges : List Edge) : AdjMap :=
  edges.foldl (applyEdgeAdj directed) (nodes.foldl (fun a n => adjSet a n.id []) [])

/-- `deleteNode(node)`: filter the node list and the edge list BY ID,
delete the node's adjacency entry and filter it out of every other entry,
null the start/goal selectors when they are (`===`) the deleted object, and
drop the id from the multi-select and search-result sets. -/
def deleteNode (s : GraphState) (node : Node) : GraphState :=
  { s with
    nodes := s.nodes.filter (fun n => n.id ≠ node.id)
    edges := s.edges.filter (fun e => e.fromId ≠ node.id ∧ e.toId ≠ node.id)
    adj := (adjDelete s.adj node.id).map
      (fun p => (p.1, p.2.filter (fun en => en.node ≠ node.id)))
    startNode := if s.startNode.any (fun n => n.ref = node.ref) then none else s.startNode
    goalNode := if s.goalNode.any (fun n => n.ref = node.ref) then none else s.goalNode
    selectedNodes := s.selectedNodes.erase node.id
    searchResults := s.searchResults.erase node.id }

/-- `clearCanvas()`'s effect on the graph store (after the confirm
dialog). -/
def clearCanvasGraph (s : GraphState) : GraphState :=
  { s with nodes := [], edges := [], adj := [], startNode := none, goalNode := none,
           selectedNodes := ∅, searchResults := ∅ }

/-- The `multi-select` click handler: toggle the clicked node's id in the
selection set. -/
def toggleSelect (s : GraphState) (node : Node) : GraphState :=
  if node.id ∈ s.selectedNodes then { s with selectedNodes := s.selectedNodes.erase node.id }
  else { s with selectedNodes := insert node.id s.selectedNodes }

/-- `handleSearch()`: clear the result set and refill it with the ids of
the nodes matching the query (`matches` abstracts the id/label substring
test on the query string). -/
def handleSearch (s : GraphState) (query : Node → Bool) : GraphState :=
  { s with searchResults := ((s.nodes.filter query).map Node.id).toFinset }

/-- `deleteEdge(edge)`: remove the edge record (reference filter; see
`Edge` on why the value filter coincides) and rebuild the adjacency index
with `updateAdjacencyList()`. -/
def deleteEdge (s : GraphState) (edge : Edge) (directed : Bool) : GraphState :=
  let edges := s.edges.filter (fun e => e ≠ edge)
  { s with edges := edges, adj := updateAdjacencyList directed s.nodes edges }

/-- The edge-weight editor in `handleClick`: `prompt` the new weight
(`none` = cancelled), `parseInt` it, and only when the result is a number
`> 0` assign it to the clicked edge and rebuild the adjacency index.
Anything else (including `NaN`) silently leaves the state untouched. -/
def editWeight (s : GraphState) (edge : Edge) (input : Option String) (directed : Bool) :
    GraphState :=
  match input with
  | none => s
  | some str =>
    match jsParseInt str with
    | none => s
    | some num =>
      if num > 0 then
        let edges := s.edges.map (fun e => if e = edge then { e with weight := num.toNat } else e)
        { s with edges := edges, adj := updateAdjacencyList directed s.nodes edges }
      else s

/-- Clear the `color` property of the node object referenced by `r` (the
`delete state.startNode.color` / `delete state.goalNode.color` statements). -/
def clearColorOfRef (nodes : List Node) (r : Option ℕ) : List Node :=
  nodes.map (fun n =>
    if (r.getD (n.ref + 1)) = n.ref then { n with data := { n.data with color := none } } else n)

/-- Set the `color` property of the node object referenced by `r`. -/
def setColorOfRef (nodes : List Node) (r : ℕ) (c : String) : List Node :=
  nodes.map (fun n =>
    if n.ref = r then { n with data := { n.data with color := some c } } else n)

/-- `setStartNode(node)`: clear the old start's colour tag, store the new
node object in the selector and paint it `COLORS.START`. -/
def setStartNode (s : GraphState) (node : Node) : GraphState :=
  let nodes1 := clearColorOfRef s.nodes (s.startNode.map Node.ref)
  let nodes2 := setColorOfRef nodes1 node.ref COLOR_START
  { s with nodes := nodes2
           startNode := some { node with data := { node.data with color := some COLOR_START } } }

/-- `setGoalNode(node)`. -/
def setGoalNode (s : GraphState) (node : Node) : GraphState :=
  let nodes1 := clearColorOfRef s.nodes (s.goalNode.map Node.ref)
  let nodes2 := setColorOfRef nodes1 node.ref COLOR_GOAL
  { s with nodes := nodes2
           goalNode := some { node with data := { node.data with color := some COLOR_GOAL } } }

/-- The `stateCopy` record pushed onto `state.history` by `saveState()`:
a JSON deep copy of the node and edge arrays (which therefore includes any
transient `color` properties present at that moment) plus the start/goal
node.  The source stores the start/goal slot as a live reference to the
node found by id in `state.nodes`; since the only field ever read from it
on restore is the immutable `id`, the model stores the found node's data
value at snapshot time. -/
structure Snapshot where
  nodes : List NodeData
  edges : List Edge
  startNode : Option NodeData
  goalNode : Option NodeData
deriving DecidableEq, Repr

/-- The deep copy built by `saveState()` (lines `const stateCopy = {...}`). -/
def saveStateCopy (s : GraphState) : Snapshot :=
  { nodes := s.nodes.map Node.data
    edges := s.edges
    startNode := s.startNode.bind (fun sn => (s.nodes.find? (fun n => n.id = sn.id)).map Node.data)
    goalNode := s.goalNode.bind (fun gn => (s.nodes.find? (fun n => n.id = gn.id)).map Node.data) }

/-- Allocate fresh node objects for a list of node data (JSON parsing
creates new objects, hence new identities). -/
def allocNodes (data : List NodeData) (nextRef : ℕ) : List Node :=
  data.enum.map (fun p => ({ ref := nextRef + p.1, data := p.2 } : Node))

/-- `restoreState()`: JSON-copy the snapshot's nodes and edges back into
the store (fresh objects, hence fresh `ref`s), re-resolve the start/goal
selectors by id against the new node array, and rebuild the adjacency
index with `updateAdjacencyList()`.  The history stack itself and all
other session fields are untouched. -/
def restoreState (s : GraphState) (snap : Snapshot) (directed : Bool) : GraphState :=
  let nodes := allocNodes snap.nodes s.nextRef
  { s with
    nodes := nodes
    edges := snap.edges
    startNode := snap.startNode.bind (fun sn => nodes.find? (fun n => n.id = sn.id))
    goalNode := snap.goalNode.bind (fun gn => nodes.find? (fun n => n.id = gn.id))
    adj := updateAdjacencyList directed nodes snap.edges
    nextRef := s.nextRef + snap.nodes.length }

/-- The persisted document shape consumed by `importGraph`. -/
structure ImportDoc where
  nodes : List NodeData
  edges : List Edge
  directed : Bool
  start : Option ℕ
  goal : Option ℕ
deriving DecidableEq, Repr

/-- The `if (data.start !== null ...) { const startNode = state.nodes.find(...);
if (startNode) setStartNode(startNode); }` tail of `importGraph`: resolve
the selector id against the current node array and apply `setStartNode`
only when both the id is present in the document and the lookup succeeds.
Note that on failure the PREVIOUS selector is left in place — `importGraph`
never clears `state.startNode`/`state.goalNode`. -/
def applyStartSel (s : GraphState) (o : Option ℕ) : GraphState :=
  match o.bind (fun i => s.nodes.find? (fun n => n.id = i)) with
  | some sn => setStartNode s sn
  | none => s

/-- The goal-selector tail of `importGraph`; see `applyStartSel`. -/
def applyGoalSel (s : GraphState) (o : Option ℕ) : GraphState :=
  match o.bind (fun i => s.nodes.find? (fun n => n.id = i)) with
  | some gn => setGoalNode s gn
  | none => s

/-- `importGraph(evt)` after successful JSON parsing: clear the node, edge,
adjacency, multi-select and search-result collections (but NOT the
start/goal selectors), push the document's nodes (`{id, label, x, y}` — any
`color` is dropped) each with an empty adjacency entry, push its edges
(`{from, to, weight}`, again without `color`, folding each into the
adjacency index exactly as `updateAdjacencyList` does), then resolve and
apply the start/goal selectors via `setStartNode`/`setGoalNode` when they
are present and found.  The document's `directed` flag is written into the
UI toggle; the embedding restricts attention to documents whose flag
agrees with the session's `directed` parameter. -/
def importGraph (s : GraphState) (doc : ImportDoc) : GraphState :=
  let nodes := allocNodes (doc.nodes.map (fun nd => { nd with color := none })) s.nextRef
  let edges := doc.edges.map (fun e => { e with color := none })
  let s1 : GraphState :=
    { s with
      nodes := nodes, edges := edges
      adj := updateAdjacencyList doc.directed nodes edges
      selectedNodes := ∅, searchResults := ∅
      nextRef := s.nextRef + doc.nodes.length }
  applyGoalSel (applyStartSel s1 doc.start) doc.goal

/-- One Step record of a trace.  All algorithm-specific auxiliary fields
(`dist`, `gScore`, `fScore`) are optional, mirroring the ad-hoc per-
algorithm step shapes of the source. -/
structure Step where
  desc : String
  ds : List ℕ
  visited : List ℕ
  path : List ℕ
  dist : Option (List (ℕ × WithTop ℕ))
  gScore : Option (List (ℕ × WithTop ℕ))
  fScore : Option (List (ℕ × WithTop ℚ))
deriving DecidableEq, Repr

/-- A step with only the common header fields (BFS/DFS/stub steps). -/
def mkStep (desc : String) (ds visited path : List ℕ) : Step :=
  { desc := desc, ds := ds, visited := visited, path := path
    dist := none, gScore := none, fScore := none }

/-- `showStep(index)`'s write-back onto the graph store: reset every
node's colour to start/goal/none, clear every edge colour, then mark
visited nodes, frontier (`ds`) nodes, path nodes and the edges joining
consecutive path nodes.  Start/goal nodes are identified by `===` against
the selector objects, i.e. by `ref`. -/
def applyShowStep (s : GraphState) (step : Step) : GraphState :=
  let isStart := fun (n : Node) => s.startNode.any (fun sn => sn.ref = n.ref)
  let isGoal := fun (n : Node) => s.goalNode.any (fun gn => gn.ref = n.ref)
  let baseColor := fun (n : Node) =>
    if isStart n then some COLOR_START
    else if isGoal n then some COLOR_GOAL
    else none
  let colorOf := fun (n : Node) =>
    if isStart n || isGoal n then baseColor n
    else if step.path.contains n.id && !step.path.isEmpty then some COLOR_PATH
    else if step.ds.contains n.id then some COLOR_VISITING
    else if step.visited.contains n.id then some COLOR_VISITED
    else none
  let nodes := s.nodes.map (fun n => { n with data := { n.data with color := colorOf n } })
  let pathPairs := step.path.zip step.path.tail
  let edges := s.edges.map (fun e =>
    if pathPairs.any (fun p =>
        (e.fromId == p.1 && e.toId == p.2) || (e.fromId == p.2 && e.toId == p.1))
    then { e with color := some COLOR_ACTIVE_EDGE }
    else { e with color := none })
  { s with nodes := nodes, edges := edges }

/-- `resetVisualization()`'s write-back onto the graph store: start/goal
keep their colours, every other node and every edge loses its colour. -/
def resetColors (s : GraphState) : GraphState :=
  let isStart := fun (n : Node) => s.startNode.any (fun sn => sn.ref = n.ref)
  let isGoal := fun (n : Node) => s.goalNode.any (fun gn => gn.ref = n.ref)
  let nodes := s.nodes.map (fun n =>
    let c := if isStart n then some COLOR_START else if isGoal n then some COLOR_GOAL else none
    { n with data := { n.data with color := c } })
  { s with nodes := nodes, edges := s.edges.map (fun e => { e with color := none }) }

/-- The undo/redo stack of `state.history` / `state.historyIndex`,
generic in the snapshot type.  `historyIndex` is `ℤ` because a fresh
session starts at `-1`. -/
structure EditHistory (α : Type) where
  history : List α
  historyIndex : ℤ
deriving DecidableEq, Repr

/-- A fresh session's history. -/
def emptyHistory (α : Type) : EditHistory α := { history := [], historyIndex := -1 }

/-- `saveState()`'s history mechanics: truncate the redo tail when the
cursor is not at the end, push the snapshot, point the cursor at it, and
when the length exceeds 50 drop the OLDEST entry (`shift()`) and decrement
the cursor. -/
def saveStateHist {α : Type} (x : α) (h : EditHistory α) : EditHistory α :=
  let hist0 :=
    if h.historyIndex < (h.history.length : ℤ) - 1 then
      h.history.take (h.historyIndex + 1).toNat
    else h.history
  let hist1 := hist0 ++ [x]
  let idx1 : ℤ := (hist1.length : ℤ) - 1
  if hist1.length > 50 then
    { history := hist1.drop 1, historyIndex := idx1 - 1 }
  else
    { history := hist1, historyIndex := idx1 }

/-- `undo()`'s cursor mechanics: decrement if the cursor is positive,
otherwise do nothing (the subsequent `restoreState()` call does not touch
the stack or the cursor). -/
def undoHist {α : Type} (h : EditHistory α) : EditHistory α :=
  if 0 < h.historyIndex then { h with historyIndex := h.historyIndex - 1 } else h

/-- `redo()`'s cursor mechanics. -/
def redoHist {α : Type} (h : EditHistory α) : EditHistory α :=
  if h.historyIndex < (h.history.length : ℤ) - 1 then
    { h with historyIndex := h.historyIndex + 1 }
  else h

/-- `canUndo`: the enablement condition of the undo button
(`historyIndex > 0`); `undo()` is a no-op exactly when it fails. -/
def canUndo {α : Type} (h : EditHistory α) : Bool := 0 < h.historyIndex

/-! ## Step-trace generators -/

/-- String interpolation of a distance value: a natural number prints in
decimal, `Infinity` prints as `"Infinity"` (JavaScript `${Infinity}`). -/
def distToString (d : WithTop ℕ) : String :=
  if d = ⊤ then "Infinity" else toString (d.untop' 0)

/-- `Number.prototype.toFixed(2)` on an exact rational: round
half-away-from-zero to two decimals and render with a two-digit fraction.
(The source applies it to IEEE doubles; the model rounds the exact value.) -/
def toFixed2 (q : ℚ) : String :=
  let sign := if q < 0 then "-" else ""
  let n : ℕ := (⌊|q| * 100 + 1/2⌋).toNat
  let fp := n % 100
  sign ++ toString (n / 100) ++ "." ++ (if fp < 10 then "0" ++ toString fp else toString fp)

/-- `toFixed(2)` lifted to a possibly-infinite score. -/
def scoreToString (x : WithTop ℚ) : String :=
  if x = ⊤ then "Infinity" else toFixed2 (x.untop' 0)

/-- `${node.label || node.id}` for a node object (an empty label is falsy
and falls back to the id). -/
def nodeLabelOrId (n : Node) : String :=
  if n.label = "" then toString n.id else n.label

/-- `state.nodes.find(n => n.id === current)` followed by
`.label || current`.  The `none` branch models a lookup miss, on which the
source would throw a `TypeError`; it is unreachable for stores whose
adjacency lists mention only stored nodes. -/
def labelOrId (nodes : List Node) (i : ℕ) : String :=
  match nodes.find? (fun n => n.id = i) with
  | some n => nodeLabelOrId n
  | none => toString i

/-- `[${ids.join(', ')}]` without the brackets. -/
def joinComma (l : List ℕ) : String := String.intercalate ", " (l.map toString)

/-- Walk a predecessor map backwards from `c`, building the path
front-to-back (the `while (...) path.unshift(...)` loops of
`prepareDijkstra` and `prepareAStar`).  The source loop runs until the
parent is `null`/`undefined`; predecessor chains produced by the
algorithms are acyclic (each step strictly decreases the tentative score),
so a fuel of the node count always suffices and the fuel-exhausted branch
is unreachable on traces the source produces. -/
def walkBack (parent : ℕ → Option ℕ) : ℕ → ℕ → List ℕ
  | 0, c => [c]
  | fuel + 1, c =>
    match parent c with
    | none => [c]
    | some p => walkBack parent fuel p ++ [c]

/-- First-encountered minimum of a score function over a nonempty list:
`for (const x of l) if (score(x) < score(best)) best = x`, starting from
the head.  Used by both the Dijkstra queue scan and the A* open-set
scan. -/
def selectMinBy {β : Type} [LT β] [DecidableRel (α := β) (· < ·)]
    (score : ℕ → β) : List ℕ → Option ℕ
  | [] => none
  | x :: xs => some (xs.foldl (fun m y => if score y < score m then y else m) x)

/-! ### BFS -/

/-- The neighbor-discovery loop of one BFS iteration: unvisited neighbors
are marked visited and enqueued, each emitting a "Discovered" step whose
frontier/visited snapshots already include the discovery. -/
def bfsDiscover : List AdjEntry → List ℕ → List ℕ → List Step →
    (List ℕ × List ℕ × List Step)
  | [], q, vis, steps => (q, vis, steps)
  | e :: es, q, vis, steps =>
    if e.node ∈ vis then bfsDiscover es q vis steps
    else
      let q' := q ++ [e.node]
      let vis' := vis ++ [e.node]
      bfsDiscover es q' vis'
        (steps ++ [mkStep s!"Discovered node {e.node}, added to queue" q' vis' []])

/-- The BFS main loop.  One fuel unit per dequeue; since every enqueued id
is unique (ids are marked visited when enqueued), `nodes.length + 1` fuel
always suffices for stores whose adjacency lists mention only stored
nodes. -/
def bfsLoop (nodes : List Node) (adj : AdjMap) :
    ℕ → List ℕ → List ℕ → List Step → (List ℕ × List Step)
  | 0, _, vis, steps => (vis, steps)
  | fuel + 1, queue, vis, steps =>
    match queue with
    | [] => (vis, steps)
    | current :: rest =>
      let s1 := steps ++ [mkStep s!"Visiting node {labelOrId nodes current}" rest vis []]
      let neighbors := adjGet adj current
      let s2 := s1 ++
        [mkStep s!"Neighbors of {labelOrId nodes current}: [{joinComma (neighbors.map AdjEntry.node)}]"
          rest vis []]
      let r := bfsDiscover neighbors rest vis s2
      bfsLoop nodes adj fuel r.1 r.2.1 r.2.2

/-- `prepareBFS()`. -/
def prepareBFS (nodes : List Node) (adj : AdjMap) (startNode : Node) : List Step :=
  let queue0 := [startNode.id]
  let vis0 := [startNode.id]
  let startStep := mkStep s!"Starting BFS from node {nodeLabelOrId startNode}" queue0 vis0 []
  let r := bfsLoop nodes adj (nodes.length + 1) queue0 vis0 [startStep]
  r.2 ++ [mkStep "BFS completed" [] r.1 []]

/-! ### DFS -/

/-- The DFS main loop.  The stack is kept in source order (top = last
element, `pop()` takes from the end, pushes append).  One fuel unit per
pop; pushes are bounded by the total adjacency length, so
`1 + nodes.length + (total adjacency entries)` fuel always suffices. -/
def dfsLoop (nodes : List Node) (adj : AdjMap) :
    ℕ → List ℕ → List ℕ → List Step → (List ℕ × List Step)
  | 0, _, vis, steps => (vis, steps)
  | fuel + 1, stack, vis, steps =>
    match stack.getLast? with
    | none => (vis, steps)
    | some current =>
      let rest := stack.dropLast
      if current ∈ vis then
        dfsLoop nodes adj fuel rest vis
          (steps ++ [mkStep s!"Skipping already visited node {current}" rest vis []])
      else
        let vis' := vis ++ [current]
        let s1 := steps ++ [mkStep s!"Visiting node {labelOrId nodes current}" rest vis' []]
        let unvisited := (adjGet adj current).filter (fun e => e.node ∉ vis')
        if unvisited.isEmpty then
          dfsLoop nodes adj fuel rest vis' s1
        else
          let s2 := s1 ++
            [mkStep s!"Adding unvisited neighbors to stack: [{joinComma (unvisited.map AdjEntry.node)}]"
              rest vis' []]
          dfsLoop nodes adj fuel (rest ++ (unvisited.reverse.map AdjEntry.node)) vis' s2

/-- Total number of adjacency entries (for the DFS fuel bound). -/
def adjTotal (adj : AdjMap) : ℕ := (adj.map (fun p => p.2.length)).sum

/-- `prepareDFS()`. -/
def prepareDFS (nodes : List Node) (adj : AdjMap) (startNode : Node) : List Step :=
  let stack0 := [startNode.id]
  let startStep := mkStep s!"Starting DFS from node {nodeLabelOrId startNode}" stack0 [] []
  let r := dfsLoop nodes adj (1 + nodes.length + adjTotal adj) stack0 [] [startStep]
  r.2 ++ [mkStep "DFS completed" [] r.1 []]

/-! ### Dijkstra -/

/-- The per-step `dist` snapshot `Object.fromEntries(dist)`, keyed in the
`Map`'s insertion order, i.e. node order. -/
def distSnapshot (nodeIds : List ℕ) (dist : ℕ → WithTop ℕ) : List (ℕ × WithTop ℕ) :=
  nodeIds.map (fun k => (k, dist k))

/-- `Array.from(dist.keys()).filter(k => !queue.includes(k) && dist.get(k) < Infinity)`. -/
def dijkstraVisited (nodeIds : List ℕ) (queue : List ℕ) (dist : ℕ → WithTop ℕ) : List ℕ :=
  nodeIds.filter (fun k => k ∉ queue ∧ dist k < ⊤)

/-- Build a Dijkstra step (all of them carry a `dist` snapshot). -/
def mkDijkstraStep (desc : String) (ds visited path : List ℕ)
    (nodeIds : List ℕ) (dist : ℕ → WithTop ℕ) : Step :=
  { desc := desc, ds := ds, visited := visited, path := path
    dist := some (distSnapshot nodeIds dist), gScore := none, fScore := none }

/-- The result of the Dijkstra relaxation loop. -/
structure DijkstraRelaxRes where
  dist : ℕ → WithTop ℕ
  prev : ℕ → Option ℕ
  steps : List Step

/-- One neighbor relaxation of the Dijkstra inner loop: only neighbors
still in the queue are considered; a strict improvement updates `dist` and
`prev` and emits an "Updated distance" step (whose snapshots use the
already-updated `dist`). -/
def dijkstraRelaxStep (nodeIds : List ℕ) (m : ℕ) (q : List ℕ) (e : AdjEntry)
    (st : DijkstraRelaxRes) : DijkstraRelaxRes :=
  if e.node ∈ q then
    let alt := st.dist m + (e.weight : WithTop ℕ)
    if alt < st.dist e.node then
      let dist' := fun v => if v = e.node then alt else st.dist v
      { dist := dist'
        prev := fun v => if v = e.node then some m else st.prev v
        steps := st.steps ++ [mkDijkstraStep s!"Updated distance to node {e.node}: {distToString alt}"
          q (dijkstraVisited nodeIds q dist') [] nodeIds dist'] }
    else st
  else st

/-- The neighbor-relaxation loop of one Dijkstra iteration. -/
def dijkstraRelax (nodeIds : List ℕ) (m : ℕ) (q : List ℕ) :
    List AdjEntry → DijkstraRelaxRes → DijkstraRelaxRes
  | [], st => st
  | e :: es, st => dijkstraRelax nodeIds m q es (dijkstraRelaxStep nodeIds m q e st)

/-- The Dijkstra main loop.  One fuel unit per dequeue; the queue loses
exactly one element per iteration, so fuel `= queue.length` is always
sufficient and the fuel-exhausted branch is unreachable from
`prepareDijkstra`. -/
def dijkstraLoop (nodes : List Node) (nodeIds : List ℕ) (adj : AdjMap) (goalId : ℕ) :
    ℕ → (ℕ → WithTop ℕ) → (ℕ → Option ℕ) → List ℕ → List Step →
    ((ℕ → WithTop ℕ) × List Step)
  | 0, dist, _, _, steps => (dist, steps)
  | fuel + 1, dist, prev, queue, steps =>
    match selectMinBy dist queue with
    | none => (dist, steps)
    | some m =>
      let q := queue.erase m
      let visiting :=
        mkDijkstraStep s!"Visiting node {labelOrId nodes m} with distance {distToString (dist m)}"
          q (dijkstraVisited nodeIds q dist) [] nodeIds dist
      if m = goalId then
        let path := walkBack prev nodes.length m
        let found :=
          mkDijkstraStep s!"Found shortest path to goal with distance {distToString (dist m)}"
            q (dijkstraVisited nodeIds q dist) path nodeIds dist
        (dist, steps ++ [visiting, found])
      else
        let r := dijkstraRelax nodeIds m q (adjGet adj m) ⟨dist, prev, steps ++ [visiting]⟩
        dijkstraLoop nodes nodeIds adj goalId fuel r.dist r.prev q r.steps

/-- `prepareDijkstra()`: initialise `dist`/`prev`/`queue` from the node
list, emit the "Starting" step, run the main loop (which exits when the
queue is empty or when the goal is dequeued) and append the unconditional
"Dijkstra's algorithm completed" step, whose `visited` is every key of
finite distance and whose `path` is empty. -/
def prepareDijkstra (nodes : List Node) (adj : AdjMap) (startNode goalNode : Node) :
    List Step :=
  let nodeIds := nodes.map Node.id
  let dist0 : ℕ → WithTop ℕ := fun v => if v = startNode.id then 0 else ⊤
  let prev0 : ℕ → Option ℕ := fun _ => none
  let startStep :=
    mkDijkstraStep s!"Starting Dijkstra's algorithm from node {nodeLabelOrId startNode}"
      nodeIds [] [] nodeIds dist0
  let r := dijkstraLoop nodes nodeIds adj goalNode.id nodeIds.length dist0 prev0 nodeIds [startStep]
  r.2 ++ [mkDijkstraStep "Dijkstra's algorithm completed" []
    (nodeIds.filter (fun k => r.1 k < ⊤)) [] nodeIds r.1]

/-! ### A*

`prepareAStar` keeps its scores in plain objects with numeric keys, so
`Object.keys(gScore)` enumerates the node ids in ascending numeric order
(ECMAScript integer-index ordering); `sortIds` models that.  The `while`
loop has no structural measure in the source; the Lean definition uses
well-founded recursion on the lexicographic measure
(number of `Infinity` g-scores, sum of the finite g-scores, open-set
size), which the lemmas below show decreases at every iteration. -/

/-- Insert into an ascending list (used to model ascending numeric key
order of `Object.keys`). -/
def sortedInsert (x : ℕ) : List ℕ → List ℕ
  | [] => [x]
  | y :: ys => if x ≤ y then x :: y :: ys else y :: sortedInsert x ys

/-- Ascending sort of a key list. -/
def sortIds (l : List ℕ) : List ℕ := l.foldr sortedInsert []

theorem mem_sortedInsert {v x : ℕ} : ∀ {l : List ℕ}, v ∈ sortedInsert x l ↔ v = x ∨ v ∈ l := by
  intro l
  induction l with
  | nil => simp [sortedInsert]
  | cons y ys ih =>
    by_cases h : x ≤ y <;> simp [sortedInsert, h, ih] <;> tauto

theorem mem_sortIds {v : ℕ} : ∀ {l : List ℕ}, v ∈ sortIds l ↔ v ∈ l := by
  intro l
  induction l with
  | nil => simp [sortIds]
  | cons y ys ih => simp [sortIds, mem_sortedInsert] at *; tauto

/-- Number of nodes whose g-score is still `Infinity` (first component of
the A* termination measure). -/
def countTop (ids : List ℕ) (g : ℕ → WithTop ℕ) : ℕ :=
  ids.countP (fun v => g v = ⊤)

/-- Sum of the finite g-scores (second component of the A* termination
measure). -/
def sumFin (ids : List ℕ) (g : ℕ → WithTop ℕ) : ℕ :=
  (ids.map (fun v => (g v).untop' 0)).sum

/-- Strict decrease of the (countTop, sumFin) measure pair. -/
def MeasureLt (ids : List ℕ) (g' g : ℕ → WithTop ℕ) : Prop :=
  countTop ids g' < countTop ids g ∨
    (countTop ids g' = countTop ids g ∧ sumFin ids g' < sumFin ids g)

theorem measureLt_trans {ids : List ℕ} {g₂ g₁ g : ℕ → WithTop ℕ}
    (h₂ : MeasureLt ids g₂ g₁) (h₁ : MeasureLt ids g₁ g) : MeasureLt ids g₂ g := by
  rcases h₂ with h₂ | ⟨h₂e, h₂s⟩ <;> rcases h₁ with h₁ | ⟨h₁e, h₁s⟩ <;>
    [left; left; left; right] <;> omega

theorem countP_le_of_imp {p q : ℕ → Bool} (himp : ∀ x, p x = true → q x = true) :
    ∀ (l : List ℕ), l.countP p ≤ l.countP q := by
  intro l
  induction l with
  | nil => simp
  | cons y ys ih =>
    simp only [List.countP_cons]
    by_cases hy : p y = true
    · simp [hy, himp y hy]; omega
    · by_cases hqy : q y = true <;> simp [hy, hqy] <;> omega

theorem countP_lt_of_witness {p q : ℕ → Bool} {v : ℕ}
    (himp : ∀ x, p x = true → q x = true) (hqv : q v = true) (hpv : ¬ p v = true) :
    ∀ (l : List ℕ), v ∈ l → l.countP p < l.countP q := by
  intro l hv
  induction l with
  | nil => cases hv
  | cons y ys ih =>
    simp only [List.countP_cons]
    rcases List.mem_cons.mp hv with rfl | hmem
    · have := countP_le_of_imp himp ys
      simp [hqv, hpv]; omega
    · have := ih hmem
      by_cases hy : p y = true
      · simp [hy, himp y hy]; omega
      · by_cases hqy : q y = true <;> simp [hy, hqy] <;> omega

theorem sum_map_lt_of_witness {f g : ℕ → ℕ} {v : ℕ}
    (hle : ∀ x, f x ≤ g x) (hlt : f v < g v) :
    ∀ (l : List ℕ), v ∈ l → (l.map f).sum < (l.map g).sum := by
  intro l hv
  induction l with
  | nil => cases hv
  | cons y ys ih =>
    simp only [List.map_cons, List.sum_cons]
    rcases List.mem_cons.mp hv with rfl | hmem
    · have : (ys.map f).sum ≤ (ys.map g).sum :=
        List.sum_le_sum (fun x _ => hle x)
      omega
    · have := ih hmem
      have := hle y
      omega

/-- A pointwise update to a strictly smaller value strictly decreases the
measure pair, provided the updated key is among the ids. -/
theorem measureLt_update {ids : List ℕ} {g : ℕ → WithTop ℕ} {v : ℕ} {a : WithTop ℕ}
    (hv : v ∈ ids) (ha : a < g v) :
    MeasureLt ids (fun x => if x = v then a else g x) g := by
  have hatop : a ≠ ⊤ := ha.ne_top
  by_cases hgv : g v = ⊤
  · left
    apply countP_lt_of_witness (v := v) _ (by simp [hgv]) (by simp [hatop]) ids hv
    intro x
    by_cases hxv : x = v <;> simp [hxv, hatop]
  · right
    obtain ⟨n, hn⟩ := WithTop.ne_top_iff_exists.mp hgv
    obtain ⟨m, hm⟩ := WithTop.ne_top_iff_exists.mp hatop
    have hmn : m < n := by
      rw [← hn, ← hm] at ha
      exact_mod_cast ha
    constructor
    · unfold countTop
      apply List.countP_congr
      intro x _
      by_cases hxv : x = v <;> simp [hxv, hgv, hatop]
    · apply sum_map_lt_of_witness (v := v)
      · intro x
        by_cases hxv : x = v
        · subst hxv
          show WithTop.untop' 0 (if x = x then a else g x) ≤ WithTop.untop' 0 (g x)
          rw [if_pos rfl, ← hn, ← hm, WithTop.untop'_coe, WithTop.untop'_coe]
          exact Nat.le_of_lt hmn
        · show WithTop.untop' 0 (if x = v then a else g x) ≤ WithTop.untop' 0 (g x)
          rw [if_neg hxv]
      · show WithTop.untop' 0 (if v = v then a else g v) < WithTop.untop' 0 (g v)
        rw [if_pos rfl, ← hn, ← hm, WithTop.untop'_coe, WithTop.untop'_coe]
        exact hmn
      · exact hv

/-- The result of the A* relaxation loop. -/
structure AStarRelaxRes where
  g : ℕ → WithTop ℕ
  f : ℕ → WithTop ℚ
  cameFrom : ℕ → Option ℕ
  openSet : List ℕ
  steps : List Step

/-- `toFixed(2)` of a possibly-infinite natural score. -/
def natScoreToString (x : WithTop ℕ) : String :=
  if x = ⊤ then "Infinity" else toFixed2 ((x.untop' 0 : ℕ) : ℚ)

/-- The g/f snapshots `{ ...gScore } / { ...fScore }` of an A* step, keyed
in ascending id order. -/
def mkAStarStep (desc : String) (ds visited path : List ℕ) (sortedIds : List ℕ)
    (g : ℕ → WithTop ℕ) (f : ℕ → WithTop ℚ) : Step :=
  { desc := desc, ds := ds, visited := visited, path := path
    dist := none
    gScore := some (sortedIds.map (fun k => (k, g k)))
    fScore := some (sortedIds.map (fun k => (k, f k))) }

/-- One neighbor relaxation of the A* inner loop: when the tentative score
(`gScore[current] + weight`, read live) strictly improves the neighbor's
g-score, update g, cameFrom and f (the new f-score is the just-assigned
tentative g plus the heuristic), push the neighbor onto the open set if
not already there, and emit an "Updated scores" step.  `visitedNodes` is
the list captured before the loop in the source. -/
def aStarRelaxStep (hfun : ℕ → ℚ) (sortedIds : List ℕ) (m : ℕ) (visitedNodes : List ℕ)
    (e : AdjEntry) (st : AStarRelaxRes) : AStarRelaxRes :=
  if st.g m + (e.weight : WithTop ℕ) < st.g e.node then
    let tentative := st.g m + (e.weight : WithTop ℕ)
    let g' := fun v => if v = e.node then tentative else st.g v
    let f' := fun v =>
      if v = e.node then WithTop.map (fun n : ℕ => (n : ℚ) + hfun e.node) tentative else st.f v
    let o' := if e.node ∈ st.openSet then st.openSet else st.openSet ++ [e.node]
    let gNew := natScoreToString (g' e.node)
    let fNew := scoreToString (f' e.node)
    { g := g'
      f := f'
      cameFrom := fun v => if v = e.node then some m else st.cameFrom v
      openSet := o'
      steps := st.steps ++ [mkAStarStep
        s!"Updated scores for node {e.node}: g={gNew}, f={fNew}"
        o' visitedNodes [] sortedIds g' f'] }
  else st

/-- The neighbor-relaxation loop of one A* iteration. -/
def aStarRelax (hfun : ℕ → ℚ) (sortedIds : List ℕ) (m : ℕ) (visitedNodes : List ℕ) :
    List AdjEntry → AStarRelaxRes → AStarRelaxRes
  | [], st => st
  | e :: es, st => aStarRelax hfun sortedIds m visitedNodes es
      (aStarRelaxStep hfun sortedIds m visitedNodes e st)

/-- One relaxation either changes nothing observable to the measure or
strictly decreases the measure pair. -/
theorem aStarRelaxStep_measure (hfun : ℕ → ℚ) (sortedIds : List ℕ) (m : ℕ) (vn : List ℕ)
    (ids : List ℕ) (e : AdjEntry) (st : AStarRelaxRes) (he : e.node ∈ ids) :
    (let r := aStarRelaxStep hfun sortedIds m vn e st
     (r.g = st.g ∧ r.openSet = st.openSet) ∨ MeasureLt ids r.g st.g) := by
  unfold aStarRelaxStep
  split
  · next himp => exact Or.inr (measureLt_update he himp)
  · exact Or.inl ⟨rfl, rfl⟩

/-- The relaxation loop either changes nothing (g and open set returned
untouched) or strictly decreases the measure pair. -/
theorem aStarRelax_measure (hfun : ℕ → ℚ) (sortedIds : List ℕ) (m : ℕ) (vn : List ℕ)
    (ids : List ℕ) :
    ∀ (es : List AdjEntry) (st : AStarRelaxRes),
      (∀ e ∈ es, e.node ∈ ids) →
      (let r := aStarRelax hfun sortedIds m vn es st
       (r.g = st.g ∧ r.openSet = st.openSet) ∨ MeasureLt ids r.g st.g) := by
  intro es
  induction es with
  | nil => intro st _; exact Or.inl ⟨rfl, rfl⟩
  | cons e es ih =>
    intro st hes
    have hrec := ih (aStarRelaxStep hfun sortedIds m vn e st)
      (fun e' he' => hes e' (List.mem_cons_of_mem e he'))
    have hstep := aStarRelaxStep_measure hfun sortedIds m vn ids e st
      (hes e (List.mem_cons_self e es))
    simp only [aStarRelax]
    rcases hrec with ⟨hg, ho⟩ | hlt
    · rcases hstep with ⟨hg', ho'⟩ | hlt'
      · exact Or.inl ⟨hg.trans hg', ho.trans ho'⟩
      · exact Or.inr (hg ▸ hlt')
    · rcases hstep with ⟨hg', _⟩ | hlt'
      · exact Or.inr (hg' ▸ hlt)
      · exact Or.inr (measureLt_trans hlt hlt')

/-- The relaxation loop keeps the open set inside the id list. -/
theorem aStarRelax_open_sub (hfun : ℕ → ℚ) (sortedIds : List ℕ) (m : ℕ) (vn : List ℕ)
    (ids : List ℕ) :
    ∀ (es : List AdjEntry) (st : AStarRelaxRes),
      (∀ e ∈ es, e.node ∈ ids) → (∀ x ∈ st.openSet, x ∈ ids) →
      ∀ x ∈ (aStarRelax hfun sortedIds m vn es st).openSet, x ∈ ids := by
  intro es
  induction es with
  | nil => intro st _ ho; simpa [aStarRelax] using ho
  | cons e es ih =>
    intro st hes ho
    simp only [aStarRelax]
    apply ih _ (fun e' he' => hes e' (List.mem_cons_of_mem e he'))
    unfold aStarRelaxStep
    split
    · intro x hx
      simp only at hx
      by_cases hmem : e.node ∈ st.openSet
      · rw [if_pos hmem] at hx; exact ho x hx
      · rw [if_neg hmem] at hx
        rcases List.mem_append.mp hx with hx | hx
        · exact ho x hx
        · rw [List.mem_singleton] at hx
          exact hx ▸ hes e (List.mem_cons_self e es)
    · exact ho

/-- The first-encountered-minimum scan returns an element of the list. -/
theorem selectMinBy_mem {β : Type} [LT β] [DecidableRel (α := β) (· < ·)]
    {score : ℕ → β} : ∀ {l : List ℕ} {m : ℕ}, selectMinBy score l = some m → m ∈ l := by
  have aux : ∀ (xs : List ℕ) (x : ℕ), xs.foldl (fun m y => if score y < score m then y else m) x ∈ x :: xs := by
    intro xs
    induction xs with
    | nil => intro x; simp
    | cons y ys ih =>
      intro x
      simp only [List.foldl_cons]
      by_cases h : score y < score x
      · simp only [h, if_pos]
        have := ih y
        simp at this ⊢
        tauto
      · simp only [h, if_neg, not_false_iff]
        have := ih x
        simp at this ⊢
        tauto
  intro l m hsel
  cases l with
  | nil => simp [selectMinBy] at hsel
  | cons x xs =>
    simp only [selectMinBy, Option.some.injEq] at hsel
    subst hsel
    exact aux xs x

/-- The A* main loop.  Each iteration picks the open node of minimal
f-score (first-encountered on ties), exits with the reconstructed path
when it is the goal, and otherwise removes it from the open set, emits a
"Visiting" step and relaxes its neighbors.  The loop terminates because
every iteration either strictly decreases the g-score measure pair or
leaves scores untouched and shrinks the open set; the `hclosed`/`hopen`
arguments carry the store invariant (adjacency targets are stored nodes)
that the measure argument needs. -/
def aStarLoop (nodeIds sortedIds : List ℕ) (adj : AdjMap) (goalId : ℕ) (hfun : ℕ → ℚ)
    (hclosed : ∀ u, ∀ e ∈ adjGet adj u, e.node ∈ nodeIds)
    (g : ℕ → WithTop ℕ) (f : ℕ → WithTop ℚ) (cameFrom : ℕ → Option ℕ)
    (openSet : List ℕ) (hopen : ∀ x ∈ openSet, x ∈ nodeIds)
    (steps : List Step) : ((ℕ → WithTop ℕ) × (ℕ → WithTop ℚ) × List Step) :=
  match hsel : selectMinBy f openSet with
  | none => (g, f, steps)
  | some current =>
    if current = goalId then
      let path := walkBack cameFrom nodeIds.length current
      (g, f, steps ++ [mkAStarStep s!"Found path to goal with cost {distToString (g goalId)}"
        openSet (sortedIds.filter (fun k => g k < ⊤)) path sortedIds g f])
    else
      let o1 := openSet.erase current
      let visitedNodes := sortedIds.filter (fun k => g k < ⊤)
      let r := aStarRelax hfun sortedIds current visitedNodes (adjGet adj current)
        ⟨g, f, cameFrom, o1,
          steps ++ [mkAStarStep s!"Visiting node {current} with fScore {scoreToString (f current)}"
            o1 visitedNodes [] sortedIds g f]⟩
      aStarLoop nodeIds sortedIds adj goalId hfun hclosed r.g r.f r.cameFrom r.openSet
        (aStarRelax_open_sub hfun sortedIds current visitedNodes nodeIds (adjGet adj current) _
          (hclosed current) (fun x hx => hopen x (List.mem_of_mem_erase hx)))
        r.steps
termination_by (countTop nodeIds g, sumFin nodeIds g, openSet.length)
decreasing_by
  have hmem : current ∈ openSet := selectMinBy_mem hsel
  have hlen : o1.length < openSet.length := by
    have := List.length_erase_of_mem hmem
    have hpos : 0 < openSet.length := List.length_pos_of_mem hmem
    simp only [o1, this]
    omega
  rcases aStarRelax_measure hfun sortedIds current visitedNodes nodeIds (adjGet adj current)
      ⟨g, f, cameFrom, o1,
        steps ++ [mkAStarStep s!"Visiting node {current} with fScore {scoreToString (f current)}"
          o1 visitedNodes [] sortedIds g f]⟩
      (hclosed current) with ⟨hg, ho⟩ | hlt
  · rw [hg, ho]
    exact Prod.Lex.right _ (Prod.Lex.right _ hlen)
  · rcases hlt with hlt | ⟨heq, hlt⟩
    · exact Prod.Lex.left _ _ hlt
    · rw [heq]
      exact Prod.Lex.right _ (Prod.Lex.left _ _ hlt)

/-- `prepareAStar()`: initialise the score maps and the open set from the
node list, emit the "Starting" step, run the main loop (which exits when
the open set is exhausted or when the goal is popped) and append the
unconditional "A* search completed" step, whose `visited` is every key of
finite g-score and whose `path` is empty.  The heuristic is an arbitrary
parameter (the source computes straight-line distance to the goal divided
by 50, in floating point); no property proved here depends on it. -/
def prepareAStar (nodes : List Node) (adj : AdjMap) (startNode goalNode : Node)
    (hfun : ℕ → ℚ)
    (hclosed : ∀ u, ∀ e ∈ adjGet adj u, e.node ∈ nodes.map Node.id)
    (hstart : startNode.id ∈ nodes.map Node.id) : List Step :=
  let nodeIds := nodes.map Node.id
  let sortedIds := sortIds nodeIds
  let g0 : ℕ → WithTop ℕ := fun v => if v = startNode.id then 0 else ⊤
  let f0 : ℕ → WithTop ℚ :=
    fun v => if v = startNode.id then ((hfun startNode.id : ℚ) : WithTop ℚ) else ⊤
  let startStep := mkAStarStep s!"Starting A* search from node {nodeLabelOrId startNode}"
    [startNode.id] [] [] sortedIds g0 f0
  let r := aStarLoop nodeIds sortedIds adj goalNode.id hfun hclosed g0 f0 (fun _ => none)
    [startNode.id]
    (by intro x hx; rw [List.mem_singleton] at hx; exact hx ▸ hstart) [startStep]
  r.2.2 ++ [mkAStarStep "A* search completed" []
    (sortedIds.filter (fun k => r.1 k < ⊤)) [] sortedIds r.1 r.2.1]

/-- Executable form of the adjacency-closedness store invariant. -/
def adjClosedB (adj : AdjMap) (ids : List ℕ) : Bool :=
  adj.all (fun p => p.2.all (fun e => e.node ∈ ids))

theorem lookup_mem {l : List (ℕ × List AdjEntry)} {a : ℕ} {b : List AdjEntry}
    (h : l.lookup a = some b) : (a, b) ∈ l := by
  induction l with
  | nil => cases h
  | cons p rest ih =>
    obtain ⟨k, v⟩ := p
    simp only [List.lookup] at h
    by_cases hk : a = k
    · subst hk
      simp only [beq_self_eq_true] at h
      rw [Option.some.injEq] at h
      exact h ▸ List.mem_cons_self _ _
    · have hne : (a == k) = false := beq_false_of_ne hk
      rw [hne] at h
      exact List.mem_cons_of_mem _ (ih h)

theorem adjClosedB_spec {adj : AdjMap} {ids : List ℕ} (h : adjClosedB adj ids = true) :
    ∀ u, ∀ e ∈ adjGet adj u, e.node ∈ ids := by
  intro u e he
  unfold adjGet at he
  cases hlu : adj.lookup u with
  | none => rw [hlu] at he; cases he
  | some l =>
    rw [hlu] at he
    simp only [Option.getD_some] at he
    have hmem : (u, l) ∈ adj := lookup_mem hlu
    have := (List.all_eq_true.mp h) _ hmem
    exact by simpa using (List.all_eq_true.mp this) e he

/-- `prepareAStar` as called by the dispatcher: the store invariants the
loop's measure needs are checked executably (they hold in every state the
dispatcher can run from); the fallback branch is unreachable there. -/
def prepareAStarChecked (nodes : List Node) (adj : AdjMap) (startNode goalNode : Node)
    (hfun : ℕ → ℚ) : List Step :=
  if hc : adjClosedB adj (nodes.map Node.id) = true ∧ startNode.id ∈ nodes.map Node.id then
    prepareAStar nodes adj startNode goalNode hfun (adjClosedB_spec hc.1) hc.2
  else []

/-! ## Playback controller (session level) -/

/-- The `algorithm-select` values. -/
inductive Algo where
  | bfs
  | dfs
  | dijkstra
  | astar
  | prim
  | kruskal
  | bellmanFord
  | floydWarshall
  | topological
  | connectedComponents
deriving DecidableEq, Repr

/-- The algorithms for which `prepareAlgo` demands a goal node. -/
def needsGoal (a : Algo) : Bool :=
  a = Algo.astar || a = Algo.dijkstra || a = Algo.bellmanFord

/-- `preparePrim()`: a placeholder single-step trace. -/
def preparePrim : List Step :=
  [mkStep "Prim's algorithm preparation not implemented in this version" [] [] []]

/-- `prepareKruskal()`: placeholder. -/
def prepareKruskal : List Step :=
  [mkStep "Kruskal's algorithm preparation not implemented in this version" [] [] []]

/-- `prepareBellmanFord()`: placeholder. -/
def prepareBellmanFord : List Step :=
  [mkStep "Bellman-Ford algorithm preparation not implemented in this version" [] [] []]

/-- `prepareFloydWarshall()`: placeholder. -/
def prepareFloydWarshall : List Step :=
  [mkStep "Floyd-Warshall algorithm preparation not implemented in this version" [] [] []]

/-- `prepareTopologicalSort()`: placeholder. -/
def prepareTopologicalSort : List Step :=
  [mkStep "Topological sort preparation not implemented in this version" [] [] []]

/-- `prepareConnectedComponents()`: placeholder. -/
def prepareConnectedComponents : List Step :=
  [mkStep "Connected components algorithm preparation not implemented in this version" [] [] []]

/-- The session state driving the playback controller: the graph store
plus `state.steps`, `state.stepIndex`, `state.intervalId` (the repeating
timer handle, `none` when no timer is active) and `state.speed`. -/
structure SessionState where
  gs : GraphState
  steps : List Step
  stepIndex : ℕ
  intervalId : Option ℕ
  speed : ℕ
  currentAlgo : Algo
deriving DecidableEq

/-- `showStep(index)`: guard the index, record it and apply the step's
highlight projection onto the graph store. -/
def showStep (s : SessionState) (index : ℕ) : SessionState :=
  if h : index < s.steps.length then
    { s with stepIndex := index, gs := applyShowStep s.gs (s.steps.get ⟨index, h⟩) }
  else s

/-- `prepareAlgo()`: alert-and-return when no start node is set, or when
the selected algorithm needs a goal and none is set; otherwise regenerate
`state.steps` with the matching generator, reset `stepIndex` to 0 and show
the first step.  `state.intervalId` is NOT touched: a running timer stays
active across the regeneration. -/
def prepareAlgoSession (s : SessionState) (hfun : ℕ → ℚ) : SessionState :=
  match s.gs.startNode with
  | none => s
  | some startNode =>
    if needsGoal s.currentAlgo ∧ s.gs.goalNode = none then s
    else
      let steps :=
        match s.currentAlgo with
        | Algo.bfs => prepareBFS s.gs.nodes s.gs.adj startNode
        | Algo.dfs => prepareDFS s.gs.nodes s.gs.adj startNode
        | Algo.dijkstra =>
          match s.gs.goalNode with
          | some goalNode => prepareDijkstra s.gs.nodes s.gs.adj startNode goalNode
          | none => []
        | Algo.astar =>
          match s.gs.goalNode with
          | some goalNode => prepareAStarChecked s.gs.nodes s.gs.adj startNode goalNode hfun
          | none => []
        | Algo.prim => preparePrim
        | Algo.kruskal => prepareKruskal
        | Algo.bellmanFord => prepareBellmanFord
        | Algo.floydWarshall => prepareFloydWarshall
        | Algo.topological => prepareTopologicalSort
        | Algo.connectedComponents => prepareConnectedComponents
      let s1 := { s with steps := steps, stepIndex := 0 }
      if steps.length > 0 then showStep s1 0 else s1

/-- `pause()`: cancel the timer if active; idempotent, callable from any
state. -/
def pauseSession (s : SessionState) : SessionState := { s with intervalId := none }

/-- `play()`: generate a trace first if none exists, clear any existing
timer and start a new one (`fresh` models the handle returned by
`setInterval`). -/
def playSession (s : SessionState) (hfun : ℕ → ℚ) (fresh : ℕ) : SessionState :=
  let s1 := if s.steps.isEmpty then prepareAlgoSession s hfun else s
  { s1 with intervalId := some fresh }

/-- One firing of the `setInterval` callback: advance while not at the
last index, otherwise cancel the timer (`clearInterval` + null). -/
def tickSession (s : SessionState) : SessionState :=
  if s.stepIndex < s.steps.length - 1 then showStep s (s.stepIndex + 1)
  else { s with intervalId := none }

/-- `nextStep()`. -/
def nextStepSession (s : SessionState) (hfun : ℕ → ℚ) : SessionState :=
  let s1 := if s.steps.isEmpty then prepareAlgoSession s hfun else s
  if s1.stepIndex < s1.steps.length - 1 then showStep s1 (s1.stepIndex + 1) else s1

/-- `prevStep()`. -/
def prevStepSession (s : SessionState) : SessionState :=
  if 0 < s.steps.length ∧ 0 < s.stepIndex then showStep s (s.stepIndex - 1) else s

/-- `resetVisualization()`: drop the trace, reset the cursor, cancel the
timer and reset the highlight colours. -/
def resetVisualizationSession (s : SessionState) : SessionState :=
  { s with steps := [], stepIndex := 0, intervalId := none, gs := resetColors s.gs }

/-- `clearCanvas()` (after the confirm dialog): empty the store, drop the
trace and cancel the timer. -/
def clearCanvasSession (s : SessionState) : SessionState :=
  { s with gs := clearCanvasGraph s.gs, steps := [], stepIndex := 0, intervalId := none }

/-- The `speed-slider` handler: store the new speed and, when a timer is
running, `pause()` then `play()` to restart it at the new interval. -/
def setSpeedSession (s : SessionState) (hfun : ℕ → ℚ) (v : ℕ) (fresh : ℕ) : SessionState :=
  let s1 := { s with speed := 2100 - v }
  if s1.intervalId.isSome then playSession (pauseSession s1) hfun fresh else s1

/-- `togglePlayPause()` (the Space key). -/
def togglePlayPauseSession (s : SessionState) (hfun : ℕ → ℚ) (fresh : ℕ) : SessionState :=
  if s.intervalId.isSome then pauseSession s else playSession s hfun fresh

/-! ## Reachability -/

/-- Reachability along the adjacency index: `Reach adj s v` holds when `v`
can be reached from `s` by following adjacency entries.  For an undirected
store (whose index is symmetric) this is exactly membership in `s`'s
connected component. -/
inductive Reach (adj : AdjMap) (s : ℕ) : ℕ → Prop
  | refl : Reach adj s s
  | step {u v : ℕ} : Reach adj s u → (∃ e ∈ adjGet adj u, e.node = v) → Reach adj s v

/-- Well-formedness of an imported document — the spec makes malformed
documents the responsibility of the (excluded) import collaborator, which
"must not reach the Graph Store's mutation API": distinct node ids and
edge endpoints among the nodes. -/
def WFDoc (doc : ImportDoc) : Prop :=
  (doc.nodes.map NodeData.id).Nodup ∧
    ∀ e ∈ doc.edges, e.fromId ∈ doc.nodes.map NodeData.id ∧ e.toId ∈ doc.nodes.map NodeData.id

/-- Well-formedness of a history snapshot (holds for every snapshot the
history records in well-formed sessions). -/
def WFSnap (snap : Snapshot) : Prop :=
  (snap.nodes.map NodeData.id).Nodup ∧
    ∀ e ∈ snap.edges, e.fromId ∈ snap.nodes.map NodeData.id ∧ e.toId ∈ snap.nodes.map NodeData.id

/-- The store states reachable from a fresh session through the graph
mutation operations, under a session-constant directedness mode.  Argument
preconditions are exactly what the UI layer guarantees: clicked
nodes/edges are elements of the store, `addEdge` connects two existing
nodes with distinct ids (the click handler refuses
`selectedEdgeStart.id === clicked.id`), imported documents are well-formed
with a matching directedness flag. -/
inductive ReachableAny (directed : Bool) : GraphState → Prop
  | init : ReachableAny directed initialState
  | addNode {s : GraphState} {x y : ℚ} : ReachableAny directed s →
      ReachableAny directed (addNode s x y)
  | addEdge {s s' : GraphState} {u v : ℕ} {input : Option String} :
      ReachableAny directed s →
      (∃ n ∈ s.nodes, Node.id n = u) → (∃ n ∈ s.nodes, Node.id n = v) → u ≠ v →
      addEdge s u v input directed = some (Except.ok s') → ReachableAny directed s'
  | deleteNode {s : GraphState} {node : Node} : ReachableAny directed s → node ∈ s.nodes →
      ReachableAny directed (deleteNode s node)
  | deleteEdge {s : GraphState} {edge : Edge} : ReachableAny directed s → edge ∈ s.edges →
      ReachableAny directed (deleteEdge s edge directed)
  | editWeight {s : GraphState} {edge : Edge} {input : Option String} :
      ReachableAny directed s → edge ∈ s.edges →
      ReachableAny directed (editWeight s edge input directed)
  | setStart {s : GraphState} {node : Node} : ReachableAny directed s → node ∈ s.nodes →
      ReachableAny directed (setStartNode s node)
  | setGoal {s : GraphState} {node : Node} : ReachableAny directed s → node ∈ s.nodes →
      ReachableAny directed (setGoalNode s node)
  | importDoc {s : GraphState} {doc : ImportDoc} : ReachableAny directed s → WFDoc doc →
      doc.directed = directed → ReachableAny directed (importGraph s doc)
  | restore {s : GraphState} {snap : Snapshot} : ReachableAny directed s → WFSnap snap →
      ReachableAny directed (restoreState s snap directed)
  | clear {s : GraphState} : ReachableAny directed s →
      ReachableAny directed (clearCanvasGraph s)
  | toggleSel {s : GraphState} {node : Node} : ReachableAny directed s → node ∈ s.nodes →
      ReachableAny directed (toggleSelect s node)
  | search {s : GraphState} {query : Node → Bool} : ReachableAny directed s →
      ReachableAny directed (handleSearch s query)

/-- Same trace semantics as `ReachableAny`, except that `addNode` is only
taken in states where no existing node's id equals the current node count
(so the id it assigns is genuinely fresh), and `importDoc` only when each
of the document's selectors either resolves to one of its nodes or was
already clear in the session (`importGraph` never clears a selector it
does not re-set, so an unresolved one would keep referring to the
discarded pre-import node objects).  The counterexamples below show the
store invariants fail without the freshness proviso; the amended invariant
theorems hold with both. -/
inductive ReachableG (directed : Bool) : GraphState → Prop
  | init : ReachableG directed initialState
  | addNode {s : GraphState} {x y : ℚ} : ReachableG directed s →
      (∀ n ∈ s.nodes, Node.id n ≠ s.nodes.length) →
      ReachableG directed (addNode s x y)
  | addEdge {s s' : GraphState} {u v : ℕ} {input : Option String} :
      ReachableG directed s →
      (∃ n ∈ s.nodes, Node.id n = u) → (∃ n ∈ s.nodes, Node.id n = v) → u ≠ v →
      addEdge s u v input directed = some (Except.ok s') → ReachableG directed s'
  | deleteNode {s : GraphState} {node : Node} : ReachableG directed s → node ∈ s.nodes →
      ReachableG directed (deleteNode s node)
  | deleteEdge {s : GraphState} {edge : Edge} : ReachableG directed s → edge ∈ s.edges →
      ReachableG directed (deleteEdge s edge directed)
  | editWeight {s : GraphState} {edge : Edge} {input : Option String} :
      ReachableG directed s → edge ∈ s.edges →
      ReachableG directed (editWeight s edge input directed)
  | setStart {s : GraphState} {node : Node} : ReachableG directed s → node ∈ s.nodes →
      ReachableG directed (setStartNode s node)
  | setGoal {s : GraphState} {node : Node} : ReachableG directed s → node ∈ s.nodes →
      ReachableG directed (setGoalNode s node)
  | importDoc {s : GraphState} {doc : ImportDoc} : ReachableG directed s → WFDoc doc →
      doc.directed = directed →
      ((∃ i, doc.start = some i ∧ i ∈ doc.nodes.map NodeData.id) ∨ s.startNode = none) →
      ((∃ i, doc.goal = some i ∧ i ∈ doc.nodes.map NodeData.id) ∨ s.goalNode = none) →
      ReachableG directed (importGraph s doc)
  | restore {s : GraphState} {snap : Snapshot} : ReachableG directed s → WFSnap snap →
      ReachableG directed (restoreState s snap directed)
  | clear {s : GraphState} : ReachableG directed s →
      ReachableG directed (clearCanvasGraph s)
  | toggleSel {s : GraphState} {node : Node} : ReachableG directed s → node ∈ s.nodes →
      ReachableG directed (toggleSelect s node)
  | search {s : GraphState} {query : Node → Bool} : ReachableG directed s →
      ReachableG directed (handleSearch s query)

/-! ## C7: the history bound -/

/-- `n` successive edits from a fresh session, the `k`-th pushing snapshot
`f k` (`saveState` runs once per successful mutation). -/
def pushN (f : ℕ → Snapshot) : ℕ → EditHistory Snapshot
  | 0 => emptyHistory Snapshot
  | n + 1 => saveStateHist (f n) (pushN f n)

theorem saveStateHist_spec {α : Type} (x : α) (h : EditHistory α)
    (hidx : h.historyIndex = (h.history.length : ℤ) - 1) :
    (saveStateHist x h).history.length =
        (if h.history.length < 50 then h.history.length + 1 else h.history.length) ∧
      (saveStateHist x h).historyIndex = ((saveStateHist x h).history.length : ℤ) - 1 := by
  have hnt : ¬ (h.historyIndex < (h.history.length : ℤ) - 1) := by omega
  simp only [saveStateHist, if_neg hnt]
  split_ifs <;>
    simp_all only [List.length_drop, List.length_append, List.length_singleton] <;>
    constructor <;> try trivial
  all_goals (push_cast; omega)

theorem pushN_spec (f : ℕ → Snapshot) :
    ∀ n, (pushN f n).history.length = (if n < 50 then n else 50) ∧
      (pushN f n).historyIndex = ((pushN f n).history.length : ℤ) - 1 := by
  intro n
  induction n with
  | zero => exact ⟨rfl, rfl⟩
  | succ n ih =>
    obtain ⟨hlen, hidx⟩ := ih
    obtain ⟨hlen', hidx'⟩ := saveStateHist_spec (f n) (pushN f n) hidx
    refine ⟨?_, ?_⟩
    · show (saveStateHist (f n) (pushN f n)).history.length = _
      rw [hlen', hlen]
      split_ifs <;> omega
    · show (saveStateHist (f n) (pushN f n)).historyIndex = _
      exact hidx'

theorem undoHist_iter {α : Type} (h : EditHistory α) (m : ℕ)
    (hidx : h.historyIndex = (m : ℤ)) :
    ∀ k, k ≤ m → (undoHist^[k] h).historyIndex = ((m - k : ℕ) : ℤ) := by
  intro k
  induction k with
  | zero => intro _; simpa using hidx
  | succ k ih =>
    intro hk
    have hk' : k ≤ m := Nat.le_of_succ_le hk
    rw [Function.iterate_succ_apply']
    have hpos : 0 < (undoHist^[k] h).historyIndex := by
      rw [ih hk']
      have h0 : 0 < m - k := by omega
      exact_mod_cast h0
    have hstep : undoHist (undoHist^[k] h) =
        if 0 < (undoHist^[k] h).historyIndex then
          { history := (undoHist^[k] h).history
            historyIndex := (undoHist^[k] h).historyIndex - 1 }
        else undoHist^[k] h := rfl
    rw [hstep, if_pos hpos]
    simp only [ih hk']
    push_cast
    omega

/-- C7 — Starting from a fresh session, after 60 sequential graph edits
(each pushing one snapshot through `saveState`, whose eviction drops the
oldest and decrements the cursor past 50 entries), `undo()` can be applied
exactly 49 times — each strictly decrementing the cursor — and the 50th
application is a no-op. -/
theorem history_bound_after_60_edits (f : ℕ → Snapshot) :
    (∀ k, k < 49 → canUndo (undoHist^[k] (pushN f 60)) = true) ∧
      canUndo (undoHist^[49] (pushN f 60)) = false ∧
      undoHist (undoHist^[49] (pushN f 60)) = undoHist^[49] (pushN f 60) := by
  obtain ⟨hlen, hidx⟩ := pushN_spec f 60
  have hidx' : (pushN f 60).historyIndex = ((49 : ℕ) : ℤ) := by
    rw [hidx, hlen]
    rfl
  refine ⟨?_, ?_, ?_⟩
  · intro k hk
    have := undoHist_iter _ 49 hidx' k (Nat.le_of_lt hk)
    unfold canUndo
    rw [this]
    have : (0 : ℤ) < ((49 - k : ℕ) : ℤ) := by
      have : 0 < 49 - k := by omega
      exact_mod_cast this
    simpa [decide_eq_true_eq]
  · have := undoHist_iter _ 49 hidx' 49 (le_refl 49)
    unfold canUndo
    rw [this]
    simp
  · have h49 := undoHist_iter _ 49 hidx' 49 (le_refl 49)
    have hnoop : undoHist (undoHist^[49] (pushN f 60)) =
        if 0 < (undoHist^[49] (pushN f 60)).historyIndex then
          { history := (undoHist^[49] (pushN f 60)).history
            historyIndex := (undoHist^[49] (pushN f 60)).historyIndex - 1 }
        else undoHist^[49] (pushN f 60) := rfl
    rw [hnoop, if_neg (by rw [h49]; simp)]

/-- Witness for C7 at a concrete snapshot stream. -/
theorem history_bound_after_60_edits_witness :
    canUndo (undoHist^[0] (pushN (fun _ => ⟨[], [], none, none⟩) 60)) = true ∧
      canUndo (undoHist^[49] (pushN (fun _ => ⟨[], [], none, none⟩) 60)) = false :=
  ⟨(history_bound_after_60_edits (fun _ => ⟨[], [], none, none⟩)).1 0 (by decide),
   (history_bound_after_60_edits (fun _ => ⟨[], [], none, none⟩)).2.1⟩

/-! ## The adjacency index in map form

`updateAdjacencyList` (and the incremental updates, which execute the same
statements) produce, for a store with distinct node ids and edge endpoints
among the nodes, an association list with exactly one entry per node whose
value is the concatenation, in edge order, of the entries each edge
contributes.  The lemmas below establish this normal form; the C2/C6
theorems read the claims' properties off it. -/

/-- The adjacency entries edge `e` contributes to key `u`, in push order:
the forward entry when `u` is the source, then (undirected only) the
reverse entry when `u` is the target. -/
def entriesFor (directed : Bool) (u : ℕ) (e : Edge) : List AdjEntry :=
  (if e.fromId = u then [{ node := e.toId, weight := e.weight }] else []) ++
    (if ¬directed ∧ e.toId = u then [{ node := e.fromId, weight := e.weight }] else [])

/-- An adjacency map with one entry per node, valued by a function of the
id. -/
def mapForm (nodes : List Node) (f : ℕ → List AdjEntry) : AdjMap :=
  nodes.map (fun n => (n.id, f n.id))

theorem lookup_mapForm_mem {nodes : List Node} {f : ℕ → List AdjEntry} {k : ℕ}
    (hk : k ∈ nodes.map Node.id) : (mapForm nodes f).lookup k = some (f k) := by
  induction nodes with
  | nil => cases hk
  | cons n rest ih =>
    rw [List.map_cons, List.mem_cons] at hk
    simp only [mapForm, List.map_cons, List.lookup]
    by_cases h : k = n.id
    · subst h
      simp
    · have hb : (k == n.id) = false := beq_false_of_ne h
      rw [hb]
      have hk' : k ∈ rest.map Node.id := by
        rcases hk with h' | h'
        · exact absurd h' h
        · exact h'
      exact ih hk'

theorem lookup_mapForm_not_mem {nodes : List Node} {f : ℕ → List AdjEntry} {k : ℕ}
    (hk : k ∉ nodes.map Node.id) : (mapForm nodes f).lookup k = none := by
  induction nodes with
  | nil => rfl
  | cons n rest ih =>
    simp only [mapForm, List.map_cons, List.lookup]
    have h : k ≠ n.id := by
      intro h
      exact hk (by rw [List.map_cons, List.mem_cons]; exact Or.inl h)
    rw [beq_false_of_ne h]
    exact ih (fun hmem => hk (by rw [List.map_cons, List.mem_cons]; exact Or.inr hmem))

theorem adjGet_mapForm_mem {nodes : List Node} {f : ℕ → List AdjEntry} {k : ℕ}
    (hk : k ∈ nodes.map Node.id) : adjGet (mapForm nodes f) k = f k := by
  unfold adjGet
  rw [lookup_mapForm_mem hk]
  rfl

theorem adjHas_mapForm {nodes : List Node} {f : ℕ → List AdjEntry} {k : ℕ} :
    adjHas (mapForm nodes f) k = true ↔ k ∈ nodes.map Node.id := by
  constructor
  · intro h
    by_contra hk
    unfold adjHas at h
    rw [lookup_mapForm_not_mem hk] at h
    cases h
  · intro hk
    unfold adjHas
    rw [lookup_mapForm_mem hk]
    rfl

theorem adjSet_mapForm {nodes : List Node} {f : ℕ → List AdjEntry} {k : ℕ}
    {v : List AdjEntry} (hnd : (nodes.map Node.id).Nodup) (hk : k ∈ nodes.map Node.id) :
    adjSet (mapForm nodes f) k v = mapForm nodes (fun j => if j = k then v else f j) := by
  induction nodes with
  | nil => cases hk
  | cons n rest ih =>
    rw [List.map_cons, List.nodup_cons] at hnd
    rw [List.map_cons, List.mem_cons] at hk
    simp only [mapForm, List.map_cons, adjSet]
    by_cases h : n.id = k
    · subst h
      rw [if_pos rfl]
      congr 1
      · rw [if_pos rfl]
      · apply List.map_congr_left
        intro m hm
        have hne : Node.id m ≠ n.id := by
          intro he
          exact hnd.1 (he ▸ List.mem_map_of_mem Node.id hm)
        rw [if_neg hne]
    · rw [if_neg h]
      have hk' : k ∈ rest.map Node.id := by
        rcases hk with h' | h'
        · exact absurd h'.symm h
        · exact h'
      rw [if_neg (fun he : Node.id n = k => h he)]
      congr 1
      exact ih hnd.2 hk'

theorem adjSet_absent {a : AdjMap} {k : ℕ} {v : List AdjEntry}
    (h : ¬ adjHas a k = true) : adjSet a k v = a ++ [(k, v)] := by
  induction a with
  | nil => rfl
  | cons p rest ih =>
    obtain ⟨k', v'⟩ := p
    simp only [adjSet]
    by_cases hk : k' = k
    · exfalso
      apply h
      subst hk
      unfold adjHas
      simp [List.lookup]
    · rw [if_neg hk]
      simp only [List.cons_append, List.cons.injEq, true_and]
      apply ih
      intro hhas
      apply h
      unfold adjHas at *
      simp only [List.lookup]
      have : (k == k') = false := beq_false_of_ne (fun he => hk he.symm)
      rw [this]
      exact hhas

theorem initAdj_mapForm {nodes : List Node} (hnd : (nodes.map Node.id).Nodup) :
    nodes.foldl (fun a n => adjSet a n.id []) [] = mapForm nodes (fun _ => []) := by
  suffices h : ∀ (nodes' : List Node) (a : AdjMap),
      (∀ n ∈ nodes', ¬ adjHas a n.id = true) → (nodes'.map Node.id).Nodup →
      nodes'.foldl (fun a n => adjSet a n.id []) a = a ++ mapForm nodes' (fun _ => []) by
    simpa using h nodes [] (by intro n _ hc; cases hc) hnd
  intro nodes'
  induction nodes' with
  | nil => intro a _ _; simp [mapForm]
  | cons n rest ih =>
    intro a habs hnd'
    simp only [List.map_cons, List.nodup_cons] at hnd'
    simp only [List.foldl_cons]
    rw [adjSet_absent (habs n (List.mem_cons_self n rest))]
    rw [ih _ ?_ hnd'.2]
    · simp [mapForm]
    · intro m hm
      intro hhas
      unfold adjHas at hhas
      rw [List.lookup_append] at hhas
      cases hlu : (a.lookup m.id) with
      | some l =>
        exact habs m (List.mem_cons_of_mem n hm) (by unfold adjHas; rw [hlu]; rfl)
      | none =>
        rw [hlu] at hhas
        simp only [Option.none_or] at hhas
        by_cases heq : m.id = n.id
        · exact hnd'.1 (heq ▸ List.mem_map_of_mem Node.id hm)
        · rw [show List.lookup m.id [(n.id, ([] : List AdjEntry))] = none from by
            simp [List.lookup, beq_false_of_ne heq]] at hhas
          cases hhas

theorem entries_pointwise_dir (f : ℕ → List AdjEntry) (j a b w : ℕ) :
    (if j = a then f a ++ [{ node := b, weight := w }] else f j) =
      f j ++ (if a = j then [({ node := b, weight := w } : AdjEntry)] else []) := by
  by_cases h : j = a
  · subst h
    simp
  · simp [h, Ne.symm h]

theorem entries_pointwise (f : ℕ → List AdjEntry) (j a b w : ℕ) :
    (if j = b then
        (if b = a then f a ++ [{ node := b, weight := w }] else f b) ++
          [{ node := a, weight := w }]
      else if j = a then f a ++ [{ node := b, weight := w }] else f j) =
      f j ++ ((if a = j then [({ node := b, weight := w } : AdjEntry)] else []) ++
        (if b = j then [({ node := a, weight := w } : AdjEntry)] else [])) := by
  by_cases h1 : j = a <;> by_cases h2 : j = b
  · subst h1
    subst h2
    simp
  · subst h1
    simp [h2, Ne.symm h2]
  · subst h2
    simp [h1, Ne.symm h1]
  · simp [h1, h2, Ne.symm h1, Ne.symm h2]

theorem applyEdgeAdj_mapForm {nodes : List Node} {f : ℕ → List AdjEntry} {e : Edge}
    (directed : Bool) (hnd : (nodes.map Node.id).Nodup)
    (hfrom : e.fromId ∈ nodes.map Node.id) (hto : e.toId ∈ nodes.map Node.id) :
    applyEdgeAdj directed (mapForm nodes f) e =
      mapForm nodes (fun j => f j ++ entriesFor directed j e) := by
  simp only [applyEdgeAdj]
  rw [if_pos (adjHas_mapForm.mpr hfrom), adjGet_mapForm_mem hfrom, adjSet_mapForm hnd hfrom]
  by_cases hd : directed
  · subst hd
    rw [if_pos rfl]
    unfold mapForm
    apply List.map_congr_left
    intro m _
    refine congrArg (fun l => (Node.id m, l)) ?_
    show (if Node.id m = e.fromId then f e.fromId ++ [{ node := e.toId, weight := e.weight }]
          else f (Node.id m)) = f (Node.id m) ++ entriesFor true (Node.id m) e
    rw [entries_pointwise_dir f (Node.id m) e.fromId e.toId e.weight]
    simp [entriesFor]
  · have hd' : directed = false := by
      cases directed
      · rfl
      · exact absurd rfl hd
    subst hd'
    rw [if_neg (by simp)]
    rw [if_pos (adjHas_mapForm.mpr hto), adjGet_mapForm_mem hto, adjSet_mapForm hnd hto]
    unfold mapForm
    apply List.map_congr_left
    intro m _
    refine congrArg (fun l => (Node.id m, l)) ?_
    show (if Node.id m = e.toId then
            (if e.toId = e.fromId then f e.fromId ++ [{ node := e.toId, weight := e.weight }]
             else f e.toId) ++ [{ node := e.fromId, weight := e.weight }]
          else if Node.id m = e.fromId then f e.fromId ++ [{ node := e.toId, weight := e.weight }]
          else f (Node.id m)) = f (Node.id m) ++ entriesFor false (Node.id m) e
    rw [entries_pointwise f (Node.id m) e.fromId e.toId e.weight]
    simp [entriesFor]

theorem updateAdjacencyList_mapForm {nodes : List Node} {edges : List Edge} (directed : Bool)
    (hnd : (nodes.map Node.id).Nodup)
    (hclosed : ∀ e ∈ edges, e.fromId ∈ nodes.map Node.id ∧ e.toId ∈ nodes.map Node.id) :
    updateAdjacencyList directed nodes edges =
      mapForm nodes (fun u => edges.flatMap (entriesFor directed u)) := by
  induction edges using List.reverseRecOn with
  | nil => exact initAdj_mapForm hnd
  | append_singleton es e ih =>
    have hclosed' : ∀ e' ∈ es, e'.fromId ∈ nodes.map Node.id ∧ e'.toId ∈ nodes.map Node.id :=
      fun e' he' => hclosed e' (List.mem_append_left _ he')
    have he : e ∈ es ++ [e] := List.mem_append_right _ (List.mem_singleton.mpr rfl)
    unfold updateAdjacencyList at *
    rw [List.foldl_append, List.foldl_cons, List.foldl_nil, ih hclosed',
      applyEdgeAdj_mapForm directed hnd (hclosed e he).1 (hclosed e he).2]
    unfold mapForm
    apply List.map_congr_left
    intro m _
    simp [List.flatMap_append]

/-! ## The store invariant -/

/-- The well-formedness bundle maintained (under the addNode freshness
proviso) by every mutation: the adjacency index equals the rebuilt index,
node ids are pairwise distinct, edge endpoints are stored node ids, and
the start/goal selectors refer (by object identity and id) to stored
nodes. -/
structure StoreInv (directed : Bool) (s : GraphState) : Prop where
  adjEq : s.adj = updateAdjacencyList directed s.nodes s.edges
  idsNodup : (s.nodes.map Node.id).Nodup
  edgesClosed : ∀ e ∈ s.edges, e.fromId ∈ s.nodes.map Node.id ∧ e.toId ∈ s.nodes.map Node.id
  startValid : ∀ n0, s.startNode = some n0 →
    ∃ n ∈ s.nodes, n.ref = n0.ref ∧ Node.id n = Node.id n0
  goalValid : ∀ n0, s.goalNode = some n0 →
    ∃ n ∈ s.nodes, n.ref = n0.ref ∧ Node.id n = Node.id n0

theorem storeInv_init (directed : Bool) : StoreInv directed initialState :=
  { adjEq := rfl
    idsNodup := List.nodup_nil
    edgesClosed := fun e he => absurd he (List.not_mem_nil e)
    startValid := fun n0 h => by cases h
    goalValid := fun n0 h => by cases h }

theorem updateAdjacencyList_congr {nodes nodes' : List Node} {edges : List Edge}
    (directed : Bool) (h : nodes.map Node.id = nodes'.map Node.id) :
    updateAdjacencyList directed nodes edges = updateAdjacencyList directed nodes' edges := by
  unfold updateAdjacencyList
  congr 1
  have h1 : ∀ (ns : List Node) (a : AdjMap),
      ns.foldl (fun a n => adjSet a n.id []) a =
        (ns.map Node.id).foldl (fun a i => adjSet a i []) a := by
    intro ns
    induction ns with
    | nil => intro a; rfl
    | cons n rest ih => intro a; simp only [List.foldl_cons, List.map_cons]; exact ih _
  rw [h1, h1, h]

theorem map_id_of_preserve {g : Node → Node} (hg : ∀ n, Node.id (g n) = Node.id n)
    (nodes : List Node) : (nodes.map g).map Node.id = nodes.map Node.id := by
  rw [List.map_map]
  exact List.map_congr_left (fun n _ => hg n)

theorem map_ref_of_preserve {g : Node → Node} (hg : ∀ n, (g n).ref = n.ref)
    (nodes : List Node) : (nodes.map g).map Node.ref = nodes.map Node.ref := by
  rw [List.map_map]
  exact List.map_congr_left (fun n _ => hg n)

theorem clearColorOfRef_id (r : Option ℕ) (n : Node) :
    Node.id ((fun n => if (r.getD (n.ref + 1)) = n.ref then
      { n with data := { n.data with color := none } } else n) n) = Node.id n := by
  dsimp only
  split <;> rfl

theorem setColorOfRef_id (r : ℕ) (c : String) (n : Node) :
    Node.id ((fun n => if n.ref = r then
      { n with data := { n.data with color := some c } } else n) n) = Node.id n := by
  dsimp only
  split <;> rfl

theorem allocNodes_map_id (data : List NodeData) (r : ℕ) :
    (allocNodes data r).map Node.id = data.map NodeData.id := by
  unfold allocNodes
  rw [List.map_map]
  have : ∀ (l : List (ℕ × NodeData)),
      l.map (Node.id ∘ fun p => ({ ref := r + p.1, data := p.2 } : Node)) =
        (l.map Prod.snd).map NodeData.id := by
    intro l
    induction l with
    | nil => rfl
    | cons p rest ih => simp only [List.map_cons, ih]; rfl
  rw [this, List.enum_map_snd]

theorem allocNodes_map_data (data : List NodeData) (r : ℕ) :
    (allocNodes data r).map Node.data = data := by
  unfold allocNodes
  rw [List.map_map]
  have : ∀ (l : List (ℕ × NodeData)),
      l.map (Node.data ∘ fun p => ({ ref := r + p.1, data := p.2 } : Node)) =
        l.map Prod.snd := by
    intro l
    induction l with
    | nil => rfl
    | cons p rest ih => simp only [List.map_cons, ih]; rfl
  rw [this, List.enum_map_snd]

theorem updateAdjacencyList_snoc (directed : Bool) (nodes : List Node) (edges : List Edge)
    (e : Edge) :
    updateAdjacencyList directed nodes (edges ++ [e]) =
      applyEdgeAdj directed (updateAdjacencyList directed nodes edges) e := by
  unfold updateAdjacencyList
  rw [List.foldl_append]
  rfl

theorem addEdge_ok_inv {s : GraphState} {u v : ℕ} {input : Option String} {d : Bool}
    {s' : GraphState} (h : addEdge s u v input d = some (Except.ok s')) :
    ∃ w : ℕ, s' = insertEdge s u v w d := by
  unfold addEdge at h
  cases input with
  | none => cases h
  | some str =>
    simp only at h
    cases hp : jsParseInt str with
    | none =>
      rw [hp] at h
      cases h
    | some w =>
      rw [hp] at h
      simp only at h
      by_cases hw : w ≤ 0
      · rw [if_pos hw] at h
        cases h
      · rw [if_neg hw] at h
        by_cases hex : edgeExists s.edges u v d = true
        · rw [if_pos hex] at h
          cases h
        · rw [if_neg hex] at h
          rw [Option.some.injEq, Except.ok.injEq] at h
          exact ⟨w.toNat, h.symm⟩

theorem mapForm_append_single (nodes : List Node) (n : Node) (f : ℕ → List AdjEntry) :
    mapForm (nodes ++ [n]) f = mapForm nodes f ++ [(n.id, f n.id)] := by
  simp [mapForm]

theorem flatMap_entriesFor_nil {d : Bool} {edges : List Edge} {i : ℕ}
    (h : ∀ e ∈ edges, e.fromId ≠ i ∧ e.toId ≠ i) :
    edges.flatMap (entriesFor d i) = [] := by
  induction edges with
  | nil => rfl
  | cons e rest ih =>
    rw [List.flatMap_cons]
    have he := h e (List.mem_cons_self e rest)
    rw [show entriesFor d i e = [] from by
      unfold entriesFor
      rw [if_neg (fun hf => he.1 hf), if_neg (fun ht => he.2 ht.2)]
      rfl]
    exact ih (fun e' he' => h e' (List.mem_cons_of_mem e he'))

theorem storeInv_addNode {d : Bool} {s : GraphState} (h : StoreInv d s)
    (hfresh : ∀ n ∈ s.nodes, Node.id n ≠ s.nodes.length) (x y : ℚ) :
    StoreInv d (addNode s x y) := by
  have hlen : s.nodes.length ∉ s.nodes.map Node.id := by
    intro hmem
    obtain ⟨n, hn, hid⟩ := List.mem_map.mp hmem
    exact hfresh n hn hid
  obtain ⟨hadj, hnd, hcl, hsv, hgv⟩ := h
  have hids : (addNode s x y).nodes.map Node.id = s.nodes.map Node.id ++ [s.nodes.length] := by
    simp [addNode, Node.id]
  have hnd' : ((addNode s x y).nodes.map Node.id).Nodup := by
    rw [hids, List.nodup_append]
    refine ⟨hnd, List.nodup_singleton _, ?_⟩
    intro a ha hb
    rw [List.mem_singleton] at hb
    exact hlen (hb ▸ ha)
  have hcl' : ∀ e ∈ (addNode s x y).edges,
      e.fromId ∈ (addNode s x y).nodes.map Node.id ∧
        e.toId ∈ (addNode s x y).nodes.map Node.id := by
    intro e he
    obtain ⟨h1, h2⟩ := hcl e he
    rw [hids]
    exact ⟨List.mem_append_left _ h1, List.mem_append_left _ h2⟩
  refine ⟨?_, hnd', hcl', ?_, ?_⟩
  · show adjSet s.adj s.nodes.length [] = _
    rw [updateAdjacencyList_mapForm d hnd' hcl']
    rw [hadj, updateAdjacencyList_mapForm d hnd hcl]
    rw [adjSet_absent (fun hhas => hlen (adjHas_mapForm.mp hhas))]
    show _ = mapForm (s.nodes ++ [_]) _
    rw [mapForm_append_single]
    congr 1
    have hflat : s.edges.flatMap (entriesFor d s.nodes.length) = [] :=
      flatMap_entriesFor_nil (fun e he =>
        ⟨fun hf => hlen (hf ▸ (hcl e he).1), fun ht => hlen (ht ▸ (hcl e he).2)⟩)
    simp [Node.id, hflat]
    intro e he
    have h12 := hcl e he
    unfold entriesFor
    rw [if_neg (show ¬ e.fromId = s.nodes.length from fun hf => hlen (hf ▸ h12.1)),
      if_neg (show ¬ (¬ d = true ∧ e.toId = s.nodes.length) from fun ht => hlen (ht.2 ▸ h12.2))]
    rfl
  · intro n0 h0
    obtain ⟨n, hn, hr, hi⟩ := hsv n0 h0
    exact ⟨n, by simp only [addNode, List.mem_append]; exact Or.inl hn, hr, hi⟩
  · intro n0 h0
    obtain ⟨n, hn, hr, hi⟩ := hgv n0 h0
    exact ⟨n, by simp only [addNode, List.mem_append]; exact Or.inl hn, hr, hi⟩

theorem storeInv_insertEdge {d : Bool} {s : GraphState} (h : StoreInv d s) {u v w : ℕ}
    (hu : u ∈ s.nodes.map Node.id) (hv : v ∈ s.nodes.map Node.id) :
    StoreInv d (insertEdge s u v w d) := by
  obtain ⟨hadj, hnd, hcl, hsv, hgv⟩ := h
  refine ⟨?_, hnd, ?_, hsv, hgv⟩
  · show applyEdgeAdj d s.adj _ = updateAdjacencyList d s.nodes (s.edges ++ [_])
    rw [updateAdjacencyList_snoc, hadj]
  · intro e he
    rcases List.mem_append.mp he with he | he
    · exact hcl e he
    · rw [List.mem_singleton] at he
      subst he
      exact ⟨hu, hv⟩

theorem nodup_map_inj {l : List Node} (hnd : (l.map Node.id).Nodup)
    {a b : Node} (ha : a ∈ l) (hb : b ∈ l) (h : Node.id a = Node.id b) : a = b := by
  induction l with
  | nil => cases ha
  | cons n rest ih =>
    rw [List.map_cons, List.nodup_cons] at hnd
    rcases List.mem_cons.mp ha with rfl | ha' <;> rcases List.mem_cons.mp hb with rfl | hb'
    · rfl
    · exact absurd (h ▸ List.mem_map_of_mem Node.id hb') hnd.1
    · exact absurd (h ▸ List.mem_map_of_mem Node.id ha') hnd.1
    · exact ih hnd.2 ha' hb'

theorem map_id_filter (nodes : List Node) (x : ℕ) :
    (nodes.filter (fun n => n.id ≠ x)).map Node.id =
      (nodes.map Node.id).filter (fun i => i ≠ x) := by
  induction nodes with
  | nil => rfl
  | cons n rest ih =>
    by_cases h : Node.id n = x
    · simp only [decide_not] at ih
      simp [List.filter_cons, h, ih]
    · simp only [decide_not] at ih
      simp [List.filter_cons, h, ih]

theorem mem_entriesFor {d : Bool} {u : ℕ} {e : Edge} {en : AdjEntry}
    (h : en ∈ entriesFor d u e) :
    (e.fromId = u ∧ en = { node := e.toId, weight := e.weight }) ∨
      (¬ d = true ∧ e.toId = u ∧ en = { node := e.fromId, weight := e.weight }) := by
  unfold entriesFor at h
  rcases List.mem_append.mp h with h | h
  · by_cases hfu : e.fromId = u
    · rw [if_pos hfu, List.mem_singleton] at h
      exact Or.inl ⟨hfu, h⟩
    · rw [if_neg hfu] at h
      cases h
  · by_cases htu : ¬ d = true ∧ e.toId = u
    · rw [if_pos htu, List.mem_singleton] at h
      exact Or.inr ⟨htu.1, htu.2, h⟩
    · rw [if_neg htu] at h
      cases h

theorem entriesFor_filter_keep {d : Bool} {u x : ℕ} {e : Edge}
    (hfx : e.fromId ≠ x) (htx : e.toId ≠ x) :
    (entriesFor d u e).filter (fun en => en.node ≠ x) = entriesFor d u e := by
  rw [List.filter_eq_self]
  intro en hen
  rcases mem_entriesFor hen with ⟨_, rfl⟩ | ⟨_, _, rfl⟩
  · simpa using htx
  · simpa using hfx

theorem entriesFor_filter_drop {d : Bool} {u x : ℕ} {e : Edge}
    (hux : u ≠ x) (hinc : e.fromId = x ∨ e.toId = x) :
    (entriesFor d u e).filter (fun en => en.node ≠ x) = [] := by
  rw [List.filter_eq_nil_iff]
  intro en hen
  rcases mem_entriesFor hen with ⟨hfu, rfl⟩ | ⟨_, htu, rfl⟩
  · rcases hinc with hfx | htx
    · exact absurd (hfx ▸ hfu : (x : ℕ) = u) (fun he => hux he.symm)
    · simpa using htx
  · rcases hinc with hfx | htx
    · simpa using hfx
    · exact absurd (htx ▸ htu : (x : ℕ) = u) (fun he => hux he.symm)

theorem filter_flatMap_entries {d : Bool} {x : ℕ} (u : ℕ) (hux : u ≠ x) :
    ∀ (edges : List Edge),
      (edges.flatMap (entriesFor d u)).filter (fun en => en.node ≠ x) =
        (edges.filter (fun e => e.fromId ≠ x ∧ e.toId ≠ x)).flatMap (entriesFor d u) := by
  intro edges
  induction edges with
  | nil => rfl
  | cons e rest ih =>
    rw [List.flatMap_cons, List.filter_append, ih]
    simp only [List.filter_cons]
    by_cases hke : e.fromId ≠ x ∧ e.toId ≠ x
    · rw [entriesFor_filter_keep hke.1 hke.2, if_pos (by simpa using hke), List.flatMap_cons]
    · have hinc : e.fromId = x ∨ e.toId = x := by tauto
      rw [entriesFor_filter_drop hux hinc, if_neg (by simpa using hke), List.nil_append]

theorem adjDelete_mapForm (nodes : List Node) (f : ℕ → List AdjEntry) (x : ℕ) :
    adjDelete (mapForm nodes f) x = mapForm (nodes.filter (fun n => n.id ≠ x)) f := by
  induction nodes with
  | nil => rfl
  | cons n rest ih =>
    simp only [mapForm, adjDelete, List.map_cons, List.filter_cons] at ih ⊢
    by_cases h : Node.id n = x
    · simp only [decide_not] at ih
      simp [List.filter_cons, h, ih]
    · simp only [decide_not] at ih
      simp [List.filter_cons, h, ih]

theorem mapForm_map_values (nodes : List Node) (f : ℕ → List AdjEntry)
    (g : List AdjEntry → List AdjEntry) :
    (mapForm nodes f).map (fun p => (p.1, g p.2)) = mapForm nodes (fun j => g (f j)) := by
  unfold mapForm
  rw [List.map_map]
  rfl

theorem storeInv_deleteNode {d : Bool} {s : GraphState} (h : StoreInv d s) {node : Node}
    (hmem : node ∈ s.nodes) : StoreInv d (deleteNode s node) := by
  obtain ⟨hadj, hnd, hcl, hsv, hgv⟩ := h
  have hids : (deleteNode s node).nodes.map Node.id =
      (s.nodes.map Node.id).filter (fun i => i ≠ node.id) := map_id_filter s.nodes node.id
  have hnd' : ((deleteNode s node).nodes.map Node.id).Nodup := by
    rw [hids]
    exact hnd.filter _
  have hmemid : ∀ {i : ℕ}, i ∈ s.nodes.map Node.id → i ≠ node.id →
      i ∈ (deleteNode s node).nodes.map Node.id := by
    intro i hi hne
    rw [hids, List.mem_filter]
    exact ⟨hi, by simpa using hne⟩
  have hcl' : ∀ e ∈ (deleteNode s node).edges,
      e.fromId ∈ (deleteNode s node).nodes.map Node.id ∧
        e.toId ∈ (deleteNode s node).nodes.map Node.id := by
    intro e he
    have he' : e ∈ s.edges.filter (fun e => e.fromId ≠ node.id ∧ e.toId ≠ node.id) := he
    rw [List.mem_filter] at he'
    obtain ⟨hee, hcond⟩ := he'
    have hcond' : e.fromId ≠ node.id ∧ e.toId ≠ node.id := by simpa using hcond
    exact ⟨hmemid (hcl e hee).1 hcond'.1, hmemid (hcl e hee).2 hcond'.2⟩
  refine ⟨?_, hnd', hcl', ?_, ?_⟩
  · show ((adjDelete s.adj node.id).map _) = _
    rw [hadj, updateAdjacencyList_mapForm d hnd hcl, adjDelete_mapForm, mapForm_map_values]
    rw [updateAdjacencyList_mapForm d hnd' hcl']
    unfold mapForm
    apply List.map_congr_left
    intro m hm
    rw [List.mem_filter] at hm
    have hmx : Node.id m ≠ node.id := by simpa using hm.2
    refine congrArg (fun l => (Node.id m, l)) ?_
    exact filter_flatMap_entries (Node.id m) hmx s.edges
  · intro n0 h0
    by_cases hany : s.startNode.any (fun n => n.ref = node.ref)
    · exfalso
      have : (deleteNode s node).startNode = none := by
        unfold deleteNode
        simp only [hany, if_pos]
      rw [this] at h0
      cases h0
    · have h0' : s.startNode = some n0 := by
        have : (deleteNode s node).startNode = s.startNode := by
          unfold deleteNode
          simp [hany]
        rwa [this] at h0
      obtain ⟨n, hn, hr, hi⟩ := hsv n0 h0'
      refine ⟨n, ?_, hr, hi⟩
      have hnid : Node.id n ≠ node.id := by
        intro heq
        have : n = node := nodup_map_inj hnd hn hmem heq
        subst this
        apply hany
        rw [h0']
        simp only [Option.any_some]
        simpa using hr.symm
      show n ∈ s.nodes.filter (fun m => m.id ≠ node.id)
      rw [List.mem_filter]
      exact ⟨hn, by simpa using hnid⟩
  · intro n0 h0
    by_cases hany : s.goalNode.any (fun n => n.ref = node.ref)
    · exfalso
      have : (deleteNode s node).goalNode = none := by
        unfold deleteNode
        simp only [hany, if_pos]
      rw [this] at h0
      cases h0
    · have h0' : s.goalNode = some n0 := by
        have : (deleteNode s node).goalNode = s.goalNode := by
          unfold deleteNode
          simp [hany]
        rwa [this] at h0
      obtain ⟨n, hn, hr, hi⟩ := hgv n0 h0'
      refine ⟨n, ?_, hr, hi⟩
      have hnid : Node.id n ≠ node.id := by
        intro heq
        have : n = node := nodup_map_inj hnd hn hmem heq
        subst this
        apply hany
        rw [h0']
        simp only [Option.any_some]
        simpa using hr.symm
      show n ∈ s.nodes.filter (fun m => m.id ≠ node.id)
      rw [List.mem_filter]
      exact ⟨hn, by simpa using hnid⟩

theorem storeInv_deleteEdge {d : Bool} {s : GraphState} (h : StoreInv d s) (edge : Edge) :
    StoreInv d (deleteEdge s edge d) := by
  obtain ⟨hadj, hnd, hcl, hsv, hgv⟩ := h
  exact ⟨rfl, hnd, fun e he => hcl e (List.mem_of_mem_filter he), hsv, hgv⟩

theorem storeInv_editWeight {d : Bool} {s : GraphState} (h : StoreInv d s) (edge : Edge)
    (input : Option String) : StoreInv d (editWeight s edge input d) := by
  unfold editWeight
  split
  · exact h
  · split
    · exact h
    · split
      · obtain ⟨hadj, hnd, hcl, hsv, hgv⟩ := h
        refine ⟨rfl, hnd, ?_, hsv, hgv⟩
        intro e he
        rw [List.mem_map] at he
        obtain ⟨e0, he0, rfl⟩ := he
        by_cases heq : e0 = edge
        · simpa [heq] using hcl e0 he0
        · simpa [heq] using hcl e0 he0
      · exact h

theorem storeInv_clearCanvas {d : Bool} (s : GraphState) :
    StoreInv d (clearCanvasGraph s) :=
  { adjEq := rfl
    idsNodup := List.nodup_nil
    edgesClosed := fun e he => absurd he (List.not_mem_nil e)
    startValid := fun n0 h0 => by cases h0
    goalValid := fun n0 h0 => by cases h0 }

theorem storeInv_toggleSelect {d : Bool} {s : GraphState} (h : StoreInv d s) (node : Node) :
    StoreInv d (toggleSelect s node) := by
  unfold toggleSelect
  split
  · exact ⟨h.adjEq, h.idsNodup, h.edgesClosed, h.startValid, h.goalValid⟩
  · exact ⟨h.adjEq, h.idsNodup, h.edgesClosed, h.startValid, h.goalValid⟩

theorem storeInv_handleSearch {d : Bool} {s : GraphState} (h : StoreInv d s)
    (query : Node → Bool) : StoreInv d (handleSearch s query) :=
  ⟨h.adjEq, h.idsNodup, h.edgesClosed, h.startValid, h.goalValid⟩

/-! ### Selector recolouring preserves ids and refs -/

theorem clearColorOfRef_mem {ns : List Node} {n : Node} (hn : n ∈ ns) (r : Option ℕ) :
    ∃ m ∈ clearColorOfRef ns r, m.ref = n.ref ∧ Node.id m = Node.id n := by
  unfold clearColorOfRef
  refine ⟨_, List.mem_map_of_mem _ hn, ?_, ?_⟩ <;> dsimp only <;> split <;> rfl

theorem setColorOfRef_mem {ns : List Node} {n : Node} (hn : n ∈ ns) (r : ℕ) (c : String) :
    ∃ m ∈ setColorOfRef ns r c, m.ref = n.ref ∧ Node.id m = Node.id n := by
  unfold setColorOfRef
  refine ⟨_, List.mem_map_of_mem _ hn, ?_, ?_⟩ <;> dsimp only <;> split <;> rfl

theorem recolor_map_id (ns : List Node) (r : Option ℕ) (rr : ℕ) (c : String) :
    (setColorOfRef (clearColorOfRef ns r) rr c).map Node.id = ns.map Node.id := by
  unfold setColorOfRef clearColorOfRef
  rw [map_id_of_preserve (fun n => setColorOfRef_id rr c n),
    map_id_of_preserve (fun n => clearColorOfRef_id r n)]

theorem recolor_mem {ns : List Node} {n : Node} (hn : n ∈ ns) (r : Option ℕ) (rr : ℕ)
    (c : String) :
    ∃ m ∈ setColorOfRef (clearColorOfRef ns r) rr c, m.ref = n.ref ∧ Node.id m = Node.id n := by
  obtain ⟨m1, hm1, hr1, hi1⟩ := clearColorOfRef_mem hn r
  obtain ⟨m2, hm2, hr2, hi2⟩ := setColorOfRef_mem hm1 rr c
  exact ⟨m2, hm2, hr2.trans hr1, hi2.trans hi1⟩

theorem setStartNode_map_id (s : GraphState) (node : Node) :
    (setStartNode s node).nodes.map Node.id = s.nodes.map Node.id :=
  recolor_map_id s.nodes (s.startNode.map Node.ref) node.ref COLOR_START

theorem setGoalNode_map_id (s : GraphState) (node : Node) :
    (setGoalNode s node).nodes.map Node.id = s.nodes.map Node.id :=
  recolor_map_id s.nodes (s.goalNode.map Node.ref) node.ref COLOR_GOAL

theorem setStartNode_mem {s : GraphState} {n : Node} (hn : n ∈ s.nodes) (node : Node) :
    ∃ m ∈ (setStartNode s node).nodes, m.ref = n.ref ∧ Node.id m = Node.id n :=
  recolor_mem hn (s.startNode.map Node.ref) node.ref COLOR_START

theorem setGoalNode_mem {s : GraphState} {n : Node} (hn : n ∈ s.nodes) (node : Node) :
    ∃ m ∈ (setGoalNode s node).nodes, m.ref = n.ref ∧ Node.id m = Node.id n :=
  recolor_mem hn (s.goalNode.map Node.ref) node.ref COLOR_GOAL

theorem storeInv_setStartNode {d : Bool} {s : GraphState} (h : StoreInv d s) {node : Node}
    (hmem : node ∈ s.nodes) : StoreInv d (setStartNode s node) := by
  obtain ⟨hadj, hnd, hcl, hsv, hgv⟩ := h
  have hid := setStartNode_map_id s node
  refine ⟨?_, ?_, ?_, ?_, ?_⟩
  · show s.adj = updateAdjacencyList d (setStartNode s node).nodes s.edges
    rw [hadj]
    exact updateAdjacencyList_congr d hid.symm
  · rw [hid]; exact hnd
  · intro e he
    rw [hid]
    exact hcl e he
  · intro n0 h0
    have h0' : (some { node with data := { node.data with color := some COLOR_START } } :
        Option Node) = some n0 := h0
    obtain rfl := Option.some.inj h0'
    obtain ⟨m, hm, hr, hi⟩ := setStartNode_mem hmem node
    exact ⟨m, hm, hr, hi⟩
  · intro n0 h0
    have h0' : s.goalNode = some n0 := h0
    obtain ⟨n, hn, hr, hi⟩ := hgv n0 h0'
    obtain ⟨m, hm, hr2, hi2⟩ := setStartNode_mem hn node
    exact ⟨m, hm, hr2.trans hr, hi2.trans hi⟩

theorem storeInv_setGoalNode {d : Bool} {s : GraphState} (h : StoreInv d s) {node : Node}
    (hmem : node ∈ s.nodes) : StoreInv d (setGoalNode s node) := by
  obtain ⟨hadj, hnd, hcl, hsv, hgv⟩ := h
  have hid := setGoalNode_map_id s node
  refine ⟨?_, ?_, ?_, ?_, ?_⟩
  · show s.adj = updateAdjacencyList d (setGoalNode s node).nodes s.edges
    rw [hadj]
    exact updateAdjacencyList_congr d hid.symm
  · rw [hid]; exact hnd
  · intro e he
    rw [hid]
    exact hcl e he
  · intro n0 h0
    have h0' : s.startNode = some n0 := h0
    obtain ⟨n, hn, hr, hi⟩ := hsv n0 h0'
    obtain ⟨m, hm, hr2, hi2⟩ := setGoalNode_mem hn node
    exact ⟨m, hm, hr2.trans hr, hi2.trans hi⟩
  · intro n0 h0
    have h0' : (some { node with data := { node.data with color := some COLOR_GOAL } } :
        Option Node) = some n0 := h0
    obtain rfl := Option.some.inj h0'
    obtain ⟨m, hm, hr, hi⟩ := setGoalNode_mem hmem node
    exact ⟨m, hm, hr, hi⟩

/-! ### Import and restore -/

theorem find?_id_eq_some {ns : List Node} {i : ℕ} (h : i ∈ ns.map Node.id) :
    ∃ n, ns.find? (fun n => n.id = i) = some n := by
  rw [← Option.isSome_iff_exists, List.find?_isSome]
  rw [List.mem_map] at h
  obtain ⟨n, hn, rfl⟩ := h
  exact ⟨n, hn, by simp⟩

theorem applyStartSel_facts (s : GraphState) (o1 : Option ℕ) :
    (applyStartSel s o1).nodes.map Node.id = s.nodes.map Node.id ∧
    (applyStartSel s o1).edges = s.edges ∧
    (applyStartSel s o1).adj = s.adj ∧
    (applyStartSel s o1).goalNode = s.goalNode ∧
    (∀ n ∈ s.nodes, ∃ m ∈ (applyStartSel s o1).nodes, m.ref = n.ref ∧ Node.id m = Node.id n) ∧
    (∀ n0, (applyStartSel s o1).startNode = some n0 →
      (∃ m ∈ (applyStartSel s o1).nodes, m.ref = n0.ref ∧ Node.id m = Node.id n0) ∨
      (o1.bind (fun i => s.nodes.find? (fun n => n.id = i)) = none ∧
        s.startNode = some n0)) := by
  unfold applyStartSel
  cases hf : o1.bind (fun i => s.nodes.find? (fun n => n.id = i)) with
  | none =>
    exact ⟨rfl, rfl, rfl, rfl, fun n hn => ⟨n, hn, rfl, rfl⟩,
      fun n0 h0 => Or.inr ⟨rfl, h0⟩⟩
  | some sn =>
    have hsmem : sn ∈ s.nodes := by
      rw [Option.bind_eq_some] at hf
      obtain ⟨i, _, hfind⟩ := hf
      exact List.mem_of_find?_eq_some hfind
    refine ⟨setStartNode_map_id s sn, rfl, rfl, rfl,
      fun n hn => setStartNode_mem hn sn, ?_⟩
    intro n0 h0
    have h0' : (some { sn with data := { sn.data with color := some COLOR_START } } :
        Option Node) = some n0 := h0
    obtain rfl := Option.some.inj h0'
    exact Or.inl (setStartNode_mem hsmem sn)

theorem applyGoalSel_facts (s : GraphState) (o2 : Option ℕ) :
    (applyGoalSel s o2).nodes.map Node.id = s.nodes.map Node.id ∧
    (applyGoalSel s o2).edges = s.edges ∧
    (applyGoalSel s o2).adj = s.adj ∧
    (applyGoalSel s o2).startNode = s.startNode ∧
    (∀ n ∈ s.nodes, ∃ m ∈ (applyGoalSel s o2).nodes, m.ref = n.ref ∧ Node.id m = Node.id n) ∧
    (∀ n0, (applyGoalSel s o2).goalNode = some n0 →
      (∃ m ∈ (applyGoalSel s o2).nodes, m.ref = n0.ref ∧ Node.id m = Node.id n0) ∨
      (o2.bind (fun i => s.nodes.find? (fun n => n.id = i)) = none ∧
        s.goalNode = some n0)) := by
  unfold applyGoalSel
  cases hf : o2.bind (fun i => s.nodes.find? (fun n => n.id = i)) with
  | none =>
    exact ⟨rfl, rfl, rfl, rfl, fun n hn => ⟨n, hn, rfl, rfl⟩,
      fun n0 h0 => Or.inr ⟨rfl, h0⟩⟩
  | some gn =>
    have hgmem : gn ∈ s.nodes := by
      rw [Option.bind_eq_some] at hf
      obtain ⟨i, _, hfind⟩ := hf
      exact List.mem_of_find?_eq_some hfind
    refine ⟨setGoalNode_map_id s gn, rfl, rfl, rfl,
      fun n hn => setGoalNode_mem hn gn, ?_⟩
    intro n0 h0
    have h0' : (some { gn with data := { gn.data with color := some COLOR_GOAL } } :
        Option Node) = some n0 := h0
    obtain rfl := Option.some.inj h0'
    exact Or.inl (setGoalNode_mem hgmem gn)

theorem storeInv_applySels {d : Bool} {s : GraphState}
    (hadj : s.adj = updateAdjacencyList d s.nodes s.edges)
    (hnd : (s.nodes.map Node.id).Nodup)
    (hcl : ∀ e ∈ s.edges, e.fromId ∈ s.nodes.map Node.id ∧ e.toId ∈ s.nodes.map Node.id)
    (o1 o2 : Option ℕ)
    (hs : (∃ i, o1 = some i ∧ i ∈ s.nodes.map Node.id) ∨ s.startNode = none)
    (hg : (∃ i, o2 = some i ∧ i ∈ s.nodes.map Node.id) ∨ s.goalNode = none) :
    StoreInv d (applyGoalSel (applyStartSel s o1) o2) := by
  obtain ⟨hid2, he2, ha2, hgn2, hw2, hs2⟩ := applyStartSel_facts s o1
  obtain ⟨hid3, he3, ha3, hsn3, hw3, hg3⟩ := applyGoalSel_facts (applyStartSel s o1) o2
  refine ⟨?_, ?_, ?_, ?_, ?_⟩
  · rw [ha3, ha2, hadj, he3, he2]
    exact updateAdjacencyList_congr d (hid3.trans hid2).symm
  · rw [hid3, hid2]; exact hnd
  · intro e he
    rw [he3, he2] at he
    rw [hid3, hid2]
    exact hcl e he
  · intro n0 h0
    rw [hsn3] at h0
    rcases hs2 n0 h0 with ⟨m, hm, hr, hi⟩ | ⟨hfnone, hstale⟩
    · obtain ⟨m3, hm3, hr3, hi3⟩ := hw3 m hm
      exact ⟨m3, hm3, hr3.trans hr, hi3.trans hi⟩
    · rcases hs with ⟨i, hi1, himem⟩ | hnone
      · exfalso
        rw [hi1, Option.some_bind] at hfnone
        obtain ⟨n, hfind⟩ := find?_id_eq_some himem
        rw [hfind] at hfnone
        cases hfnone
      · rw [hnone] at hstale
        cases hstale
  · intro n0 h0
    rcases hg3 n0 h0 with valid | ⟨hfnone, hstale⟩
    · exact valid
    · rw [hgn2] at hstale
      rcases hg with ⟨i, hi2, himem⟩ | hnone
      · exfalso
        rw [hi2, Option.some_bind] at hfnone
        have himem2 : i ∈ (applyStartSel s o1).nodes.map Node.id := by
          rw [hid2]; exact himem
        obtain ⟨n, hfind⟩ := find?_id_eq_some himem2
        rw [hfind] at hfnone
        cases hfnone
      · rw [hnone] at hstale
        cases hstale

theorem strip_map_id (data : List NodeData) :
    (data.map (fun nd => { nd with color := none })).map NodeData.id =
      data.map NodeData.id := by
  rw [List.map_map]
  rfl

theorem storeInv_importGraph {d : Bool} (s : GraphState) {doc : ImportDoc}
    (hdoc : WFDoc doc) (hdir : doc.directed = d)
    (hstart : (∃ i, doc.start = some i ∧ i ∈ doc.nodes.map NodeData.id) ∨ s.startNode = none)
    (hgoal : (∃ i, doc.goal = some i ∧ i ∈ doc.nodes.map NodeData.id) ∨ s.goalNode = none) :
    StoreInv d (importGraph s doc) := by
  unfold importGraph
  have hids : (allocNodes (doc.nodes.map (fun nd => { nd with color := none }))
      s.nextRef).map Node.id = doc.nodes.map NodeData.id := by
    rw [allocNodes_map_id, strip_map_id]
  refine storeInv_applySels ?_ ?_ ?_ doc.start doc.goal ?_ ?_
  · show updateAdjacencyList doc.directed _ _ = updateAdjacencyList d _ _
    rw [hdir]
  · show ((allocNodes _ _).map Node.id).Nodup
    rw [hids]
    exact hdoc.1
  · intro e he
    rw [List.mem_map] at he
    obtain ⟨e0, he0, rfl⟩ := he
    have h12 := hdoc.2 e0 he0
    constructor
    · show e0.fromId ∈ (allocNodes _ _).map Node.id
      rw [hids]; exact h12.1
    · show e0.toId ∈ (allocNodes _ _).map Node.id
      rw [hids]; exact h12.2
  · rcases hstart with ⟨i, hi, himem⟩ | hnone
    · exact Or.inl ⟨i, hi, by rw [hids]; exact himem⟩
    · exact Or.inr hnone
  · rcases hgoal with ⟨i, hi, himem⟩ | hnone
    · exact Or.inl ⟨i, hi, by rw [hids]; exact himem⟩
    · exact Or.inr hnone

theorem storeInv_restoreState {d : Bool} (s : GraphState) {snap : Snapshot}
    (hsnap : WFSnap snap) : StoreInv d (restoreState s snap d) := by
  refine ⟨rfl, ?_, ?_, ?_, ?_⟩
  · show ((allocNodes snap.nodes s.nextRef).map Node.id).Nodup
    rw [allocNodes_map_id]
    exact hsnap.1
  · intro e he
    have h12 := hsnap.2 e he
    constructor
    · show e.fromId ∈ (allocNodes snap.nodes s.nextRef).map Node.id
      rw [allocNodes_map_id]; exact h12.1
    · show e.toId ∈ (allocNodes snap.nodes s.nextRef).map Node.id
      rw [allocNodes_map_id]; exact h12.2
  · intro n0 h0
    have h0' : snap.startNode.bind
        (fun sn => (allocNodes snap.nodes s.nextRef).find? (fun n => n.id = sn.id)) =
        some n0 := h0
    rw [Option.bind_eq_some] at h0'
    obtain ⟨sn, _, hfind⟩ := h0'
    exact ⟨n0, List.mem_of_find?_eq_some hfind, rfl, rfl⟩
  · intro n0 h0
    have h0' : snap.goalNode.bind
        (fun gn => (allocNodes snap.nodes s.nextRef).find? (fun n => n.id = gn.id)) =
        some n0 := h0
    rw [Option.bind_eq_some] at h0'
    obtain ⟨gn, _, hfind⟩ := h0'
    exact ⟨n0, List.mem_of_find?_eq_some hfind, rfl, rfl⟩

/-- The master invariant theorem: every state reachable through the
(guarded) mutation semantics satisfies the store invariant bundle. -/
theorem storeInv_of_reachableG {d : Bool} {s : GraphState} (h : ReachableG d s) :
    StoreInv d s := by
  induction h with
  | init => exact storeInv_init d
  | addNode _ hfresh ih => exact storeInv_addNode ih hfresh _ _
  | addEdge _ hu hv huv hok ih =>
    obtain ⟨w, rfl⟩ := addEdge_ok_inv hok
    obtain ⟨nu, hnu, hidu⟩ := hu
    obtain ⟨nv, hnv, hidv⟩ := hv
    exact storeInv_insertEdge ih (hidu ▸ List.mem_map_of_mem Node.id hnu)
      (hidv ▸ List.mem_map_of_mem Node.id hnv)
  | deleteNode _ hmem ih => exact storeInv_deleteNode ih hmem
  | deleteEdge _ _ ih => exact storeInv_deleteEdge ih _
  | editWeight _ _ ih => exact storeInv_editWeight ih _ _
  | setStart _ hmem ih => exact storeInv_setStartNode ih hmem
  | setGoal _ hmem ih => exact storeInv_setGoalNode ih hmem
  | importDoc _ hdoc hdir hstart hgoal ih =>
    exact storeInv_importGraph _ hdoc hdir hstart hgoal
  | restore _ hsnap ih => exact storeInv_restoreState _ hsnap
  | clear _ ih => exact storeInv_clearCanvas _
  | toggleSel _ _ ih => exact storeInv_toggleSelect ih _
  | search _ ih => exact storeInv_handleSearch ih _

/-! ## C3: the shortest-path scenario -/

/-- The scenario graph of the spec, built through the store operations:
three nodes at distinct positions, undirected edges (0-1, weight 4),
(0-2, weight 1), (1-2, weight 1). -/
def c3graph : GraphState :=
  let s0 := addNode (addNode (addNode initialState 0 0) 1 0) 2 0
  let s1 := match addEdge s0 0 1 (some "4") false with
            | some (Except.ok t) => t
            | _ => s0
  let s2 := match addEdge s1 0 2 (some "1") false with
            | some (Except.ok t) => t
            | _ => s1
  match addEdge s2 1 2 (some "1") false with
  | some (Except.ok t) => t
  | _ => s2

/-- The node objects carrying ids 0 (start) and 1 (goal) in `c3graph`. -/
def c3start : Node := { ref := 0, data := { id := 0, x := 0, y := 0, label := "0", color := none } }

/-- The goal node of the scenario. -/
def c3goal : Node := { ref := 1, data := { id := 1, x := 1, y := 0, label := "1", color := none } }

/-- The Dijkstra trace of the scenario. -/
def c3steps : List Step := prepareDijkstra c3graph.nodes c3graph.adj c3start c3goal

/-- C3 — On the graph {0,1,2} with undirected edges (0-1, w4), (0-2, w1),
(1-2, w1), start 0 and goal 1, the Dijkstra trace's unique path-carrying
Step holds the reconstructed path [0, 2, 1], its distance snapshot gives
the goal total cost 2, and no step of the trace carries the direct path
[0, 1] (which would cost 4). -/
theorem dijkstra_scenario_path :
    ((c3steps.filter (fun st => st.path ≠ [])).map Step.path = [[0, 2, 1]]) ∧
      ((c3steps.filter (fun st => st.path ≠ [])).map
          (fun st => st.dist.map (fun d => d.lookup 1)) =
        [some (some ((2 : ℕ) : WithTop ℕ))]) ∧
      (∀ st ∈ c3steps, st.path ≠ [0, 1]) ∧
      c3start ∈ c3graph.nodes ∧ c3goal ∈ c3graph.nodes := by
  decide

/-! ## C5: node-id reuse -/

/-- The four-operation session refuting id stability: create two nodes,
delete the first, create another.  The last `addNode` assigns
`state.nodes.length = 1`, the id of the surviving node. -/
def c5state : GraphState :=
  addNode (deleteNode (addNode (addNode initialState 0 0) 1 0)
    { ref := 0, data := { id := 0, x := 0, y := 0, label := "0", color := none } }) 2 2

/-- C5 counterexample — node ids ARE reused within a session: after
addNode, addNode, deleteNode(first), addNode the store holds two distinct
nodes both carrying id 1. -/
theorem node_id_reuse_counterexample :
    ReachableAny false c5state ∧ c5state.nodes.map Node.id = [1, 1] ∧
      ¬ (c5state.nodes.map Node.id).Nodup := by
  refine ⟨?_, by decide, by decide⟩
  exact ReachableAny.addNode (ReachableAny.deleteNode
    (ReachableAny.addNode (ReachableAny.addNode ReachableAny.init)) (by decide))

/-- C5 (amended) — under the freshness-guarded mutation semantics
`ReachableG` (no existing node's id equals the node count when `addNode`
runs), the ids of the stored nodes are pairwise distinct. -/
theorem node_ids_nodup_of_reachableG {d : Bool} {s : GraphState} (h : ReachableG d s) :
    (s.nodes.map Node.id).Nodup :=
  (storeInv_of_reachableG h).idsNodup

theorem node_ids_nodup_of_reachableG_witness :
    (((addNode (addNode initialState 0 0) 1 0).nodes.map Node.id)).Nodup := by
  have hreach : ReachableG false (addNode (addNode initialState 0 0) 1 0) :=
    ReachableG.addNode (ReachableG.addNode ReachableG.init (by decide)) (by decide)
  exact node_ids_nodup_of_reachableG hreach

/-! ## C2: the adjacency invariant -/

/-- C2 (amended) — in every state reachable under the freshness-guarded
semantics the adjacency index exactly reflects the edge collection: the
index has exactly one entry per stored node (in node order); every stored
edge (u,v,w) contributes v with weight w to u's list and — when the graph
is undirected — u with weight w to v's list; and every adjacency entry is
accounted for by a stored edge in one of these two ways. -/
theorem adjacency_reflects_edges_of_reachableG {d : Bool} {s : GraphState}
    (h : ReachableG d s) :
    (s.adj.map Prod.fst = s.nodes.map Node.id) ∧
    (∀ e ∈ s.edges,
      ({ node := e.toId, weight := e.weight } : AdjEntry) ∈ adjGet s.adj e.fromId ∧
      (d = false →
        ({ node := e.fromId, weight := e.weight } : AdjEntry) ∈ adjGet s.adj e.toId)) ∧
    (∀ u : ℕ, ∀ en ∈ adjGet s.adj u, ∃ e ∈ s.edges,
      (e.fromId = u ∧ en = { node := e.toId, weight := e.weight }) ∨
      (d = false ∧ e.toId = u ∧ en = { node := e.fromId, weight := e.weight })) := by
  obtain ⟨hadj, hnd, hcl, _, _⟩ := storeInv_of_reachableG h
  have hmf : s.adj = mapForm s.nodes (fun u => s.edges.flatMap (entriesFor d u)) := by
    rw [hadj, updateAdjacencyList_mapForm d hnd hcl]
  refine ⟨?_, ?_, ?_⟩
  · rw [hmf]
    unfold mapForm
    rw [List.map_map]
    rfl
  · intro e he
    have hu : e.fromId ∈ s.nodes.map Node.id := (hcl e he).1
    have hv : e.toId ∈ s.nodes.map Node.id := (hcl e he).2
    constructor
    · rw [hmf, adjGet_mapForm_mem hu, List.mem_flatMap]
      refine ⟨e, he, ?_⟩
      unfold entriesFor
      rw [if_pos rfl]
      exact List.mem_append_left _ (List.mem_singleton.mpr rfl)
    · intro hdf
      rw [hmf, adjGet_mapForm_mem hv, List.mem_flatMap]
      refine ⟨e, he, ?_⟩
      unfold entriesFor
      apply List.mem_append_right
      rw [if_pos ⟨by simp [hdf], rfl⟩]
      exact List.mem_singleton.mpr rfl
  · intro u en hen
    by_cases hu : u ∈ s.nodes.map Node.id
    · rw [hmf, adjGet_mapForm_mem hu, List.mem_flatMap] at hen
      obtain ⟨e, he, hene⟩ := hen
      refine ⟨e, he, ?_⟩
      rcases mem_entriesFor hene with ⟨h1, h2⟩ | ⟨h1, h2, h3⟩
      · exact Or.inl ⟨h1, h2⟩
      · refine Or.inr ⟨?_, h2, h3⟩
        revert h1
        cases d <;> simp
    · rw [hmf] at hen
      unfold adjGet at hen
      rw [lookup_mapForm_not_mem hu] at hen
      cases hen

/-- A two-node, one-edge store built through the guarded operations, for
the C2 witness. -/
def c2wit : GraphState :=
  match addEdge (addNode (addNode initialState 0 0) 1 0) 0 1 (some "2") false with
  | some (Except.ok t) => t
  | _ => initialState

theorem adjacency_reflects_edges_witness :
    ({ node := 1, weight := 2 } : AdjEntry) ∈ adjGet c2wit.adj 0 ∧
    ({ node := 0, weight := 2 } : AdjEntry) ∈ adjGet c2wit.adj 1 ∧
    c2wit.adj.map Prod.fst = c2wit.nodes.map Node.id := by
  have hreach : ReachableG false c2wit :=
    @ReachableG.addEdge false (addNode (addNode initialState 0 0) 1 0) c2wit 0 1 (some "2")
      (ReachableG.addNode (ReachableG.addNode ReachableG.init (by decide)) (by decide))
      (by decide) (by decide) (by decide) rfl
  have h := adjacency_reflects_edges_of_reachableG hreach
  have he : ({ fromId := 0, toId := 1, weight := 2, color := none } : Edge) ∈ c2wit.edges := by
    decide
  refine ⟨(h.2.1 _ he).1, (h.2.1 _ he).2 rfl, h.1⟩

/-- The intermediate stores of the C2 counterexample trace. -/
def c2bad3 : GraphState := addNode (addNode (addNode initialState 0 0) 1 0) 2 0

/-- `c2bad3` plus the undirected edge (1,2) of weight 1. -/
def c2bad4 : GraphState :=
  match addEdge c2bad3 1 2 (some "1") false with
  | some (Except.ok t) => t
  | _ => c2bad3

/-- `c2bad4` with node 0 deleted. -/
def c2bad5 : GraphState :=
  deleteNode c2bad4 { ref := 0, data := { id := 0, x := 0, y := 0, label := "0", color := none } }

/-- `c2bad5` plus one more node, whose id (`state.nodes.length = 2`) is the
id of an existing node: `addNode`'s `state.adj.set(id, [])` overwrites that
node's adjacency entry. -/
def c2bad : GraphState := addNode c2bad5 3 3

/-- C2 counterexample — the adjacency index does NOT reflect the edge
collection in all reachable states: after create ×3, connect (1-2),
delete node 0 and create again, the edge (1,2,w1) is still stored but id
2's adjacency list has been overwritten to [], losing the undirected
reverse entry (and id 2 now names two stored nodes sharing one entry). -/
theorem adjacency_desync_counterexample :
    ReachableAny false c2bad ∧
    ({ fromId := 1, toId := 2, weight := 1, color := none } : Edge) ∈ c2bad.edges ∧
    adjGet c2bad.adj 2 = [] ∧
    ({ node := 1, weight := 1 } : AdjEntry) ∉ adjGet c2bad.adj 2 := by
  have h3 : ReachableAny false c2bad3 :=
    ReachableAny.addNode (ReachableAny.addNode (ReachableAny.addNode ReachableAny.init))
  have h4 : ReachableAny false c2bad4 :=
    @ReachableAny.addEdge false c2bad3 c2bad4 1 2 (some "1") h3
      (by decide) (by decide) (by decide) rfl
  have h5 : ReachableAny false c2bad5 := ReachableAny.deleteNode h4 (by decide)
  exact ⟨ReachableAny.addNode h5, by decide, by decide, by decide⟩

/-! ## C10: selector validity -/

/-- C10 (amended) — under the freshness-guarded semantics the start/goal
selectors, when set, refer (by object identity and id) to a stored node;
`deleteNode` of the very object a selector holds nulls that selector and
always removes the deleted id from the multi-select and search-result
sets; and `prepareAlgo` on a session without a start node is the alerting
no-op. -/
theorem selector_validity_of_reachableG {d : Bool} {s : GraphState} (h : ReachableG d s) :
    (∀ n0, s.startNode = some n0 → ∃ n ∈ s.nodes, n.ref = n0.ref ∧ Node.id n = Node.id n0) ∧
    (∀ n0, s.goalNode = some n0 → ∃ n ∈ s.nodes, n.ref = n0.ref ∧ Node.id n = Node.id n0) ∧
    (∀ node : Node, s.startNode.any (fun n => n.ref = node.ref) →
      (deleteNode s node).startNode = none) ∧
    (∀ node : Node, s.goalNode.any (fun n => n.ref = node.ref) →
      (deleteNode s node).goalNode = none) ∧
    (∀ node : Node, node.id ∉ (deleteNode s node).selectedNodes ∧
      node.id ∉ (deleteNode s node).searchResults) ∧
    (∀ (sess : SessionState) (hfun : ℕ → ℚ), sess.gs = s → s.startNode = none →
      prepareAlgoSession sess hfun = sess) := by
  obtain ⟨hadj, hnd, hcl, hsv, hgv⟩ := storeInv_of_reachableG h
  refine ⟨hsv, hgv, ?_, ?_, ?_, ?_⟩
  · intro node hany
    show (if s.startNode.any (fun n => n.ref = node.ref) then none else s.startNode) = none
    rw [if_pos hany]
  · intro node hany
    show (if s.goalNode.any (fun n => n.ref = node.ref) then none else s.goalNode) = none
    rw [if_pos hany]
  · intro node
    exact ⟨Finset.not_mem_erase _ _, Finset.not_mem_erase _ _⟩
  · intro sess hfun hgs hnone
    unfold prepareAlgoSession
    rw [hgs, hnone]

/-- The concrete store for the C10 witness: one node, set as start. -/
def c10wit : GraphState :=
  setStartNode (addNode initialState 0 0)
    { ref := 0, data := { id := 0, x := 0, y := 0, label := "0", color := none } }

theorem selector_validity_witness :
    (∃ n ∈ c10wit.nodes, n.ref = 0 ∧ Node.id n = 0) ∧
    (deleteNode c10wit
      { ref := 0, data :=
        { id := 0, x := 0, y := 0, label := "0", color := some COLOR_START } }).startNode =
      none := by
  have hreach : ReachableG false c10wit :=
    ReachableG.setStart (ReachableG.addNode ReachableG.init (by decide)) (by decide)
  have h := selector_validity_of_reachableG hreach
  refine ⟨?_, ?_⟩
  · have := h.1 { ref := 0, data :=
      { id := 0, x := 0, y := 0, label := "0", color := some COLOR_START } } (by decide)
    obtain ⟨n, hn, hr, hi⟩ := this
    exact ⟨n, hn, hr, hi⟩
  · exact h.2.2.1 _ (by decide)

/-- The six-operation trace of the C10 counterexample: create A and B,
delete A, create C (which receives B's id 1), set C as start, then delete
B — the id filter also removes C from the store while the `===` check
leaves the selector pointing at it. -/
def c10s6 : GraphState :=
  deleteNode
    (setStartNode
      (addNode
        (deleteNode (addNode (addNode initialState 0 0) 1 0)
          { ref := 0, data := { id := 0, x := 0, y := 0, label := "0", color := none } })
        2 2)
      { ref := 2, data := { id := 1, x := 2, y := 2, label := "1", color := none } })
    { ref := 1, data := { id := 1, x := 1, y := 0, label := "1", color := none } }

/-- C10 counterexample — a reachable state whose start selector refers to
a node no longer present: the store is empty yet `startNode` is set, and
`prepareAlgo` on such a session proceeds to generate a trace from the
deleted node instead of failing the missing-start precondition. -/
theorem selector_dangling_counterexample :
    ReachableAny false c10s6 ∧ c10s6.nodes = [] ∧ c10s6.startNode ≠ none ∧
    (prepareAlgoSession
      { gs := c10s6, steps := [], stepIndex := 0, intervalId := none, speed := 500,
        currentAlgo := Algo.bfs } (fun _ => 0)).steps ≠ [] := by
  refine ⟨?_, by decide, by decide, by decide⟩
  exact ReachableAny.deleteNode (ReachableAny.setStart (ReachableAny.addNode
    (ReachableAny.deleteNode (ReachableAny.addNode (ReachableAny.addNode ReachableAny.init))
      (by decide))) (by decide)) (by decide)

/-! ## C4: snapshots and highlight state -/

/-- Erase all transient highlight tags (node and edge `color` fields):
two states are "equal up to playback highlights" exactly when their
`stripHighlight` images coincide. -/
def stripHighlight (s : GraphState) : GraphState :=
  { s with
    nodes := s.nodes.map (fun n => { n with data := { n.data with color := none } })
    edges := s.edges.map (fun e => { e with color := none }) }

/-- A one-node store and a step that highlights its node as visited. -/
def c4state : GraphState := addNode initialState 0 0

/-- The highlighting step of the C4 counterexample. -/
def c4step : Step := mkStep "visit 0" [] [0] []

/-- C4 counterexample — history snapshots DO capture playback highlight
state: applying the playback highlight projection changes a state only up
to highlight tags, yet `saveState`'s deep copy of the two states differs,
and restoring the snapshot written after the projection brings the
highlight colour back. -/
theorem snapshot_highlight_counterexample :
    stripHighlight (applyShowStep c4state c4step) = stripHighlight c4state ∧
    saveStateCopy (applyShowStep c4state c4step) ≠ saveStateCopy c4state ∧
    ((restoreState c4state (saveStateCopy (applyShowStep c4state c4step)) false).nodes.map
      (fun n => n.data.color)) = [some COLOR_VISITED] := by
  decide

/-- C4 (amended) — `saveState`'s deep copy stores the node records (and
edge records) verbatim, INCLUDING any transient `color` highlight fields
present at that moment, and `restoreState` copies them back verbatim. -/
theorem snapshot_copies_colors (s : GraphState) (snap : Snapshot) (d : Bool) :
    (saveStateCopy s).nodes = s.nodes.map Node.data ∧
    (saveStateCopy s).edges = s.edges ∧
    (restoreState s snap d).nodes.map Node.data = snap.nodes ∧
    (restoreState s snap d).edges = snap.edges :=
  ⟨rfl, rfl, allocNodes_map_data snap.nodes s.nextRef, rfl⟩

/-! ## C8: weight validation -/

/-- C8 (amended) — `addEdge` fails with `InvalidWeight` exactly when
`parseInt` of the prompt input yields `NaN` or a non-positive number; a
non-integer decimal input is NOT rejected (its integer prefix is used).
On a failing input the edge-weight editor leaves the state untouched. -/
theorem invalid_weight_characterization (s : GraphState) (u v : ℕ) (str : String)
    (d : Bool) (edge : Edge) :
    (addEdge s u v (some str) d = some (Except.error EdgeError.invalidWeight) ↔
      jsParseInt str = none ∨ ∃ n : ℤ, jsParseInt str = some n ∧ n ≤ 0) ∧
    ((jsParseInt str = none ∨ ∃ n : ℤ, jsParseInt str = some n ∧ n ≤ 0) →
      editWeight s edge (some str) d = s) := by
  constructor
  · unfold addEdge
    simp only
    cases hp : jsParseInt str with
    | none => simp
    | some n =>
      simp only
      by_cases hn : n ≤ 0
      · rw [if_pos hn]
        simp [hn]
      · rw [if_neg hn]
        by_cases hex : edgeExists s.edges u v d = true
        · rw [if_pos hex]
          simp [hn]
        · rw [if_neg hex]
          simp [hn]
  · intro hfail
    simp only [editWeight]
    rcases hfail with hp | ⟨n, hp, hn⟩
    · rw [hp]
    · rw [hp]
      exact if_neg (by omega)

theorem invalid_weight_characterization_witness :
    (addEdge (addNode (addNode initialState 0 0) 1 0) 0 1 (some "-2") false =
      some (Except.error EdgeError.invalidWeight)) ∧
    editWeight (addNode (addNode initialState 0 0) 1 0)
      { fromId := 0, toId := 1, weight := 1, color := none } (some "-2") false =
      addNode (addNode initialState 0 0) 1 0 := by
  have h := invalid_weight_characterization (addNode (addNode initialState 0 0) 1 0) 0 1
    "-2" false { fromId := 0, toId := 1, weight := 1, color := none }
  exact ⟨h.1.mpr (Or.inr ⟨-2, by decide, by decide⟩), h.2 (Or.inr ⟨-2, by decide, by decide⟩)⟩

/-- C8 counterexample — the input `"3.7"` is not rejected: `parseInt`
truncates it to 3, `addEdge` accepts it (storing weight 3), and the
weight editor silently rewrites an existing weight-5 edge to 3. -/
theorem weight_truncation_counterexample :
    jsParseInt "3.7" = some 3 ∧
    addEdge (addNode (addNode initialState 0 0) 1 0) 0 1 (some "3.7") false =
      some (Except.ok (insertEdge (addNode (addNode initialState 0 0) 1 0) 0 1 3 false)) ∧
    ((editWeight (insertEdge (addNode (addNode initialState 0 0) 1 0) 0 1 5 false)
        { fromId := 0, toId := 1, weight := 5, color := none } (some "3.7")
        false).edges.map Edge.weight) = [3] := by
  refine ⟨by decide, rfl, by decide⟩

/-! ## C9: timer cancellation -/

/-- C9 (amended) — `pause()` is total and idempotent and `play()` always
(re)arms the timer; but the timer is cancelled not only by `pause()` and
the self-cancellation at the last step index: `resetVisualization()` and
`clearCanvas()` cancel it too, and — divergence from the spec —
`prepareAlgo()` does NOT touch the timer at all, so starting a new run
while playing does not pause first. -/
theorem showStep_intervalId (s : SessionState) (i : ℕ) :
    (showStep s i).intervalId = s.intervalId := by
  unfold showStep
  split <;> rfl

theorem timer_cancellation_spec (sess : SessionState) (hfun : ℕ → ℚ) (fresh : ℕ) :
    (pauseSession sess).intervalId = none ∧
    pauseSession (pauseSession sess) = pauseSession sess ∧
    (playSession sess hfun fresh).intervalId = some fresh ∧
    (prepareAlgoSession sess hfun).intervalId = sess.intervalId ∧
    (resetVisualizationSession sess).intervalId = none ∧
    (clearCanvasSession sess).intervalId = none ∧
    (sess.stepIndex < sess.steps.length - 1 →
      (tickSession sess).intervalId = sess.intervalId) ∧
    (¬ sess.stepIndex < sess.steps.length - 1 → (tickSession sess).intervalId = none) := by
  refine ⟨rfl, rfl, rfl, ?_, rfl, rfl, ?_, ?_⟩
  · unfold prepareAlgoSession
    split
    · rfl
    · split
      · rfl
      · simp only
        split
        · rw [showStep_intervalId]
        · rfl
  · intro htick
    unfold tickSession
    rw [if_pos htick, showStep_intervalId]
  · intro htick
    unfold tickSession
    rw [if_neg htick]

theorem timer_cancellation_spec_witness :
    (tickSession
      { gs := initialState, steps := [], stepIndex := 0, intervalId := some 7, speed := 500,
        currentAlgo := Algo.bfs }).intervalId = none := by
  have h := timer_cancellation_spec
    { gs := initialState, steps := [], stepIndex := 0, intervalId := some 7, speed := 500,
      currentAlgo := Algo.bfs } (fun _ => 0) 3
  exact h.2.2.2.2.2.2.2 (by decide)

/-- The running session of the C9 counterexample: a store with a start
node, a stale one-step trace, and an armed timer (handle 7). -/
def c9sess : SessionState :=
  { gs := c10wit, steps := [mkStep "old" [] [] []], stepIndex := 0, intervalId := some 7,
    speed := 500, currentAlgo := Algo.bfs }

/-- C9 counterexample — starting a new run while playing does NOT
implicitly pause: `prepareAlgo` regenerates the trace while leaving the
timer armed (handle 7), so the old timer keeps stepping through the newly
generated trace; and `pause()` is not the only cancellation path:
`resetVisualization()` cancels the timer directly. -/
theorem timer_cancellation_counterexample :
    c9sess.intervalId = some 7 ∧
    (prepareAlgoSession c9sess (fun _ => 0)).intervalId = some 7 ∧
    (prepareAlgoSession c9sess (fun _ => 0)).steps ≠ c9sess.steps ∧
    (prepareAlgoSession c9sess (fun _ => 0)).steps ≠ [] ∧
    (resetVisualizationSession c9sess).intervalId = none := by
  decide

/-! ## C6: duplicate-edge rejection -/

theorem addEdge_ok_edgeExists {s : GraphState} {u v : ℕ} {input : Option String} {d : Bool}
    {s' : GraphState} (h : addEdge s u v input d = some (Except.ok s')) :
    edgeExists s.edges u v d = false := by
  unfold addEdge at h
  cases input with
  | none => cases h
  | some str =>
    simp only at h
    cases hp : jsParseInt str with
    | none => rw [hp] at h; cases h
    | some w =>
      rw [hp] at h
      simp only at h
      by_cases hw : w ≤ 0
      · rw [if_pos hw] at h; cases h
      · rw [if_neg hw] at h
        by_cases hb : edgeExists s.edges u v d = true
        · rw [if_pos hb] at h; cases h
        · cases hbb : edgeExists s.edges u v d with
          | false => rfl
          | true => exact absurd hbb hb

theorem edgeExists_false_spec {edges : List Edge} {u v : ℕ} {d : Bool}
    (h : edgeExists edges u v d = false) :
    ∀ e ∈ edges,
      ¬ (e.fromId = u ∧ e.toId = v) ∧ ¬ (¬ d = true ∧ e.fromId = v ∧ e.toId = u) := by
  intro e he
  unfold edgeExists at h
  rw [List.any_eq_false] at h
  have h2 := h e he
  simp only [decide_eq_true_eq] at h2
  rw [not_or] at h2
  exact h2

theorem countP_flatMap {α β : Type} (l : List α) (f : α → List β) (p : β → Bool) :
    (l.flatMap f).countP p = (l.map (fun a => (f a).countP p)).sum := by
  induction l with
  | nil => rfl
  | cons a rest ih =>
    rw [List.flatMap_cons, List.countP_append, List.map_cons, List.sum_cons, ih]

theorem countP_entriesFor (d : Bool) (u tgt : ℕ) (e : Edge) :
    (entriesFor d u e).countP (fun en => en.node == tgt) =
      (if e.fromId = u ∧ e.toId = tgt then 1 else 0) +
        (if ¬ d = true ∧ e.toId = u ∧ e.fromId = tgt then 1 else 0) := by
  unfold entriesFor
  rw [List.countP_append]
  congr 1
  · by_cases h1 : e.fromId = u
    · rw [if_pos h1]
      by_cases h2 : e.toId = tgt
      · rw [if_pos ⟨h1, h2⟩]
        simp [List.countP_cons, h2]
      · rw [if_neg (fun hc => h2 hc.2)]
        simp [List.countP_cons, h2]
    · rw [if_neg h1, if_neg (fun hc => h1 hc.1)]
      rfl
  · by_cases h1 : ¬ d = true ∧ e.toId = u
    · rw [if_pos h1]
      by_cases h2 : e.fromId = tgt
      · rw [if_pos ⟨h1.1, h1.2, h2⟩]
        simp [List.countP_cons, h2]
      · rw [if_neg (fun hc => h2 hc.2.2)]
        simp [List.countP_cons, h2]
    · rw [if_neg h1, if_neg (fun hc => h1 ⟨hc.1, hc.2.1⟩)]
      rfl

/-- C6 — duplicate-edge rejection: in any reachable graph, once an
undirected edge between two distinct existing nodes `u` and `v` has been
added successfully, a second attempt (with any positively-parsing weight
input) is rejected with the duplicate-edge error (so the store is passed
no new state), and the adjacency index holds exactly one entry for `v` in
`u`'s list and exactly one for `u` in `v`'s list. -/
theorem duplicate_edge_rejected {s s' : GraphState} (h : ReachableG false s)
    {u v : ℕ} {input : Option String}
    (hu : u ∈ s.nodes.map Node.id) (hv : v ∈ s.nodes.map Node.id) (huv : u ≠ v)
    (hok : addEdge s u v input false = some (Except.ok s'))
    (str' : String) (n' : ℤ) (hp : jsParseInt str' = some n') (hpos : 0 < n') :
    addEdge s' u v (some str') false = some (Except.error EdgeError.duplicateEdge) ∧
    (adjGet s'.adj u).countP (fun en => en.node == v) = 1 ∧
    (adjGet s'.adj v).countP (fun en => en.node == u) = 1 := by
  have hinv := storeInv_of_reachableG h
  have hex := addEdge_ok_edgeExists hok
  obtain ⟨w, rfl⟩ := addEdge_ok_inv hok
  have hforb := edgeExists_false_spec hex
  have hinv' : StoreInv false (insertEdge s u v w false) := storeInv_insertEdge hinv hu hv
  have hmf : (insertEdge s u v w false).adj =
      mapForm s.nodes (fun x => (insertEdge s u v w false).edges.flatMap (entriesFor false x)) := by
    rw [hinv'.adjEq]
    exact updateAdjacencyList_mapForm false hinv'.idsNodup hinv'.edgesClosed
  refine ⟨?_, ?_, ?_⟩
  · have hex' : edgeExists (insertEdge s u v w false).edges u v false = true := by
      show edgeExists (s.edges ++ ([{ fromId := u, toId := v, weight := w, color := none }] :
        List Edge)) u v false = true
      unfold edgeExists
      rw [List.any_append]
      have : (List.any ([{ fromId := u, toId := v, weight := w, color := none }] : List Edge)
          (fun e => decide ((e.fromId = u ∧ e.toId = v) ∨
            (¬ false = true ∧ e.fromId = v ∧ e.toId = u)))) = true := by
        simp
      rw [this, Bool.or_true]
    unfold addEdge
    simp only
    rw [hp]
    simp only
    rw [if_neg (by omega), if_pos hex']
  · rw [hmf, adjGet_mapForm_mem hu, countP_flatMap]
    show ((s.edges ++ ([{ fromId := u, toId := v, weight := w, color := none }] : List Edge)).map
      (fun e' => (entriesFor false u e').countP (fun en => en.node == v))).sum = 1
    rw [List.map_append, List.sum_append]
    have hzero : ∀ x ∈ s.edges.map
        (fun e' => (entriesFor false u e').countP (fun en => en.node == v)), x = 0 := by
      intro x hx
      rw [List.mem_map] at hx
      obtain ⟨e', he', rfl⟩ := hx
      rw [countP_entriesFor]
      rw [if_neg (fun hc => (hforb e' he').1 hc),
        if_neg (fun hc => (hforb e' he').2 ⟨hc.1, hc.2.2, hc.2.1⟩)]
    rw [List.sum_eq_zero hzero, List.map_singleton, List.sum_singleton, countP_entriesFor]
    rw [if_pos ⟨rfl, rfl⟩, if_neg (fun hc => huv hc.2.1.symm)]
  · rw [hmf, adjGet_mapForm_mem hv, countP_flatMap]
    show ((s.edges ++ ([{ fromId := u, toId := v, weight := w, color := none }] : List Edge)).map
      (fun e' => (entriesFor false v e').countP (fun en => en.node == u))).sum = 1
    rw [List.map_append, List.sum_append]
    have hzero : ∀ x ∈ s.edges.map
        (fun e' => (entriesFor false v e').countP (fun en => en.node == u)), x = 0 := by
      intro x hx
      rw [List.mem_map] at hx
      obtain ⟨e', he', rfl⟩ := hx
      rw [countP_entriesFor]
      rw [if_neg (fun hc => (hforb e' he').2 ⟨by simp, hc.1, hc.2⟩),
        if_neg (fun hc => (hforb e' he').1 ⟨hc.2.2, hc.2.1⟩)]
    rw [List.sum_eq_zero hzero, List.map_singleton, List.sum_singleton, countP_entriesFor]
    rw [if_neg (fun hc => huv hc.1), if_pos ⟨by simp, rfl, rfl⟩]

/-- The two-node, one-edge store of the C6 witness (weight prompt "4"). -/
def c6wit : GraphState :=
  match addEdge (addNode (addNode initialState 0 0) 1 0) 0 1 (some "4") false with
  | some (Except.ok t) => t
  | _ => initialState

theorem duplicate_edge_rejected_witness :
    addEdge c6wit 0 1 (some "9") false = some (Except.error EdgeError.duplicateEdge) ∧
    (adjGet c6wit.adj 0).countP (fun en => en.node == 1) = 1 ∧
    (adjGet c6wit.adj 1).countP (fun en => en.node == 0) = 1 := by
  have hreach : ReachableG false (addNode (addNode initialState 0 0) 1 0) :=
    ReachableG.addNode (ReachableG.addNode ReachableG.init (by decide)) (by decide)
  exact duplicate_edge_rejected hreach (by decide) (by decide) (by decide)
    (rfl : addEdge (addNode (addNode initialState 0 0) 1 0) 0 1 (some "4") false =
      some (Except.ok c6wit))
    "9" 9 (by decide) (by decide)

/-! ## C1: unreachable-goal traces

The analysis needs: reachability is closed under the store ids
(`reach_mem`); the first-encountered-minimum scan is minimising
(`selectMinBy_min`); the relaxation loops are pointwise decreasing, frozen
off their update domain and preserve distance soundness; and a
completeness lemma turning the "every finite settled node is fully
relaxed" invariant into "every reachable node is finite". -/

theorem reach_mem {adj : AdjMap} {ids : List ℕ} {s v : ℕ}
    (hclosed : ∀ u, ∀ e ∈ adjGet adj u, e.node ∈ ids) (hs : s ∈ ids)
    (h : Reach adj s v) : v ∈ ids := by
  induction h with
  | refl => exact hs
  | @step u v hr hex ih =>
    obtain ⟨e, he, hev⟩ := hex
    exact hev ▸ hclosed u e he

theorem selectMinBy_min {β : Type} [LinearOrder β] {score : ℕ → β} :
    ∀ {l : List ℕ} {m : ℕ}, selectMinBy score l = some m → ∀ v ∈ l, score m ≤ score v := by
  have aux : ∀ (xs : List ℕ) (x : ℕ),
      score (xs.foldl (fun m y => if score y < score m then y else m) x) ≤ score x ∧
      ∀ v ∈ xs, score (xs.foldl (fun m y => if score y < score m then y else m) x) ≤ score v := by
    intro xs
    induction xs with
    | nil => intro x; exact ⟨le_refl _, fun v hv => absurd hv (List.not_mem_nil v)⟩
    | cons y ys ih =>
      intro x
      simp only [List.foldl_cons]
      by_cases h : score y < score x
      · rw [if_pos h]
        obtain ⟨h1, h2⟩ := ih y
        refine ⟨h1.trans h.le, fun v hv => ?_⟩
        rcases List.mem_cons.mp hv with rfl | hv
        · exact h1
        · exact h2 v hv
      · rw [if_neg h]
        obtain ⟨h1, h2⟩ := ih x
        refine ⟨h1, fun v hv => ?_⟩
        rcases List.mem_cons.mp hv with rfl | hv
        · exact h1.trans (not_lt.mp h)
        · exact h2 v hv
  intro l m hsel v hv
  cases l with
  | nil => cases hsel
  | cons x xs =>
    simp only [selectMinBy, Option.some.injEq] at hsel
    subst hsel
    rcases List.mem_cons.mp hv with rfl | hv
    · exact (aux xs v).1
    · exact (aux xs x).2 v hv

theorem dijkstra_complete_of_J {adj : AdjMap} {ids : List ℕ} {sId : ℕ}
    {dist : ℕ → WithTop ℕ} {queue : List ℕ}
    (hclosed : ∀ u, ∀ e ∈ adjGet adj u, e.node ∈ ids) (hs : sId ∈ ids)
    (hds : dist sId < ⊤)
    (hJ : ∀ v ∈ ids, v ∉ queue → dist v < ⊤ → ∀ e ∈ adjGet adj v, dist e.node < ⊤)
    (hqtop : ∀ v ∈ queue, dist v = ⊤) :
    ∀ v, Reach adj sId v → dist v < ⊤ := by
  intro v h
  induction h with
  | refl => exact hds
  | @step u v hr hex ih =>
    obtain ⟨e, he, rfl⟩ := hex
    have hu : u ∈ ids := reach_mem hclosed hs hr
    have hunq : u ∉ queue := fun hq => absurd ih (by rw [hqtop u hq]; exact lt_irrefl ⊤)
    exact hJ u hu hunq ih e he

/-! ### Dijkstra relaxation-loop facts -/

theorem dijkstraRelaxStep_mono (nodeIds : List ℕ) (m : ℕ) (q : List ℕ) (e : AdjEntry)
    (st : DijkstraRelaxRes) (v : ℕ) :
    (dijkstraRelaxStep nodeIds m q e st).dist v ≤ st.dist v := by
  unfold dijkstraRelaxStep
  split
  · simp only
    split
    · next hlt =>
      show (if v = e.node then st.dist m + (e.weight : WithTop ℕ) else st.dist v) ≤ st.dist v
      split
      · next hv => exact hv ▸ hlt.le
      · exact le_refl _
    · exact le_refl _
  · exact le_refl _

theorem dijkstraRelax_mono (nodeIds : List ℕ) (m : ℕ) (q : List ℕ) :
    ∀ (es : List AdjEntry) (st : DijkstraRelaxRes) (v : ℕ),
      (dijkstraRelax nodeIds m q es st).dist v ≤ st.dist v := by
  intro es
  induction es with
  | nil => intro st v; exact le_refl _
  | cons e es ih =>
    intro st v
    exact (ih (dijkstraRelaxStep nodeIds m q e st) v).trans
      (dijkstraRelaxStep_mono nodeIds m q e st v)

theorem dijkstraRelaxStep_frozen (nodeIds : List ℕ) (m : ℕ) (q : List ℕ) (e : AdjEntry)
    (st : DijkstraRelaxRes) (v : ℕ) (hv : v ∉ q) :
    (dijkstraRelaxStep nodeIds m q e st).dist v = st.dist v := by
  unfold dijkstraRelaxStep
  split
  · next hq =>
    simp only
    split
    · show (if v = e.node then _ else st.dist v) = st.dist v
      rw [if_neg (fun hveq : v = e.node => hv (hveq ▸ hq))]
    · rfl
  · rfl

theorem dijkstraRelax_frozen (nodeIds : List ℕ) (m : ℕ) (q : List ℕ) :
    ∀ (es : List AdjEntry) (st : DijkstraRelaxRes) (v : ℕ), v ∉ q →
      (dijkstraRelax nodeIds m q es st).dist v = st.dist v := by
  intro es
  induction es with
  | nil => intro st v _; rfl
  | cons e es ih =>
    intro st v hv
    rw [show dijkstraRelax nodeIds m q (e :: es) st =
      dijkstraRelax nodeIds m q es (dijkstraRelaxStep nodeIds m q e st) from rfl]
    rw [ih _ v hv, dijkstraRelaxStep_frozen nodeIds m q e st v hv]

theorem dijkstraRelaxStep_sound {adj : AdjMap} {sId : ℕ} (nodeIds : List ℕ) (m : ℕ)
    (q : List ℕ) (e : AdjEntry) (st : DijkstraRelaxRes)
    (he : e ∈ adjGet adj m)
    (hsound : ∀ x, st.dist x < ⊤ → Reach adj sId x) :
    ∀ x, (dijkstraRelaxStep nodeIds m q e st).dist x < ⊤ → Reach adj sId x := by
  unfold dijkstraRelaxStep
  split
  · simp only
    split
    · next hlt =>
      intro x
      show (if x = e.node then st.dist m + (e.weight : WithTop ℕ) else st.dist x) < ⊤ →
        Reach adj sId x
      split
      · next hx =>
        intro halt
        have hm : st.dist m < ⊤ := (WithTop.add_lt_top.mp halt).1
        exact Reach.step (hsound m hm) ⟨e, he, hx.symm⟩
      · exact hsound x
    · exact hsound
  · exact hsound

theorem dijkstraRelax_sound {adj : AdjMap} {sId : ℕ} (nodeIds : List ℕ) (m : ℕ)
    (q : List ℕ) :
    ∀ (es : List AdjEntry) (st : DijkstraRelaxRes), (∀ e ∈ es, e ∈ adjGet adj m) →
      (∀ x, st.dist x < ⊤ → Reach adj sId x) →
      ∀ x, (dijkstraRelax nodeIds m q es st).dist x < ⊤ → Reach adj sId x := by
  intro es
  induction es with
  | nil => intro st _ hsound; exact hsound
  | cons e es ih =>
    intro st hsub hsound
    exact ih _ (fun e' he' => hsub e' (List.mem_cons_of_mem e he'))
      (dijkstraRelaxStep_sound nodeIds m q e st (hsub e (List.mem_cons_self e es)) hsound)

theorem dijkstraRelaxStep_fin (nodeIds : List ℕ) (m : ℕ) (q : List ℕ) (e : AdjEntry)
    (st : DijkstraRelaxRes) (hm : st.dist m < ⊤) (hq : e.node ∈ q) :
    (dijkstraRelaxStep nodeIds m q e st).dist e.node < ⊤ := by
  unfold dijkstraRelaxStep
  rw [if_pos hq]
  have halt : st.dist m + (e.weight : WithTop ℕ) < ⊤ :=
    WithTop.add_lt_top.mpr ⟨hm, WithTop.coe_lt_top _⟩
  simp only
  split
  · show (if e.node = e.node then st.dist m + (e.weight : WithTop ℕ) else _) < ⊤
    rw [if_pos rfl]
    exact halt
  · next hnlt =>
    exact lt_of_le_of_lt (not_lt.mp hnlt) halt

theorem dijkstraRelax_fin (nodeIds : List ℕ) (m : ℕ) (q : List ℕ) (hmq : m ∉ q) :
    ∀ (es : List AdjEntry) (st : DijkstraRelaxRes), st.dist m < ⊤ →
      ∀ e ∈ es, e.node ∈ q → (dijkstraRelax nodeIds m q es st).dist e.node < ⊤ := by
  intro es
  induction es with
  | nil => intro st _ e he; cases he
  | cons e' es ih =>
    intro st hm e he hq
    rw [show dijkstraRelax nodeIds m q (e' :: es) st =
      dijkstraRelax nodeIds m q es (dijkstraRelaxStep nodeIds m q e' st) from rfl]
    have hm1 : (dijkstraRelaxStep nodeIds m q e' st).dist m < ⊤ := by
      rw [dijkstraRelaxStep_frozen nodeIds m q e' st m hmq]
      exact hm
    rcases List.mem_cons.mp he with rfl | he'
    · exact lt_of_le_of_lt
        (dijkstraRelax_mono nodeIds m q es _ e.node)
        (dijkstraRelaxStep_fin nodeIds m q e st hm hq)
    · exact ih _ hm1 e he' hq

theorem dijkstraRelaxStep_noop (nodeIds : List ℕ) (m : ℕ) (q : List ℕ) (e : AdjEntry)
    (st : DijkstraRelaxRes) (hm : st.dist m = ⊤) :
    (dijkstraRelaxStep nodeIds m q e st).dist = st.dist := by
  unfold dijkstraRelaxStep
  split
  · simp only
    split
    · next hlt =>
      exfalso
      rw [hm, top_add] at hlt
      exact not_top_lt hlt
    · rfl
  · rfl

theorem dijkstraRelax_noop (nodeIds : List ℕ) (m : ℕ) (q : List ℕ) (hmq : m ∉ q) :
    ∀ (es : List AdjEntry) (st : DijkstraRelaxRes), st.dist m = ⊤ →
      (dijkstraRelax nodeIds m q es st).dist = st.dist := by
  intro es
  induction es with
  | nil => intro st _; rfl
  | cons e es ih =>
    intro st hm
    rw [show dijkstraRelax nodeIds m q (e :: es) st =
      dijkstraRelax nodeIds m q es (dijkstraRelaxStep nodeIds m q e st) from rfl]
    have hstep := dijkstraRelaxStep_noop nodeIds m q e st hm
    rw [ih _ (by rw [hstep]; exact hm), hstep]

/-- The Dijkstra main-loop invariant argument: with exact fuel, a
duplicate-free queue of stored ids, a sound distance map in which the
start is finite, every settled finite node fully relaxed and the
settled-all-finite / queue-all-infinite phase disjunction, the loop's
final distance map is finite exactly on the nodes reachable from the
start — also when the loop breaks early by dequeuing the (unreachable,
hence infinitely-distant) goal. -/
theorem dijkstraLoop_spec (nodes : List Node) (nodeIds : List ℕ) (adj : AdjMap)
    (goalId sId : ℕ)
    (hclosed : ∀ u, ∀ e ∈ adjGet adj u, e.node ∈ nodeIds)
    (hs : sId ∈ nodeIds)
    (hunreach : ¬ Reach adj sId goalId) :
    ∀ (fuel : ℕ) (dist : ℕ → WithTop ℕ) (prev : ℕ → Option ℕ) (queue : List ℕ)
      (steps : List Step),
      queue.length = fuel → queue.Nodup → (∀ v ∈ queue, v ∈ nodeIds) →
      dist sId < ⊤ →
      (∀ v, dist v < ⊤ → Reach adj sId v) →
      (∀ v ∈ nodeIds, v ∉ queue → dist v < ⊤ → ∀ e ∈ adjGet adj v, dist e.node < ⊤) →
      ((∀ v ∈ nodeIds, v ∉ queue → dist v < ⊤) ∨ (∀ v ∈ queue, dist v = ⊤)) →
      ∀ v, (dijkstraLoop nodes nodeIds adj goalId fuel dist prev queue steps).1 v < ⊤ ↔
        Reach adj sId v := by
  intro fuel
  induction fuel with
  | zero =>
    intro dist prev queue steps hlen hnd hsub hds hsound hJ hphase v
    have hqnil : queue = [] := List.length_eq_zero.mp hlen
    subst hqnil
    exact ⟨hsound v, fun hr => dijkstra_complete_of_J hclosed hs hds hJ
      (fun v hv => absurd hv (List.not_mem_nil v)) v hr⟩
  | succ fuel ih =>
    intro dist prev queue steps hlen hnd hsub hds hsound hJ hphase
    simp only [dijkstraLoop]
    cases hsel : selectMinBy dist queue with
    | none =>
      cases queue with
      | nil => simp at hlen
      | cons x xs => simp [selectMinBy] at hsel
    | some m =>
      simp only
      have hmem : m ∈ queue := selectMinBy_mem hsel
      have hmin : ∀ v ∈ queue, dist m ≤ dist v := selectMinBy_min hsel
      have hmq : m ∉ queue.erase m := fun hc => ((List.Nodup.mem_erase_iff hnd).mp hc).1 rfl
      by_cases hgoal : m = goalId
      · rw [if_pos hgoal]
        have hdm : dist m = ⊤ := by
          by_contra hne
          exact hunreach (hgoal ▸ hsound m (lt_top_iff_ne_top.mpr hne))
        have hqtop : ∀ v ∈ queue, dist v = ⊤ :=
          fun v hv => top_le_iff.mp (hdm ▸ hmin v hv)
        exact fun v => ⟨hsound v,
          fun hr => dijkstra_complete_of_J hclosed hs hds hJ hqtop v hr⟩
      · rw [if_neg hgoal]
        have hlen' : (queue.erase m).length = fuel := by
          rw [List.length_erase_of_mem hmem, hlen]
          omega
        have hnd' : (queue.erase m).Nodup := hnd.erase m
        have hsub' : ∀ v ∈ queue.erase m, v ∈ nodeIds :=
          fun v hv => hsub v (List.mem_of_mem_erase hv)
        by_cases hdm : dist m = ⊤
        · -- all-infinite phase: the relaxation is a no-op
          have hqtop : ∀ v ∈ queue, dist v = ⊤ :=
            fun v hv => top_le_iff.mp (hdm ▸ hmin v hv)
          intro v
          refine ih _ _ _ _ hlen' hnd' hsub' ?_ ?_ ?_ ?_ v
          · rw [dijkstraRelax_noop nodeIds m (queue.erase m) hmq _ _ hdm]
            exact hds
          · rw [dijkstraRelax_noop nodeIds m (queue.erase m) hmq _ _ hdm]
            exact hsound
          · rw [dijkstraRelax_noop nodeIds m (queue.erase m) hmq _ _ hdm]
            intro x hx hxq hfin e he
            by_cases hxm : x = m
            · have hfin' : dist m < ⊤ := hxm ▸ hfin
              rw [hdm] at hfin'
              exact absurd hfin' (lt_irrefl ⊤)
            · exact hJ x hx (fun hc => hxq ((List.mem_erase_of_ne hxm).mpr hc)) hfin e he
          · rw [dijkstraRelax_noop nodeIds m (queue.erase m) hmq _ _ hdm]
            exact Or.inr (fun v hv => hqtop v (List.mem_of_mem_erase hv))
        · -- the dequeued node is finite: settled set stays all-finite
          have hdml : dist m < ⊤ := lt_top_iff_ne_top.mpr hdm
          have hleft : ∀ v ∈ nodeIds, v ∉ queue → dist v < ⊤ := by
            rcases hphase with h | h
            · exact h
            · exact absurd (h m hmem) hdm
          intro v
          refine ih _ _ _ _ hlen' hnd' hsub' ?_ ?_ ?_ ?_ v
          · exact lt_of_le_of_lt (dijkstraRelax_mono _ _ _ _ _ sId) hds
          · exact dijkstraRelax_sound nodeIds m _ _ _ (fun e he => he) hsound
          · intro x hx hxq hfin e he
            by_cases hxm : x = m
            · subst hxm
              by_cases henq : e.node ∈ queue.erase x
              · exact dijkstraRelax_fin nodeIds x (queue.erase x) hmq _ _ hdml e he henq
              · have hin : e.node ∈ nodeIds := hclosed x e he
                by_cases henm : e.node = x
                · rw [henm, dijkstraRelax_frozen nodeIds x (queue.erase x) _ _ x hmq]
                  exact hdml
                · rw [dijkstraRelax_frozen nodeIds x (queue.erase x) _ _ e.node henq]
                  exact hleft e.node hin
                    (fun hc => henq ((List.mem_erase_of_ne henm).mpr hc))
            · have hxnq : x ∉ queue := fun hc => hxq ((List.mem_erase_of_ne hxm).mpr hc)
              rw [dijkstraRelax_frozen nodeIds m (queue.erase m) _ _ x hxq] at hfin
              have hfin0 : dist x < ⊤ := hfin
              exact lt_of_le_of_lt (dijkstraRelax_mono _ _ _ _ _ e.node)
                (hJ x hx hxnq hfin0 e he)
          · refine Or.inl ?_
            intro x hx hxq
            by_cases hxm : x = m
            · subst hxm
              rw [dijkstraRelax_frozen nodeIds x (queue.erase x) _ _ x hmq]
              exact hdml
            · rw [dijkstraRelax_frozen nodeIds m (queue.erase m) _ _ x hxq]
              exact hleft x hx (fun hc => hxq ((List.mem_erase_of_ne hxm).mpr hc))

theorem prepareDijkstra_unreachable {nodes : List Node} {adj : AdjMap}
    {startNode goalNode : Node}
    (hnd : (nodes.map Node.id).Nodup)
    (hclosed : ∀ u, ∀ e ∈ adjGet adj u, e.node ∈ nodes.map Node.id)
    (hstart : startNode.id ∈ nodes.map Node.id)
    (hunreach : ¬ Reach adj startNode.id goalNode.id) :
    ∃ final : Step,
      (prepareDijkstra nodes adj startNode goalNode).getLast? = some final ∧
      final.desc = "Dijkstra's algorithm completed" ∧ final.path = [] ∧
      (∀ v, v ∈ final.visited ↔ v ∈ nodes.map Node.id ∧ Reach adj startNode.id v) ∧
      goalNode.id ∉ final.visited := by
  have hds0 : (fun v => if v = startNode.id then (0 : WithTop ℕ) else ⊤) startNode.id < ⊤ := by
    show (if startNode.id = startNode.id then (0 : WithTop ℕ) else ⊤) < ⊤
    rw [if_pos rfl]
    exact lt_top_iff_ne_top.mpr (by simp)
  have hsound0 : ∀ v, (fun v => if v = startNode.id then (0 : WithTop ℕ) else ⊤) v < ⊤ →
      Reach adj startNode.id v := by
    intro v hv
    by_cases hveq : v = startNode.id
    · exact hveq ▸ Reach.refl
    · have hv' : (if v = startNode.id then (0 : WithTop ℕ) else ⊤) < ⊤ := hv
      rw [if_neg hveq] at hv'
      exact absurd hv' (lt_irrefl ⊤)
  have hloop := dijkstraLoop_spec nodes (nodes.map Node.id) adj goalNode.id startNode.id
    hclosed hstart hunreach (nodes.map Node.id).length
    (fun v => if v = startNode.id then 0 else ⊤) (fun _ => none) (nodes.map Node.id)
    [mkDijkstraStep s!"Starting Dijkstra's algorithm from node {nodeLabelOrId startNode}"
      (nodes.map Node.id) [] [] (nodes.map Node.id)
      (fun v => if v = startNode.id then 0 else ⊤)]
    rfl hnd (fun v hv => hv) hds0 hsound0
    (fun v hv hnv => absurd hv hnv) (Or.inl (fun v hv hnv => absurd hv hnv))
  unfold prepareDijkstra
  simp only
  refine ⟨_, List.getLast?_concat _, rfl, rfl, ?_, ?_⟩
  · intro v
    simp only [mkDijkstraStep]
    rw [List.mem_filter]
    constructor
    · rintro ⟨hv, hfin⟩
      refine ⟨hv, (hloop v).mp ?_⟩
      simpa using hfin
    · rintro ⟨hv, hr⟩
      refine ⟨hv, ?_⟩
      simpa using (hloop v).mpr hr
  · simp only [mkDijkstraStep]
    intro hc
    rw [List.mem_filter] at hc
    exact hunreach ((hloop goalNode.id).mp (by simpa using hc.2))

/-! ### A* relaxation-loop facts -/

theorem aStarRelaxStep_mono (hfun : ℕ → ℚ) (si : List ℕ) (m : ℕ) (vn : List ℕ)
    (e : AdjEntry) (st : AStarRelaxRes) (v : ℕ) :
    (aStarRelaxStep hfun si m vn e st).g v ≤ st.g v := by
  unfold aStarRelaxStep
  split
  · next hlt =>
    show (if v = e.node then st.g m + (e.weight : WithTop ℕ) else st.g v) ≤ st.g v
    split
    · next hv => exact hv ▸ hlt.le
    · exact le_refl _
  · exact le_refl _

theorem aStarRelax_mono (hfun : ℕ → ℚ) (si : List ℕ) (m : ℕ) (vn : List ℕ) :
    ∀ (es : List AdjEntry) (st : AStarRelaxRes) (v : ℕ),
      (aStarRelax hfun si m vn es st).g v ≤ st.g v := by
  intro es
  induction es with
  | nil => intro st v; exact le_refl _
  | cons e es ih =>
    intro st v
    exact (ih (aStarRelaxStep hfun si m vn e st) v).trans
      (aStarRelaxStep_mono hfun si m vn e st v)

theorem aStarRelaxStep_gm (hfun : ℕ → ℚ) (si : List ℕ) (m : ℕ) (vn : List ℕ)
    (e : AdjEntry) (st : AStarRelaxRes) :
    (aStarRelaxStep hfun si m vn e st).g m = st.g m := by
  unfold aStarRelaxStep
  split
  · next hlt =>
    show (if m = e.node then st.g m + (e.weight : WithTop ℕ) else st.g m) = st.g m
    split
    · next hme =>
      exfalso
      rw [← hme] at hlt
      exact absurd hlt (not_lt.mpr le_self_add)
    · rfl
  · rfl

theorem aStarRelax_gm (hfun : ℕ → ℚ) (si : List ℕ) (m : ℕ) (vn : List ℕ) :
    ∀ (es : List AdjEntry) (st : AStarRelaxRes),
      (aStarRelax hfun si m vn es st).g m = st.g m := by
  intro es
  induction es with
  | nil => intro st; rfl
  | cons e es ih =>
    intro st
    rw [show aStarRelax hfun si m vn (e :: es) st =
      aStarRelax hfun si m vn es (aStarRelaxStep hfun si m vn e st) from rfl]
    rw [ih, aStarRelaxStep_gm]

theorem aStarRelaxStep_sound {adj : AdjMap} {sId : ℕ} (hfun : ℕ → ℚ) (si : List ℕ)
    (m : ℕ) (vn : List ℕ) (e : AdjEntry) (st : AStarRelaxRes)
    (he : e ∈ adjGet adj m)
    (hsound : ∀ x, st.g x < ⊤ → Reach adj sId x) :
    ∀ x, (aStarRelaxStep hfun si m vn e st).g x < ⊤ → Reach adj sId x := by
  unfold aStarRelaxStep
  split
  · next hlt =>
    intro x
    show (if x = e.node then st.g m + (e.weight : WithTop ℕ) else st.g x) < ⊤ →
      Reach adj sId x
    split
    · next hx =>
      intro halt
      have hm : st.g m < ⊤ := (WithTop.add_lt_top.mp halt).1
      exact Reach.step (hsound m hm) ⟨e, he, hx.symm⟩
    · exact hsound x
  · exact hsound

theorem aStarRelax_sound {adj : AdjMap} {sId : ℕ} (hfun : ℕ → ℚ) (si : List ℕ)
    (m : ℕ) (vn : List ℕ) :
    ∀ (es : List AdjEntry) (st : AStarRelaxRes), (∀ e ∈ es, e ∈ adjGet adj m) →
      (∀ x, st.g x < ⊤ → Reach adj sId x) →
      ∀ x, (aStarRelax hfun si m vn es st).g x < ⊤ → Reach adj sId x := by
  intro es
  induction es with
  | nil => intro st _ hsound; exact hsound
  | cons e es ih =>
    intro st hsub hsound
    exact ih _ (fun e' he' => hsub e' (List.mem_cons_of_mem e he'))
      (aStarRelaxStep_sound hfun si m vn e st (hsub e (List.mem_cons_self e es)) hsound)

theorem aStarRelaxStep_open_mono (hfun : ℕ → ℚ) (si : List ℕ) (m : ℕ) (vn : List ℕ)
    (e : AdjEntry) (st : AStarRelaxRes) {x : ℕ} (hx : x ∈ st.openSet) :
    x ∈ (aStarRelaxStep hfun si m vn e st).openSet := by
  unfold aStarRelaxStep
  split
  · show x ∈ (if e.node ∈ st.openSet then st.openSet else st.openSet ++ [e.node])
    split
    · exact hx
    · exact List.mem_append_left _ hx
  · exact hx

theorem aStarRelax_open_mono (hfun : ℕ → ℚ) (si : List ℕ) (m : ℕ) (vn : List ℕ) :
    ∀ (es : List AdjEntry) (st : AStarRelaxRes) {x : ℕ}, x ∈ st.openSet →
      x ∈ (aStarRelax hfun si m vn es st).openSet := by
  intro es
  induction es with
  | nil => intro st x hx; exact hx
  | cons e es ih =>
    intro st x hx
    exact ih _ (aStarRelaxStep_open_mono hfun si m vn e st hx)

theorem aStarRelaxStep_openfin (hfun : ℕ → ℚ) (si : List ℕ) (m : ℕ) (vn : List ℕ)
    (e : AdjEntry) (st : AStarRelaxRes)
    (hof : ∀ x ∈ st.openSet, st.g x < ⊤) :
    ∀ x ∈ (aStarRelaxStep hfun si m vn e st).openSet,
      (aStarRelaxStep hfun si m vn e st).g x < ⊤ := by
  unfold aStarRelaxStep
  split
  · next hlt =>
    intro x hx
    show (if x = e.node then st.g m + (e.weight : WithTop ℕ) else st.g x) < ⊤
    by_cases hxe : x = e.node
    · rw [if_pos hxe]
      exact lt_of_lt_of_le hlt le_top
    · rw [if_neg hxe]
      have hx' : x ∈ (if e.node ∈ st.openSet then st.openSet else st.openSet ++ [e.node]) := hx
      apply hof
      by_cases hmem : e.node ∈ st.openSet
      · rwa [if_pos hmem] at hx'
      · rw [if_neg hmem] at hx'
        rcases List.mem_append.mp hx' with h | h
        · exact h
        · exact absurd (List.mem_singleton.mp h) hxe
  · exact hof

theorem aStarRelax_openfin (hfun : ℕ → ℚ) (si : List ℕ) (m : ℕ) (vn : List ℕ) :
    ∀ (es : List AdjEntry) (st : AStarRelaxRes), (∀ x ∈ st.openSet, st.g x < ⊤) →
      ∀ x ∈ (aStarRelax hfun si m vn es st).openSet,
        (aStarRelax hfun si m vn es st).g x < ⊤ := by
  intro es
  induction es with
  | nil => intro st hof; exact hof
  | cons e es ih =>
    intro st hof
    exact ih _ (aStarRelaxStep_openfin hfun si m vn e st hof)

theorem aStarRelaxStep_fin (hfun : ℕ → ℚ) (si : List ℕ) (m : ℕ) (vn : List ℕ)
    (e : AdjEntry) (st : AStarRelaxRes) (hm : st.g m < ⊤) :
    (aStarRelaxStep hfun si m vn e st).g e.node < ⊤ := by
  have halt : st.g m + (e.weight : WithTop ℕ) < ⊤ :=
    WithTop.add_lt_top.mpr ⟨hm, WithTop.coe_lt_top _⟩
  unfold aStarRelaxStep
  split
  · show (if e.node = e.node then st.g m + (e.weight : WithTop ℕ) else _) < ⊤
    rw [if_pos rfl]
    exact halt
  · next hnlt =>
    exact lt_of_le_of_lt (not_lt.mp hnlt) halt

theorem aStarRelax_fin (hfun : ℕ → ℚ) (si : List ℕ) (m : ℕ) (vn : List ℕ) :
    ∀ (es : List AdjEntry) (st : AStarRelaxRes), st.g m < ⊤ →
      ∀ e ∈ es, (aStarRelax hfun si m vn es st).g e.node < ⊤ := by
  intro es
  induction es with
  | nil => intro st _ e he; cases he
  | cons e' es ih =>
    intro st hm e he
    rw [show aStarRelax hfun si m vn (e' :: es) st =
      aStarRelax hfun si m vn es (aStarRelaxStep hfun si m vn e' st) from rfl]
    have hm1 : (aStarRelaxStep hfun si m vn e' st).g m < ⊤ := by
      rw [aStarRelaxStep_gm]
      exact hm
    rcases List.mem_cons.mp he with rfl | he'
    · exact lt_of_le_of_lt (aStarRelax_mono hfun si m vn es _ e.node)
        (aStarRelaxStep_fin hfun si m vn e st hm)
    · exact ih _ hm1 e he'

theorem aStarRelaxStep_newfin_open (hfun : ℕ → ℚ) (si : List ℕ) (m : ℕ) (vn : List ℕ)
    (e : AdjEntry) (st : AStarRelaxRes) {x : ℕ}
    (hfin : (aStarRelaxStep hfun si m vn e st).g x < ⊤) (htop : st.g x = ⊤) :
    x ∈ (aStarRelaxStep hfun si m vn e st).openSet := by
  revert hfin
  unfold aStarRelaxStep
  split
  · intro hfin
    have hfin' : (if x = e.node then st.g m + (e.weight : WithTop ℕ) else st.g x) < ⊤ := hfin
    by_cases hxe : x = e.node
    · show x ∈ (if e.node ∈ st.openSet then st.openSet else st.openSet ++ [e.node])
      subst hxe
      split
      · next hmem => exact hmem
      · exact List.mem_append_right _ (List.mem_singleton.mpr rfl)
    · rw [if_neg hxe, htop] at hfin'
      exact absurd hfin' (lt_irrefl ⊤)
  · intro hfin
    rw [show (st : AStarRelaxRes).g x = ⊤ from htop] at hfin
    exact absurd hfin (lt_irrefl ⊤)

theorem aStarRelax_newfin_open (hfun : ℕ → ℚ) (si : List ℕ) (m : ℕ) (vn : List ℕ) :
    ∀ (es : List AdjEntry) (st : AStarRelaxRes) {x : ℕ},
      (aStarRelax hfun si m vn es st).g x < ⊤ → st.g x = ⊤ →
      x ∈ (aStarRelax hfun si m vn es st).openSet := by
  intro es
  induction es with
  | nil =>
    intro st x hfin htop
    rw [show (aStarRelax hfun si m vn [] st).g x = st.g x from rfl, htop] at hfin
    exact absurd hfin (lt_irrefl ⊤)
  | cons e es ih =>
    intro st x hfin htop
    rw [show aStarRelax hfun si m vn (e :: es) st =
      aStarRelax hfun si m vn es (aStarRelaxStep hfun si m vn e st) from rfl] at hfin ⊢
    by_cases h1 : (aStarRelaxStep hfun si m vn e st).g x = ⊤
    · exact ih _ hfin h1
    · exact aStarRelax_open_mono hfun si m vn es _
        (aStarRelaxStep_newfin_open hfun si m vn e st (lt_top_iff_ne_top.mpr h1) htop)

theorem aStarRelaxStep_paths (hfun : ℕ → ℚ) (si : List ℕ) (m : ℕ) (vn : List ℕ)
    (e : AdjEntry) (st : AStarRelaxRes)
    (hp : ∀ s' ∈ st.steps, Step.path s' = []) :
    ∀ s' ∈ (aStarRelaxStep hfun si m vn e st).steps, Step.path s' = [] := by
  unfold aStarRelaxStep
  split
  · intro s' hs'
    have hs'' : s' ∈ st.steps ++ [mkAStarStep _ _ vn [] si _ _] := hs'
    rcases List.mem_append.mp hs'' with h | h
    · exact hp s' h
    · rw [List.mem_singleton.mp h]
      rfl
  · exact hp

theorem aStarRelax_paths (hfun : ℕ → ℚ) (si : List ℕ) (m : ℕ) (vn : List ℕ) :
    ∀ (es : List AdjEntry) (st : AStarRelaxRes),
      (∀ s' ∈ st.steps, Step.path s' = []) →
      ∀ s' ∈ (aStarRelax hfun si m vn es st).steps, Step.path s' = [] := by
  intro es
  induction es with
  | nil => intro st hp; exact hp
  | cons e es ih =>
    intro st hp
    exact ih _ (aStarRelaxStep_paths hfun si m vn e st hp)

/-- The A* main-loop invariant argument: with a sound g-score map, a
finite start, every open node finite and every finite node either open or
fully relaxed, the loop on an unreachable goal can only exit with an empty
open set; its final g-score map is finite exactly on the reachable nodes
and every step it appends carries an empty path (the "Found path" step is
unreachable). -/
theorem aStarLoop_spec (nodeIds sortedIds : List ℕ) (adj : AdjMap) (goalId : ℕ)
    (hfun : ℕ → ℚ) (hclosed : ∀ u, ∀ e ∈ adjGet adj u, e.node ∈ nodeIds)
    (sId : ℕ) (hs : sId ∈ nodeIds) (hunreach : ¬ Reach adj sId goalId) :
    ∀ (g : ℕ → WithTop ℕ) (f : ℕ → WithTop ℚ) (cameFrom : ℕ → Option ℕ)
      (openSet : List ℕ) (hopen : ∀ x ∈ openSet, x ∈ nodeIds) (steps : List Step),
      g sId < ⊤ →
      (∀ x, g x < ⊤ → Reach adj sId x) →
      (∀ x ∈ openSet, g x < ⊤) →
      (∀ v ∈ nodeIds, g v < ⊤ → v ∈ openSet ∨ ∀ e ∈ adjGet adj v, g e.node < ⊤) →
      (∀ s' ∈ steps, Step.path s' = []) →
      (∀ v, (aStarLoop nodeIds sortedIds adj goalId hfun hclosed g f cameFrom openSet
        hopen steps).1 v < ⊤ ↔ Reach adj sId v) ∧
      (∀ s' ∈ (aStarLoop nodeIds sortedIds adj goalId hfun hclosed g f cameFrom openSet
        hopen steps).2.2, Step.path s' = []) := by
  intro g0 f0 cameFrom0 openSet0 hopen0 steps0
  refine aStarLoop.induct nodeIds sortedIds adj goalId hfun hclosed
    (fun g f cameFrom openSet hopen steps =>
      g sId < ⊤ →
      (∀ x, g x < ⊤ → Reach adj sId x) →
      (∀ x ∈ openSet, g x < ⊤) →
      (∀ v ∈ nodeIds, g v < ⊤ → v ∈ openSet ∨ ∀ e ∈ adjGet adj v, g e.node < ⊤) →
      (∀ s' ∈ steps, Step.path s' = []) →
      (∀ v, (aStarLoop nodeIds sortedIds adj goalId hfun hclosed g f cameFrom openSet
        hopen steps).1 v < ⊤ ↔ Reach adj sId v) ∧
      (∀ s' ∈ (aStarLoop nodeIds sortedIds adj goalId hfun hclosed g f cameFrom openSet
        hopen steps).2.2, Step.path s' = []))
    ?_ ?_ ?_ g0 f0 cameFrom0 openSet0 hopen0 steps0
  · intro g f cameFrom openSet hopen steps hsel
    intro hds hsound hof hJ hpaths
    have hnil : openSet = [] := by
      cases openSet with
      | nil => rfl
      | cons x xs => simp [selectMinBy] at hsel
    subst hnil
    rw [aStarLoop.eq_def]
    split
    · constructor
      · intro v
        refine ⟨hsound v, fun hr => ?_⟩
        refine dijkstra_complete_of_J hclosed hs hds ?_
          (fun v hv => absurd hv (List.not_mem_nil v)) v hr
        intro x hx _ hfin
        rcases hJ x hx hfin with hmem | hrel
        · exact absurd hmem (List.not_mem_nil x)
        · exact hrel
      · exact fun s' hs' => hpaths s' hs'
    · next c' heq =>
      rw [hsel] at heq
      cases heq
  · intro g f cameFrom openSet hopen steps hsel
    intro hds hsound hof hJ hpaths
    exfalso
    have hmem : goalId ∈ openSet := selectMinBy_mem hsel
    exact hunreach (hsound goalId (hof goalId hmem))
  · intro g f cameFrom openSet hopen steps current hsel hgoal
    intro o1 visitedNodes r ih
    intro hds hsound hof hJ hpaths
    have hmem : current ∈ openSet := selectMinBy_mem hsel
    have hgc : g current < ⊤ := hof current hmem
    rw [aStarLoop.eq_def]
    split
    · next heq =>
      rw [hsel] at heq
      cases heq
    · next c' heq =>
      rw [hsel] at heq
      obtain rfl : current = c' := Option.some.inj heq
      rw [if_neg hgoal]
      refine ih ?_ ?_ ?_ ?_ ?_
      · exact lt_of_le_of_lt (aStarRelax_mono _ _ _ _ _ _ sId) hds
      · exact aStarRelax_sound hfun sortedIds current _ _ _ (fun e he => he) hsound
      · apply aStarRelax_openfin
        intro x hx
        exact hof x (List.mem_of_mem_erase hx)
      · intro v hv hfin
        by_cases hvtop : g v = ⊤
        · exact Or.inl (aStarRelax_newfin_open hfun sortedIds current _ _ _ hfin hvtop)
        · have hfin0 : g v < ⊤ := lt_top_iff_ne_top.mpr hvtop
          rcases hJ v hv hfin0 with hopen0 | hrelaxed
          · by_cases hvc : v = current
            · subst hvc
              refine Or.inr ?_
              intro e he
              exact aStarRelax_fin hfun sortedIds v _ _ _ hgc e he
            · exact Or.inl (aStarRelax_open_mono hfun sortedIds current _ _ _
                ((List.mem_erase_of_ne hvc).mpr hopen0))
          · exact Or.inr (fun e he =>
              lt_of_le_of_lt (aStarRelax_mono _ _ _ _ _ _ e.node) (hrelaxed e he))
      · apply aStarRelax_paths
        intro s' hs'
        rcases List.mem_append.mp hs' with h | h
        · exact hpaths s' h
        · rw [List.mem_singleton.mp h]
          rfl

theorem prepareAStar_unreachable {nodes : List Node} {adj : AdjMap}
    {startNode goalNode : Node} (hfun : ℕ → ℚ)
    (hclosed : ∀ u, ∀ e ∈ adjGet adj u, e.node ∈ nodes.map Node.id)
    (hstart : startNode.id ∈ nodes.map Node.id)
    (hunreach : ¬ Reach adj startNode.id goalNode.id) :
    ∃ final : Step,
      (prepareAStar nodes adj startNode goalNode hfun hclosed hstart).getLast? =
        some final ∧
      final.desc = "A* search completed" ∧ final.path = [] ∧
      (∀ v, v ∈ final.visited ↔ v ∈ nodes.map Node.id ∧ Reach adj startNode.id v) ∧
      goalNode.id ∉ final.visited ∧
      (∀ st ∈ prepareAStar nodes adj startNode goalNode hfun hclosed hstart,
        Step.path st = []) := by
  have hds0 : (fun v => if v = startNode.id then (0 : WithTop ℕ) else ⊤) startNode.id < ⊤ := by
    show (if startNode.id = startNode.id then (0 : WithTop ℕ) else ⊤) < ⊤
    rw [if_pos rfl]
    exact lt_top_iff_ne_top.mpr (by simp)
  have hsound0 : ∀ v, (fun v => if v = startNode.id then (0 : WithTop ℕ) else ⊤) v < ⊤ →
      Reach adj startNode.id v := by
    intro v hv
    by_cases hveq : v = startNode.id
    · exact hveq ▸ Reach.refl
    · have hv' : (if v = startNode.id then (0 : WithTop ℕ) else ⊤) < ⊤ := hv
      rw [if_neg hveq] at hv'
      exact absurd hv' (lt_irrefl ⊤)
  have hof0 : ∀ x ∈ [startNode.id],
      (fun v => if v = startNode.id then (0 : WithTop ℕ) else ⊤) x < ⊤ := by
    intro x hx
    rw [List.mem_singleton] at hx
    subst hx
    exact hds0
  have hJ0 : ∀ v ∈ nodes.map Node.id,
      (fun v => if v = startNode.id then (0 : WithTop ℕ) else ⊤) v < ⊤ →
      v ∈ [startNode.id] ∨ ∀ e ∈ adjGet adj v,
        (fun v => if v = startNode.id then (0 : WithTop ℕ) else ⊤) e.node < ⊤ := by
    intro v _ hfin
    by_cases hveq : v = startNode.id
    · exact Or.inl (List.mem_singleton.mpr hveq)
    · have hv' : (if v = startNode.id then (0 : WithTop ℕ) else ⊤) < ⊤ := hfin
      rw [if_neg hveq] at hv'
      exact absurd hv' (lt_irrefl ⊤)
  have hloop := aStarLoop_spec (nodes.map Node.id) (sortIds (nodes.map Node.id)) adj
    goalNode.id hfun hclosed startNode.id hstart hunreach
    (fun v => if v = startNode.id then 0 else ⊤)
    (fun v => if v = startNode.id then ((hfun startNode.id : ℚ) : WithTop ℚ) else ⊤)
    (fun _ => none) [startNode.id]
    (by intro x hx; rw [List.mem_singleton] at hx; exact hx ▸ hstart)
    [mkAStarStep s!"Starting A* search from node {nodeLabelOrId startNode}"
      [startNode.id] [] [] (sortIds (nodes.map Node.id))
      (fun v => if v = startNode.id then 0 else ⊤)
      (fun v => if v = startNode.id then ((hfun startNode.id : ℚ) : WithTop ℚ) else ⊤)]
    hds0 hsound0 hof0 hJ0
    (by
      intro s' hs'
      rw [List.mem_singleton] at hs'
      rw [hs']
      rfl)
  obtain ⟨hiff, hpaths⟩ := hloop
  unfold prepareAStar
  simp only
  refine ⟨_, List.getLast?_concat _, rfl, rfl, ?_, ?_, ?_⟩
  · intro v
    simp only [mkAStarStep]
    rw [List.mem_filter]
    constructor
    · rintro ⟨hv, hfin⟩
      exact ⟨mem_sortIds.mp hv, (hiff v).mp (by simpa using hfin)⟩
    · rintro ⟨hv, hr⟩
      exact ⟨mem_sortIds.mpr hv, by simpa using (hiff v).mpr hr⟩
  · simp only [mkAStarStep]
    intro hc
    rw [List.mem_filter] at hc
    exact hunreach ((hiff goalNode.id).mp (by simpa using hc.2))
  · intro st hst
    rcases List.mem_append.mp hst with h | h
    · exact hpaths st h
    · rw [List.mem_singleton.mp h]
      rfl

/-- C1 (amended) — for every graph in which the goal is unreachable from
the start, both generators' traces end with the unconditional "completed"
step, whose reconstructed path is empty and whose visited set is exactly
the start's connected component (never containing the goal); and the A*
trace carries an empty path in EVERY step.  (The Dijkstra trace does not:
see the counterexample — before breaking it emits a "Found shortest path
to goal with distance Infinity" step carrying the one-element path
[goal].) -/
theorem unreachable_goal_trace {nodes : List Node} {adj : AdjMap}
    {startNode goalNode : Node} (hfun : ℕ → ℚ)
    (hnd : (nodes.map Node.id).Nodup)
    (hclosed : ∀ u, ∀ e ∈ adjGet adj u, e.node ∈ nodes.map Node.id)
    (hstart : startNode.id ∈ nodes.map Node.id)
    (hunreach : ¬ Reach adj startNode.id goalNode.id) :
    (∃ final : Step,
      (prepareDijkstra nodes adj startNode goalNode).getLast? = some final ∧
      final.desc = "Dijkstra's algorithm completed" ∧ final.path = [] ∧
      (∀ v, v ∈ final.visited ↔ v ∈ nodes.map Node.id ∧ Reach adj startNode.id v) ∧
      goalNode.id ∉ final.visited) ∧
    (∃ final : Step,
      (prepareAStar nodes adj startNode goalNode hfun hclosed hstart).getLast? =
        some final ∧
      final.desc = "A* search completed" ∧ final.path = [] ∧
      (∀ v, v ∈ final.visited ↔ v ∈ nodes.map Node.id ∧ Reach adj startNode.id v) ∧
      goalNode.id ∉ final.visited ∧
      (∀ st ∈ prepareAStar nodes adj startNode goalNode hfun hclosed hstart,
        Step.path st = [])) :=
  ⟨prepareDijkstra_unreachable hnd hclosed hstart hunreach,
   prepareAStar_unreachable hfun hclosed hstart hunreach⟩

/-- The two-node, zero-edge store of the C1 scenario (goal in its own
component). -/
def c1graph : GraphState := addNode (addNode initialState 0 0) 1 0

/-- The node carrying id 0 (start). -/
def c1start : Node := { ref := 0, data := { id := 0, x := 0, y := 0, label := "0", color := none } }

/-- The node carrying id 1 (the unreachable goal). -/
def c1goal : Node := { ref := 1, data := { id := 1, x := 1, y := 0, label := "1", color := none } }

theorem c1graph_adjGet (u : ℕ) : adjGet c1graph.adj u = [] := by
  show adjGet [(0, []), (1, [])] u = []
  by_cases h0 : u = 0
  · subst h0; rfl
  · by_cases h1 : u = 1
    · subst h1; rfl
    · unfold adjGet
      simp [List.lookup, beq_false_of_ne h0, beq_false_of_ne h1]

theorem reach_nil_adj {adj : AdjMap} (hadj : ∀ u, adjGet adj u = []) {s v : ℕ}
    (h : Reach adj s v) : v = s := by
  induction h with
  | refl => rfl
  | @step u v hr hex ih =>
    obtain ⟨e, he, _⟩ := hex
    rw [hadj u] at he
    cases he

theorem unreachable_goal_trace_witness :
    ∃ final : Step,
      (prepareDijkstra c1graph.nodes c1graph.adj c1start c1goal).getLast? = some final ∧
      final.path = [] ∧ Node.id c1goal ∉ final.visited := by
  have hnd : (c1graph.nodes.map Node.id).Nodup := by decide
  have hclosed : ∀ u, ∀ e ∈ adjGet c1graph.adj u, e.node ∈ c1graph.nodes.map Node.id :=
    fun u e he => absurd (c1graph_adjGet u ▸ he) (List.not_mem_nil e)
  have hstart : Node.id c1start ∈ c1graph.nodes.map Node.id := by decide
  have hunreach : ¬ Reach c1graph.adj (Node.id c1start) (Node.id c1goal) :=
    fun h => absurd (reach_nil_adj c1graph_adjGet h) (by decide)
  obtain ⟨⟨final, hlast, _, hpath, _, hgoal⟩, _⟩ :=
    unreachable_goal_trace (fun _ => 0) hnd hclosed hstart hunreach
  exact ⟨final, hlast, hpath, hgoal⟩

/-- The Dijkstra trace of the C1 scenario. -/
def c1steps : List Step := prepareDijkstra c1graph.nodes c1graph.adj c1start c1goal

/-- C1 counterexample — with the goal unreachable, the Dijkstra loop keeps
dequeuing Infinity-distance nodes, eventually dequeues the goal itself and
emits a "Found shortest path to goal with distance Infinity" step carrying
the one-element reconstructed path [goal] — the trace does NOT stay free
of goal-carrying paths as claimed (the final step does end with an empty
path). -/
theorem dijkstra_infinity_path_counterexample :
    ReachableAny false c1graph ∧
    (¬ Reach c1graph.adj (Node.id c1start) (Node.id c1goal)) ∧
    c1steps.map Step.path = [[], [], [], [1], []] ∧
    (∃ st ∈ c1steps, st.desc = "Found shortest path to goal with distance Infinity" ∧
      st.path = [Node.id c1goal]) := by
  refine ⟨ReachableAny.addNode (ReachableAny.addNode ReachableAny.init),
    fun h => absurd (reach_nil_adj c1graph_adjGet h) (by decide), by decide, by decide⟩

end GV
